import Mathlib

/-!
# Buffered cursor I/O and integer text codec

A shallow embedding of `IO/WriteIntText.h`, `IO/ReadBuffer.h` and
`IO/ReadHelper.cc`, followed by the properties established about them.

Conventions of the embedding:

* a byte (`char`) is a natural number below 256; `'0'` is 48, `'-'` is 45;
* a `char *` is a view `Nat → Nat` of the memory starting at the pointer, so
  `dst[k]` is `dst k` and a store is a pointwise update;
* `Poco::UInt32` arithmetic that can wrap is written with an explicit
  reduction modulo `2^32`.
-/

namespace DB

/-! ## Memory views -/

/-- The store `p[k] = v` on a memory view. -/
def store (p : Nat → Nat) (k v : Nat) : Nat → Nat :=
  fun j => if j = k then v else p j

/-- The bytes `p[0 .. n-1]` of a memory view, in address order. -/
def bytesOf (p : Nat → Nat) (n : Nat) : List Nat :=
  (List.range n).map p

/-- Subtraction of `Poco::UInt32` values, wrapping modulo `2^32`. -/
def sub32 (a b : Nat) : Nat :=
  (a + 4294967296 - b % 4294967296) % 4294967296

/-! ## `IO/WriteIntText.h` -/

/-- The constant `WRITE_HELPERS_MAX_INT_WIDTH`. -/
def WRITE_HELPERS_MAX_INT_WIDTH : Nat := 20

/-- The function `digits10`: the comparison ladder, with one division by `10^12` for
larger values. The result is a `Poco::UInt32`. -/
def digits10 (x : Nat) : Nat :=
  if x < 10 then 1
  else if x < 100 then 2
  else if x < 1000 then 3
  else if x < 1000000000000 then
    if x < 100000000 then
      if x < 1000000 then
        if x < 10000 then 4
        else 5 + (if x ≥ 100000 then 1 else 0)
      else 7 + (if x ≥ 10000000 then 1 else 0)
    else if x < 10000000000 then 9 + (if x ≥ 1000000000 then 1 else 0)
    else 11 + (if x ≥ 100000000000 then 1 else 0)
  else (12 + digits10 (x / 1000000000000)) % 4294967296
termination_by x
decreasing_by omega

/-- The table `digits` of `writeUIntText`: the two-character decimal texts of 0 to 99. -/
def digitsTable : List Char :=
  ("00010203040506070809" ++
   "10111213141516171819" ++
   "20212223242526272829" ++
   "30313233343536373839" ++
   "40414243444546474849" ++
   "50515253545556575859" ++
   "60616263646566676869" ++
   "70717273747576777879" ++
   "80818283848586878889" ++
   "90919293949596979899").toList

/-- The lookup `digits[i]`; index 200 holds the terminating zero byte. -/
def digits (i : Nat) : Nat :=
  match digitsTable.get? i with
  | some c => c.toNat
  | none => 0

/-- The loop `while (x >= 100)` of `writeUIntText(T, char *)` on the state
`(x, next, dst)`. -/
def writeUIntTextLoop (x next : Nat) (dst : Nat → Nat) : Nat × Nat × (Nat → Nat) :=
  if 100 ≤ x then
    let i := ((x % 100) * 2) % 4294967296
    let dst1 := store dst next (digits (i + 1))
    let dst2 := store dst1 (sub32 next 1) (digits i)
    writeUIntTextLoop (x / 100) (sub32 next 2) dst2
  else (x, next, dst)
termination_by x
decreasing_by omega

/-- The function `writeUIntText(T x, char * dst)`: returns the length and the memory
after the stores. -/
def writeUIntText (x : Nat) (dst : Nat → Nat) : Nat × (Nat → Nat) :=
  let length := digits10 x
  let st := writeUIntTextLoop x (sub32 length 1) dst
  let x1 := st.1
  let next := st.2.1
  let dst1 := st.2.2
  if x1 < 10 then
    (length, store dst1 next ((48 + x1) % 256))
  else
    let i := (x1 * 2) % 4294967296
    let dst2 := store dst1 next (digits (i + 1))
    (length, store dst2 (sub32 next 1) (digits i))

/-! ### The write cursor -/

/-- Modelled from the spec: the write cursor `WriteBuffer` (`IO/WriteBuffer.h` is not
among the sources). It is a cursor over the current chunk (`mem` is the memory from
`buffer().begin()`, `pos` the offset of `position()`, `size` the offset of
`buffer().end()`) in front of an append-only sink; `flushed` holds the bytes already
handed to the sink. -/
structure WriteBuffer where
  flushed : List Nat
  mem : Nat → Nat
  pos : Nat
  size : Nat

namespace WriteBuffer

/-- Modelled from the spec: `has_pending_data()` returns `position < end`. -/
def hasPendingData (b : WriteBuffer) : Bool :=
  decide (b.pos < b.size)

/-- Modelled from the spec: moving to the next chunk hands the bytes written so far to
the sink and puts the position back at the start of the chunk. -/
def next (b : WriteBuffer) : WriteBuffer :=
  { b with flushed := b.flushed ++ bytesOf b.mem b.pos, pos := 0 }

/-- Modelled from the spec: `refill_if_exhausted()`, a no-op while the chunk has room. -/
def nextIfAtEnd (b : WriteBuffer) : WriteBuffer :=
  if b.hasPendingData then b else b.next

/-- The statements `*buf.position() = c; ++buf.position();`. -/
def putAtPosition (b : WriteBuffer) (c : Nat) : WriteBuffer :=
  { b with mem := store b.mem b.pos c, pos := b.pos + 1 }

/-- Modelled from the spec: the generic multi-byte `write(from, n)`, which appends the
byte range to the cursor and moves to the next chunk whenever the current one is full. -/
def write (b : WriteBuffer) (bytes : List Nat) : WriteBuffer :=
  bytes.foldl (fun acc c => acc.nextIfAtEnd.putAtPosition c) b

/-- The logical output so far: what the sink received, then the bytes of the current
chunk before the position. -/
def output (b : WriteBuffer) : List Nat :=
  b.flushed ++ bytesOf b.mem b.pos

end WriteBuffer

/-- The store `*pos = v` into the local array `tmp`, whose view is indexed by the signed
offset from `tmp`. -/
def storeTmp (p : Int → Nat) (k : Int) (v : Nat) : Int → Nat :=
  fun j => if j = k then v else p j

/-- The bytes `p[from .. from + n - 1]` of the local array. -/
def rangeTmp (p : Int → Nat) (start : Int) (n : Nat) : List Nat :=
  (List.range n).map (fun (k : Nat) => p (start + (k : Int)))

/-- The loop `for (...; x != 0; --pos)` of `writeUIntTextFallback` on the state
`(x, pos, tmp)`, `pos` being the offset of the pointer from `tmp`. -/
def writeUIntTextFallbackLoop (x : Nat) (pos : Int) (tmp : Int → Nat) : Int × (Int → Nat) :=
  if x ≠ 0 then
    writeUIntTextFallbackLoop (x / 10) (pos - 1) (storeTmp tmp pos ((48 + x % 10) % 256))
  else (pos, tmp)
termination_by x
decreasing_by omega

/-- The function `writeUIntTextFallback`; `tmp` is the (uninitialised) content of the
local array. -/
def writeUIntTextFallback (tmp : Int → Nat) (x : Nat) (buf : WriteBuffer) : WriteBuffer :=
  if x = 0 then
    buf.nextIfAtEnd.putAtPosition 48
  else
    let st := writeUIntTextFallbackLoop x ((WRITE_HELPERS_MAX_INT_WIDTH : Int) - 1) tmp
    let pos := st.1 + 1
    buf.write (rangeTmp st.2 pos ((WRITE_HELPERS_MAX_INT_WIDTH : Int) - pos).toNat)

/-- The function `writeUIntText(T x, WriteBuffer & buf)`. On the direct path the digits are
stored through the view of the chunk that starts at the position. -/
def writeUIntTextBuf (tmp : Int → Nat) (x : Nat) (buf : WriteBuffer) : WriteBuffer :=
  if buf.pos + WRITE_HELPERS_MAX_INT_WIDTH < buf.size then
    let r := writeUIntText x (fun j => buf.mem (buf.pos + j))
    { buf with
      mem := fun k => if k < buf.pos then buf.mem k else r.2 (k - buf.pos),
      pos := buf.pos + r.1 }
  else
    writeUIntTextFallback tmp x buf

/-- The bytes of a string literal. -/
def cstr (s : String) : List Nat :=
  s.toList.map Char.toNat

/-- The function `writeSIntText` for the signed type `T` of `w` bits; `x` ranges over the
values of `T`. -/
def writeSIntText (w : Nat) (tmp : Int → Nat) (x : Int) (buf : WriteBuffer) : WriteBuffer :=
  if x = -(2 : Int) ^ (w - 1) then
    if w / 8 = 1 then buf.write ((cstr "-128").take 4)
    else if w / 8 = 2 then buf.write ((cstr "-32768").take 6)
    else if w / 8 = 4 then buf.write ((cstr "-2147483648").take 11)
    else buf.write ((cstr "-9223372036854775808").take 20)
  else
    let st : Int × WriteBuffer :=
      if x < 0 then (-x, buf.nextIfAtEnd.putAtPosition 45) else (x, buf)
    writeUIntTextBuf tmp (st.1 % (2 : Int) ^ w).toNat st.2

/-! ## `IO/ReadBuffer.h` -/

/-- One call of the source's `nextImpl()`: the value it returns, the region it leaves in
`working_buffer` (`mem` is the memory from `begin`, `size` the distance to `end`) and the
value it leaves in `working_buffer_offset`. -/
structure Refill where
  res : Bool
  mem : Nat → Nat
  size : Nat
  offset : Nat

/-- The class `ReadBuffer` with the members of `BufferBase` it uses. `mem` and `size`
describe `working_buffer`, `pos` is the offset of the position from
`working_buffer.begin()`, and `source` lists what the coming calls of `nextImpl()` do; once
the list is used up `nextImpl()` is the default one, which returns `false`. -/
structure ReadBuffer where
  mem : Nat → Nat
  size : Nat
  pos : Nat
  bytes : Nat
  working_buffer_offset : Nat
  source : List Refill

namespace ReadBuffer

set_option linter.unusedVariables false

/-- Modelled from the spec: `has_pending_data()` returns `position < end` (`BufferBase` is
not among the sources). -/
def hasPendingData (b : ReadBuffer) : Bool :=
  decide (b.pos < b.size)

/-- The virtual `nextImpl()`, played from `source`. -/
def nextImpl (b : ReadBuffer) : Bool × ReadBuffer :=
  match b.source with
  | [] => (false, b)
  | r :: rs =>
    (r.res, { b with mem := r.mem, size := r.size, working_buffer_offset := r.offset,
                     source := rs })

/-- The method `next()`. -/
def next (b : ReadBuffer) : Bool × ReadBuffer :=
  let b1 := { b with bytes := b.bytes + b.pos }
  let r := b1.nextImpl
  let b2 := if !r.1 then { r.2 with size := 0 } else r.2
  (r.1, { b2 with pos := b2.working_buffer_offset, working_buffer_offset := 0 })

/-- The method `eof()`: `!hasPendingData() && !next()`. -/
def eof (b : ReadBuffer) : Bool × ReadBuffer :=
  if b.hasPendingData then (false, b)
  else
    let r := b.next
    (!r.1, r.2)

/-- The method `ignore()`; the first component is the message of the exception thrown,
if any. -/
def ignore (b : ReadBuffer) : Option String × ReadBuffer :=
  match b.eof with
  | (false, b1) => (none, { b1 with pos := b1.pos + 1 })
  | (true, b1) => (some "Attempt to read after EOF", b1)

/-- The expression `static_cast<size_t>(working_buffer.end() - pos)`. -/
def available (b : ReadBuffer) : Nat :=
  if b.pos ≤ b.size then b.size - b.pos
  else (((b.size : Int) - (b.pos : Int)) % 18446744073709551616).toNat

/-! ### Termination of the loops

Every loop over a read cursor either consumes a byte of the current region or takes a
refill from the source. The measure below decreases in both cases; the facts about it that
the definitions of the loops rely on are proved next to them. -/

/-- The measure that decreases along the loops over a buffer: the bytes left in the region
plus, for each coming refill, its size and one. -/
def loopMeasure (b : ReadBuffer) : Nat :=
  (b.size - b.pos) + (b.source.map (fun r => r.size + 1)).sum

theorem loopMeasure_next (b : ReadBuffer) :
    b.next.2.loopMeasure ≤ b.loopMeasure ∧ (b.next.1 = true → b.next.2.loopMeasure < b.loopMeasure) := by
  unfold next nextImpl loopMeasure
  cases hs : b.source with
  | nil => simp
  | cons r rs =>
    cases hr : r.res <;> simp [hr] <;> omega

theorem loopMeasure_eof (b : ReadBuffer) :
    b.eof.2.loopMeasure ≤ b.loopMeasure ∧
    (b.eof.1 = false → (b.eof.2 = b ∧ b.pos < b.size) ∨ b.eof.2.loopMeasure < b.loopMeasure) := by
  unfold eof
  by_cases hp : b.pos < b.size
  · simp [hasPendingData, hp]
  · obtain ⟨h1, h2⟩ := loopMeasure_next b
    simp only [hasPendingData, hp, decide_False, Bool.false_eq_true, if_false]
    refine ⟨h1, fun h => Or.inr (h2 ?_)⟩
    simpa using h

theorem loopMeasure_advance (b : ReadBuffer) (k : Nat) :
    ({ b with pos := b.pos + k } : ReadBuffer).loopMeasure ≤ b.loopMeasure := by
  unfold loopMeasure
  simp only
  omega

theorem loopMeasure_step (b b1 : ReadBuffer) (n : Nat) (hn : n ≠ 0) (he : b.eof = (false, b1)) :
    ({ b1 with pos := b1.pos + min b1.available n } : ReadBuffer).loopMeasure < b.loopMeasure := by
  obtain ⟨h1, h2⟩ := loopMeasure_eof b
  rw [he] at h1 h2
  rcases h2 rfl with ⟨hb, hp⟩ | hlt
  · simp only at hb
    subst hb
    unfold loopMeasure available
    simp only [le_of_lt hp, if_true]
    have : 1 ≤ min (b1.size - b1.pos) n := by
      rw [Nat.le_min]
      omega
    omega
  · exact lt_of_le_of_lt (loopMeasure_advance b1 _) hlt

/-- The loop of `ignore(size_t n)`; returns what is left of `n`. -/
def ignoreLoop (b : ReadBuffer) (n : Nat) : Nat × ReadBuffer :=
  if hn : n ≠ 0 then
    match he : b.eof with
    | (false, b1) =>
      let bytes_to_ignore := min b1.available n
      ignoreLoop { b1 with pos := b1.pos + bytes_to_ignore } (n - bytes_to_ignore)
    | (true, b1) => (n, b1)
  else (n, b)
termination_by b.loopMeasure
decreasing_by exact loopMeasure_step b b1 n hn he

/-- The method `ignore(size_t n)`. -/
def ignoreN (b : ReadBuffer) (n : Nat) : Option String × ReadBuffer :=
  let r := b.ignoreLoop n
  if r.1 ≠ 0 then (some "Attempt to read after EOF", r.2) else (none, r.2)

/-- The loop of `tryIgnore(size_t n)` on the state `(buffer, bytes_ignored)`. -/
def tryIgnoreLoop (b : ReadBuffer) (n bytes_ignored : Nat) : Nat × ReadBuffer :=
  if hn : bytes_ignored < n then
    match he : b.eof with
    | (false, b1) =>
      let bytes_to_ignore := min b1.available (n - bytes_ignored)
      tryIgnoreLoop { b1 with pos := b1.pos + bytes_to_ignore } n
        (bytes_ignored + bytes_to_ignore)
    | (true, b1) => (bytes_ignored, b1)
  else (bytes_ignored, b)
termination_by b.loopMeasure
decreasing_by exact loopMeasure_step b b1 (n - bytes_ignored) (by omega) he

/-- The method `tryIgnore(size_t n)`. -/
def tryIgnore (b : ReadBuffer) (n : Nat) : Nat × ReadBuffer :=
  b.tryIgnoreLoop n 0

/-- The call `::memcpy(to + at, pos, k)`. -/
def memcpy (to_ : Nat → Nat) (dstOff : Nat) (src : Nat → Nat) (srcOff k : Nat) : Nat → Nat :=
  fun j => if dstOff ≤ j ∧ j < dstOff + k then src (srcOff + (j - dstOff)) else to_ j

/-- The loop of `read(char * to, size_t n)` on the state `(buffer, to, bytes_copied)`. -/
def readLoop (b : ReadBuffer) (to_ : Nat → Nat) (n bytes_copied : Nat) :
    Nat × ReadBuffer × (Nat → Nat) :=
  if hn : bytes_copied < n then
    match he : b.eof with
    | (false, b1) =>
      let bytes_to_copy := min b1.available (n - bytes_copied)
      readLoop { b1 with pos := b1.pos + bytes_to_copy }
        (memcpy to_ bytes_copied b1.mem b1.pos bytes_to_copy) n (bytes_copied + bytes_to_copy)
    | (true, b1) => (bytes_copied, b1, to_)
  else (bytes_copied, b, to_)
termination_by b.loopMeasure
decreasing_by exact loopMeasure_step b b1 (n - bytes_copied) (by omega) he

/-- The method `read(char * to, size_t n)`: the count returned, the buffer and the
destination memory afterwards. -/
def read (b : ReadBuffer) (to_ : Nat → Nat) (n : Nat) : Nat × ReadBuffer × (Nat → Nat) :=
  b.readLoop to_ n 0

/-- The method `readStrict(char * to, size_t n)`. -/
def readStrict (b : ReadBuffer) (to_ : Nat → Nat) (n : Nat) :
    Option String × ReadBuffer × (Nat → Nat) :=
  let r := b.read to_ n
  if n ≠ r.1 then (some "Cannot read all data", r.2) else (none, r.2)

theorem loopMeasure_readLoop (b : ReadBuffer) (to_ : Nat → Nat) (n bytes_copied : Nat) :
    (b.readLoop to_ n bytes_copied).2.1.loopMeasure ≤ b.loopMeasure := by
  induction b, to_, n, bytes_copied using readLoop.induct with
  | case1 b to_ n bytes_copied hn b1 he k ih =>
    rw [readLoop]
    simp only [hn, dif_pos]
    split
    · next b2 he2 =>
      rw [he] at he2
      obtain ⟨-, rfl⟩ := Prod.mk.inj he2
      exact le_trans ih (le_of_lt (loopMeasure_step b b1 (n - bytes_copied) (by omega) he))
    · next b2 he2 =>
      rw [he] at he2
      simp at he2
  | case2 b to_ n bytes_copied hn b1 he =>
    rw [readLoop]
    simp only [hn, dif_pos]
    split
    · next b2 he2 =>
      rw [he] at he2
      simp at he2
    · next b2 he2 =>
      have h := (loopMeasure_eof b).1
      rw [he2] at h
      exact h
  | case3 b to_ n bytes_copied hn =>
    rw [readLoop]
    simp [hn]

end ReadBuffer

/-! ## `IO/ReadHelper.cc` -/

set_option linter.unusedVariables false

/-- The scan of `count` bytes from `pos` for the first one equal to `c1` or `c2`. -/
def findFrom (c1 c2 : Nat) (mem : Nat → Nat) : Nat → Nat → Nat
  | 0, pos => pos
  | count + 1, pos =>
    if mem pos = c1 ∨ mem pos = c2 then pos else findFrom c1 c2 mem count (pos + 1)

/-- Modelled from the spec: `find_first_symbols<c1, c2>(begin, end)` (`CommonUtil/FindSymbol.h`
is not among the sources) scans forward for the next occurrence of `c1` or `c2` and returns
its position, or `end` when there is none. -/
def find_first_symbols (c1 c2 : Nat) (mem : Nat → Nat) (pos size : Nat) : Nat :=
  if pos ≤ size then findFrom c1 c2 mem (size - pos) pos else size

/-- The bytes `mem[first .. last - 1]`, what `appendToStringOrVector(s, first, last)`
appends. -/
def bytesBetween (mem : Nat → Nat) (first last : Nat) : List Nat :=
  (List.range (last - first)).map (fun j => mem (first + j))

/-- The helpers of `IO/ReadHelper.h` and `Common/hex.h` that the parser calls and that are not
among the sources: `unhex2` on the two bytes read after `\x` (with the message of the
exception it throws, if it throws one) and `parseEscapeSequence` on the byte after a
backslash. -/
structure Helpers where
  unhex2 : Nat → Nat → Except String Nat
  parseEscapeSequence : Nat → Nat

/-- Modelled from the spec: `readPODBinary(hex_code, buf)` for the array `char hex_code[2]`
(`IO/ReadHelper.h` is not among the sources) reads exactly 2 bytes and fails with a short
read when fewer are available; it is `buf.readStrict(hex_code, 2)`. The array is not
initialised; its content before the call is taken to be zero. -/
def readPODBinary (buf : ReadBuffer) : Option String × ReadBuffer × (Nat → Nat) :=
  buf.readStrict (fun _ => 0) 2

/-- The function `parseComplexEscapeSequence`: the message of the exception thrown, if any,
the output and the buffer afterwards. -/
def parseComplexEscapeSequence (hlp : Helpers) (s : List Nat) (buf : ReadBuffer) :
    Option String × List Nat × ReadBuffer :=
  let b1 : ReadBuffer := { buf with pos := buf.pos + 1 }
  match b1.eof with
  | (true, b2) => (some "Cannot parse escape sequence", s, b2)
  | (false, b2) =>
    if b2.mem b2.pos = 120 then
      let b3 : ReadBuffer := { b2 with pos := b2.pos + 1 }
      match readPODBinary b3 with
      | (some e, b4, _) => (some e, s, b4)
      | (none, b4, hex_code) =>
        match hlp.unhex2 (hex_code 0) (hex_code 1) with
        | .ok v => (none, s ++ [v], b4)
        | .error e => (some e, s, b4)
    else if b2.mem b2.pos = 78 then
      (none, s, { b2 with pos := b2.pos + 1 })
    else
      (none, s ++ [hlp.parseEscapeSequence (b2.mem b2.pos)], { b2 with pos := b2.pos + 1 })

theorem findFrom_bounds (c1 c2 : Nat) (mem : Nat → Nat) (count : Nat) : ∀ pos,
    pos ≤ findFrom c1 c2 mem count pos ∧ findFrom c1 c2 mem count pos ≤ pos + count ∧
    (findFrom c1 c2 mem count pos < pos + count →
      mem (findFrom c1 c2 mem count pos) = c1 ∨ mem (findFrom c1 c2 mem count pos) = c2) := by
  induction count with
  | zero => intro pos; simp [findFrom]
  | succ count ih =>
    intro pos
    unfold findFrom
    split
    · next h => exact ⟨le_refl _, by omega, fun _ => h⟩
    · obtain ⟨h1, h2, h3⟩ := ih (pos + 1)
      exact ⟨by omega, by omega, fun h => h3 (by omega)⟩

theorem find_first_symbols_bounds (c1 c2 : Nat) (mem : Nat → Nat) (pos size : Nat) :
    find_first_symbols c1 c2 mem pos size ≤ size ∧
    (pos ≤ size → pos ≤ find_first_symbols c1 c2 mem pos size) ∧
    (find_first_symbols c1 c2 mem pos size < size →
      mem (find_first_symbols c1 c2 mem pos size) = c1 ∨
      mem (find_first_symbols c1 c2 mem pos size) = c2) := by
  unfold find_first_symbols
  split
  · next h =>
    obtain ⟨h1, h2, h3⟩ := findFrom_bounds c1 c2 mem (size - pos) pos
    exact ⟨by omega, fun _ => h1, fun hlt => h3 (by omega)⟩
  · next h => exact ⟨le_refl _, fun h' => absurd h' h, fun hlt => absurd hlt (lt_irrefl _)⟩

theorem loopMeasure_readStrict (b : ReadBuffer) (to_ : Nat → Nat) (n : Nat) :
    (b.readStrict to_ n).2.1.loopMeasure ≤ b.loopMeasure := by
  unfold ReadBuffer.readStrict ReadBuffer.read
  simp only
  split <;> exact ReadBuffer.loopMeasure_readLoop b to_ n 0

theorem loopMeasure_parseComplexEscapeSequence (hlp : Helpers) (s : List Nat) (buf : ReadBuffer)
    (hp : buf.pos < buf.size) :
    (parseComplexEscapeSequence hlp s buf).2.2.loopMeasure < buf.loopMeasure := by
  have h1 : ({ buf with pos := buf.pos + 1 } : ReadBuffer).loopMeasure < buf.loopMeasure := by
    unfold ReadBuffer.loopMeasure
    simp only
    omega
  have h2 := (ReadBuffer.loopMeasure_eof { buf with pos := buf.pos + 1 }).1
  unfold parseComplexEscapeSequence readPODBinary
  simp only
  split
  · next b2 he =>
    rw [he] at h2
    exact lt_of_le_of_lt h2 h1
  · next b2 he =>
    rw [he] at h2
    simp only at h2
    have h3 := ReadBuffer.loopMeasure_advance b2 1
    split
    · have h4 := loopMeasure_readStrict { b2 with pos := b2.pos + 1 } (fun _ => 0) 2
      split
      · next e b4 x hr =>
        rw [hr] at h4
        simp only at h4 ⊢
        omega
      · next b4 hex_code hr =>
        rw [hr] at h4
        simp only at h4
        split <;> simp only <;> omega
    · split <;> simp only <;> omega

theorem loopMeasure_scan (quote : Nat) (buf b1 : ReadBuffer) (he : buf.eof = (false, b1)) :
    ({ b1 with pos := find_first_symbols 92 quote b1.mem b1.pos b1.size } : ReadBuffer).loopMeasure
      ≤ buf.loopMeasure ∧
    (¬ find_first_symbols 92 quote b1.mem b1.pos b1.size < b1.size →
      ({ b1 with pos := find_first_symbols 92 quote b1.mem b1.pos b1.size } : ReadBuffer).loopMeasure
        < buf.loopMeasure) := by
  obtain ⟨h1, h2⟩ := ReadBuffer.loopMeasure_eof buf
  obtain ⟨f1, f2, -⟩ := find_first_symbols_bounds 92 quote b1.mem b1.pos b1.size
  rw [he] at h1 h2
  have hle : ({ b1 with pos := find_first_symbols 92 quote b1.mem b1.pos b1.size } :
      ReadBuffer).loopMeasure ≤ b1.loopMeasure := by
    simp only [ReadBuffer.loopMeasure]
    by_cases hp : b1.pos ≤ b1.size
    · have := f2 hp
      omega
    · have : find_first_symbols 92 quote b1.mem b1.pos b1.size = b1.size := by
        simp [find_first_symbols, hp]
      omega
  refine ⟨le_trans hle h1, fun hn => ?_⟩
  rcases h2 rfl with ⟨hb, hp⟩ | hlt
  · have hb1 : b1 = buf := hb
    rw [← hb1] at hp ⊢
    simp only [ReadBuffer.loopMeasure]
    omega
  · exact lt_of_le_of_lt hle hlt

/-- The loop `while (!buf.eof())` of `readAnyQuotedStringInto`, with what follows it. -/
def readAnyQuotedStringLoop (hlp : Helpers) (quote : Nat) (enable_sql_style_quoting : Bool)
    (s : List Nat) (buf : ReadBuffer) : Option String × List Nat × ReadBuffer :=
  match he : buf.eof with
  | (true, b1) => (some "Cannot parse quoted string: expected closing quote", s, b1)
  | (false, b1) =>
    let next_pos := find_first_symbols 92 quote b1.mem b1.pos b1.size
    let s1 := s ++ bytesBetween b1.mem b1.pos next_pos
    let b2 : ReadBuffer := { b1 with pos := next_pos }
    if hpend : b2.hasPendingData = false then
      readAnyQuotedStringLoop hlp quote enable_sql_style_quoting s1 b2
    else if hq : b2.mem b2.pos = quote then
      let b3 : ReadBuffer := { b2 with pos := b2.pos + 1 }
      if enable_sql_style_quoting then
        match he2 : b3.eof with
        | (false, b4) =>
          if b4.mem b4.pos = quote then
            readAnyQuotedStringLoop hlp quote enable_sql_style_quoting (s1 ++ [quote])
              { b4 with pos := b4.pos + 1 }
          else (none, s1, b4)
        | (true, b4) => (none, s1, b4)
      else (none, s1, b3)
    else if hb : b2.mem b2.pos = 92 then
      match hesc : parseComplexEscapeSequence hlp s1 b2 with
      | (some e, s2, b5) => (some e, s2, b5)
      | (none, s2, b5) => readAnyQuotedStringLoop hlp quote enable_sql_style_quoting s2 b5
    else
      readAnyQuotedStringLoop hlp quote enable_sql_style_quoting s1 b2
termination_by buf.loopMeasure
decreasing_by
  all_goals simp_wf
  · apply (loopMeasure_scan quote buf b1 he).2
    simpa [b2, ReadBuffer.hasPendingData] using hpend
  · have hp : b2.pos < b2.size := by simpa [ReadBuffer.hasPendingData] using hpend
    have h1 := (loopMeasure_scan quote buf b1 he).1
    have h2 : b3.loopMeasure < b2.loopMeasure := by
      simp only [b3, b2, ReadBuffer.loopMeasure] at hp ⊢
      omega
    have h3 := (ReadBuffer.loopMeasure_eof b3).1
    rw [he2] at h3
    have h4 := ReadBuffer.loopMeasure_advance b4 1
    simp only at h3
    exact lt_of_le_of_lt h4 (lt_of_le_of_lt h3 (lt_of_lt_of_le h2 h1))
  · have hp : b2.pos < b2.size := by simpa [ReadBuffer.hasPendingData] using hpend
    have h1 := (loopMeasure_scan quote buf b1 he).1
    have h2 := loopMeasure_parseComplexEscapeSequence hlp s1 b2 hp
    rw [hesc] at h2
    exact lt_of_lt_of_le h2 h1
  · exfalso
    have hp : b2.pos < b2.size := by simpa [ReadBuffer.hasPendingData] using hpend
    rcases (find_first_symbols_bounds 92 quote b1.mem b1.pos b1.size).2.2 hp with h | h
    · exact hb h
    · exact hq h

/-- The function `readAnyQuotedStringInto<quote, enable_sql_style_quoting>`: the message of
the exception thrown, if any, the output and the buffer afterwards. -/
def readAnyQuotedStringInto (hlp : Helpers) (quote : Nat) (enable_sql_style_quoting : Bool)
    (s : List Nat) (buf : ReadBuffer) : Option String × List Nat × ReadBuffer :=
  match buf.eof with
  | (true, b1) => (some "Cannot parse quoted string: expected opening quote", s, b1)
  | (false, b1) =>
    if b1.mem b1.pos ≠ quote then
      (some "Cannot parse quoted string: expected opening quote", s, b1)
    else
      readAnyQuotedStringLoop hlp quote enable_sql_style_quoting s { b1 with pos := b1.pos + 1 }

/-! ## Decimal numerals (specification side) -/

/-- Decoding of a most-significant-first list of ASCII decimal digits. -/
def decodeDecimal (bs : List Nat) : Nat :=
  bs.foldl (fun acc b => acc * 10 + (b - 48)) 0

/-- The canonical decimal text of a natural number: its base-10 digits, most significant
first, without leading zeros; `"0"` for zero. -/
def decimalText (n : Nat) : List Nat :=
  if n = 0 then [48] else (Nat.digits 10 n).reverse.map (fun d => 48 + d)

/-- The canonical decimal text of an integer: a `'-'` exactly when it is negative, then the
text of its absolute value. -/
def signedText (x : Int) : List Nat :=
  if x < 0 then 45 :: decimalText x.natAbs else decimalText x.natAbs

/-- Decoding of an optional `'-'` followed by decimal digits. -/
def decodeSigned (bs : List Nat) : Int :=
  match bs with
  | 45 :: ds => -(decodeDecimal ds : Int)
  | ds => (decodeDecimal ds : Int)

/-- The digits of `n` written in a window of `d` positions, most significant first. -/
def digitWindow (n d : Nat) : List Nat :=
  (List.range d).map (fun j => 48 + n / 10 ^ (d - 1 - j) % 10)

/-! ## Auxiliary definitions for the proofs -/

/-- The stores after the loop of `writeUIntText(T, char *)`, on the loop's final state. -/
def writeUIntTextFinish (st : Nat × Nat × (Nat → Nat)) : Nat → Nat :=
  if st.1 < 10 then
    store st.2.2 st.2.1 ((48 + st.1) % 256)
  else
    store (store st.2.2 st.2.1 (digits ((st.1 * 2) % 4294967296 + 1)))
      (sub32 st.2.1 1) (digits ((st.1 * 2) % 4294967296))

/-! ## The logical stream behind a read cursor (specification side) -/

/-- The bytes a refill exposes: those of its region after the pending offset. -/
def Refill.visible (r : Refill) : List Nat :=
  bytesBetween r.mem r.offset r.size

/-- The bytes the coming refills deliver, in order. -/
def streamOf : List Refill → List Nat
  | [] => []
  | r :: rs => r.visible ++ streamOf rs

namespace ReadBuffer

/-- The bytes of the current region from the position on. -/
def pending (b : ReadBuffer) : List Nat :=
  bytesBetween b.mem b.pos b.size

/-- The remaining logical byte stream: the pending bytes, then what the source delivers. -/
def remaining (b : ReadBuffer) : List Nat :=
  b.pending ++ streamOf b.source

/-- The cursor invariant `begin ≤ position ≤ end` together with what keeps it true: no
pending offset is left over, every coming refill leaves a pending offset within the region
it exposes, and none when it reports exhaustion. -/
def Valid (b : ReadBuffer) : Prop :=
  b.pos ≤ b.size ∧ b.working_buffer_offset = 0 ∧
    ∀ r ∈ b.source, r.offset ≤ r.size ∧ (r.res = false → r.offset = 0)

/-- A source that delivers its bytes as a sequence of chunks and then reports exhaustion:
every coming refill succeeds, with a pending offset within its region. -/
def Chunked (b : ReadBuffer) : Prop :=
  b.pos ≤ b.size ∧ b.working_buffer_offset = 0 ∧
    ∀ r ∈ b.source, r.res = true ∧ r.offset ≤ r.size

/-- A chunked source none of whose chunks is empty. -/
def ChunkedNonEmpty (b : ReadBuffer) : Prop :=
  b.pos ≤ b.size ∧ b.working_buffer_offset = 0 ∧
    ∀ r ∈ b.source, r.res = true ∧ r.offset < r.size

instance decidableValid (b : ReadBuffer) : Decidable b.Valid := by
  unfold Valid
  infer_instance

instance decidableChunked (b : ReadBuffer) : Decidable b.Chunked := by
  unfold Chunked
  infer_instance

instance decidableChunkedNonEmpty (b : ReadBuffer) : Decidable b.ChunkedNonEmpty := by
  unfold ChunkedNonEmpty
  infer_instance

end ReadBuffer

/-! ## The parser on the logical stream (specification side) -/

set_option linter.unusedVariables false

/-- The escape decoding of `parseComplexEscapeSequence` read off the logical stream that
follows the backslash: the message of the exception, the output and the rest of the stream. -/
def escapeOnStream (hlp : Helpers) (s : List Nat) :
    List Nat → Option String × List Nat × List Nat
  | [] => (some "Cannot parse escape sequence", s, [])
  | c :: rest =>
    if c = 120 then
      match rest with
      | h1 :: h2 :: rest2 =>
        match hlp.unhex2 h1 h2 with
        | .ok v => (none, s ++ [v], rest2)
        | .error e => (some e, s, rest2)
      | _ => (some "Cannot read all data", s, [])
    else if c = 78 then (none, s, rest)
    else (none, s ++ [hlp.parseEscapeSequence c], rest)

theorem escapeOnStream_length (hlp : Helpers) (s : List Nat) (l : List Nat) :
    (escapeOnStream hlp s l).2.2.length ≤ l.length := by
  unfold escapeOnStream
  split
  · simp
  · next c rest =>
    split
    · split
      · split <;> simp <;> omega
      · simp
    · split <;> simp

/-- The loop of `readAnyQuotedStringInto` read off the logical stream, byte by byte. -/
def loopOnStream (hlp : Helpers) (quote : Nat) (sql : Bool) (s : List Nat) (l : List Nat) :
    Option String × List Nat × List Nat :=
  match l with
  | [] => (some "Cannot parse quoted string: expected closing quote", s, [])
  | c :: rest =>
    if c = quote then
      if sql then
        match rest with
        | c2 :: rest2 =>
          if c2 = quote then loopOnStream hlp quote sql (s ++ [quote]) rest2
          else (none, s, rest)
        | [] => (none, s, [])
      else (none, s, rest)
    else if c = 92 then
      match hesc : escapeOnStream hlp s rest with
      | (some e, s2, r2) => (some e, s2, r2)
      | (none, s2, r2) => loopOnStream hlp quote sql s2 r2
    else loopOnStream hlp quote sql (s ++ [c]) rest
termination_by l.length
decreasing_by
  all_goals simp_wf
  · omega
  · have h := escapeOnStream_length hlp s rest
    rw [hesc] at h
    simp only at h
    omega

/-- The function `readAnyQuotedStringInto` read off the logical stream. -/
def parseOnStream (hlp : Helpers) (quote : Nat) (sql : Bool) (s : List Nat) (l : List Nat) :
    Option String × List Nat × List Nat :=
  match l with
  | [] => (some "Cannot parse quoted string: expected opening quote", s, [])
  | c :: rest =>
    if c ≠ quote then (some "Cannot parse quoted string: expected opening quote", s, c :: rest)
    else loopOnStream hlp quote sql s rest

/-- The memory view holding the bytes of a list. -/
def memOf (l : List Nat) : Nat → Nat :=
  fun i => l.getD i 0

/-- The single-chunk source holding the stream `l`: the whole stream is pending and the
source is exhausted. -/
def singleChunk (l : List Nat) : ReadBuffer :=
  { mem := memOf l, size := l.length, pos := 0, bytes := 0, working_buffer_offset := 0,
    source := [] }

/-- The body of a quoted literal in the SQL dialect: every quote character written twice. -/
def sqlDoubled (quote : Nat) (v : List Nat) : List Nat :=
  v.flatMap (fun c => if c = quote then [quote, quote] else [c])


/-! ## The encoder with its stores recorded, and the choice of path -/

/-- The loop of `writeUIntText(T, char *)` as `writeUIntTextLoop`, recording in `written`
the indexes `k` of the stores `dst[k] = …` in the order they are made. -/
def writeUIntTextLoopTraced (x next : Nat) (dst : Nat → Nat) (written : List Nat) :
    Nat × Nat × (Nat → Nat) × List Nat :=
  if 100 ≤ x then
    let i := ((x % 100) * 2) % 4294967296
    let dst1 := store dst next (digits (i + 1))
    let dst2 := store dst1 (sub32 next 1) (digits i)
    writeUIntTextLoopTraced (x / 100) (sub32 next 2) dst2 (written ++ [next, sub32 next 1])
  else (x, next, dst, written)
termination_by x
decreasing_by omega

/-- The function `writeUIntText(T x, char * dst)` as `writeUIntText`, returning in addition
the indexes of `dst` it stores to, in the order of the stores. -/
def writeUIntTextTraced (x : Nat) (dst : Nat → Nat) : Nat × (Nat → Nat) × List Nat :=
  let length := digits10 x
  let st := writeUIntTextLoopTraced x (sub32 length 1) dst []
  let x1 := st.1
  let next := st.2.1
  let dst1 := st.2.2.1
  let written := st.2.2.2
  if x1 < 10 then
    (length, store dst1 next ((48 + x1) % 256), written ++ [next])
  else
    let i := (x1 * 2) % 4294967296
    let dst2 := store dst1 next (digits (i + 1))
    (length, store dst2 (sub32 next 1) (digits i), written ++ [next, sub32 next 1])

/-- The condition of the `if` in `writeUIntText(T, WriteBuffer &)`: true when the direct
path is taken, false when the fallback is. -/
def writeUIntTextDirect (buf : WriteBuffer) : Bool :=
  decide (buf.pos + WRITE_HELPERS_MAX_INT_WIDTH < buf.size)

/-- The indexes stored to by the loop of `writeUIntText` and by the stores that follow it. -/
def writtenAfter (st : Nat × Nat × (Nat → Nat) × List Nat) : List Nat :=
  if st.1 < 10 then st.2.2.2 ++ [st.2.1] else st.2.2.2 ++ [st.2.1, sub32 st.2.1 1]

/-! ## Accounting of the bytes of a read cursor -/

/-- The sum of the pending offsets the coming refills leave. -/
def pendingOffsets (l : List Refill) : Nat :=
  (l.map (fun r => r.offset)).sum

/-- The sum of the sizes of the regions the coming refills expose. -/
def regionSizes (l : List Refill) : Nat :=
  (l.map (fun r => r.size)).sum

/-- The value `bytes + offset()`, that is `bytes + (position - begin)`. -/
def ReadBuffer.count (b : ReadBuffer) : Nat :=
  b.bytes + b.pos

/-- The quantity `bytes + size of the region + sizes of the coming regions`, which the
operations that refill only at the end of the region keep. -/
def ReadBuffer.extent (b : ReadBuffer) : Nat :=
  b.bytes + b.size + regionSizes b.source

/-! ## The grammar of quoted literals (specification side) -/

/-- The quote characters with which the entry points instantiate `readAnyQuotedStringInto`:
the single quote, the back quote and the double quote. -/
def quoteCharacters : List Nat := [39, 96, 34]

/-- The body of a quoted literal in the backslash dialect: every quote character and every
backslash preceded by a backslash. -/
def backslashEscaped (quote : Nat) (v : List Nat) : List Nat :=
  v.flatMap (fun c => if c = quote ∨ c = 92 then [92, c] else [c])

/-- The units of which the body of a quoted literal is made: a plain byte, a doubled quote,
a backslash followed by one byte, and a backslash followed by `x` and two bytes. -/
inductive BodyToken where
  | plain (c : Nat)
  | doubled
  | escaped (e : Nat)
  | hex (h1 h2 : Nat)

namespace BodyToken

/-- The bytes of a unit as they stand in the stream. -/
def bytes (quote : Nat) : BodyToken → List Nat
  | plain c => [c]
  | doubled => [quote, quote]
  | escaped e => [92, e]
  | hex h1 h2 => [92, 120, h1, h2]

/-- What makes a unit one of the body: a plain byte is neither the quote nor a backslash, a
doubled quote exists in the SQL dialect only, and an escape starts with a backslash that is not
itself the quote; the escape of one byte is not the one that introduces two further bytes. -/
def wellFormed (quote : Nat) (sql : Bool) : BodyToken → Bool
  | plain c => decide (c ≠ quote ∧ c ≠ 92)
  | doubled => sql
  | escaped e => decide (quote ≠ 92 ∧ e ≠ 120)
  | hex _ _ => decide (quote ≠ 92)

/-- Whether the helper accepts the two bytes of a `\x` escape. -/
def decodes (hlp : Helpers) : BodyToken → Bool
  | hex h1 h2 =>
    match hlp.unhex2 h1 h2 with
    | .ok _ => true
    | .error _ => false
  | _ => true

/-- The bytes a unit stands for. -/
def value (hlp : Helpers) (quote : Nat) : BodyToken → List Nat
  | plain c => [c]
  | doubled => [quote]
  | escaped e => if e = 78 then [] else [hlp.parseEscapeSequence e]
  | hex h1 h2 =>
    match hlp.unhex2 h1 h2 with
    | .ok v => [v]
    | .error _ => []

end BodyToken

/-- The bytes of a body made of the given units. -/
def bodyBytes (quote : Nat) (ts : List BodyToken) : List Nat :=
  ts.flatMap (BodyToken.bytes quote)

/-- The bytes a body made of the given units stands for. -/
def bodyValues (hlp : Helpers) (quote : Nat) (ts : List BodyToken) : List Nat :=
  ts.flatMap (BodyToken.value hlp quote)

/-- An escape sequence cut short by the end of the stream: nothing at all, a lone backslash,
or a `\x` with fewer than two bytes after it. -/
def danglingEscape (tail : List Nat) : Bool :=
  match tail with
  | [] => true
  | [92] => true
  | [92, 120] => true
  | [92, 120, _] => true
  | _ => false

/-- Modelled from the spec: the value of a hexadecimal digit, on which the two-digit decoding
of `unhex2` rests (`Common/hex.h` is not among the sources): `0`–`9`, `A`–`F` and `a`–`f` stand
for 0–15, and no other byte is a hexadecimal digit. -/
def hexDigitValue (c : Nat) : Option Nat :=
  if 48 ≤ c ∧ c ≤ 57 then some (c - 48)
  else if 65 ≤ c ∧ c ≤ 70 then some (c - 55)
  else if 97 ≤ c ∧ c ≤ 102 then some (c - 87)
  else none

/-- Modelled from the spec: `unhex2` decodes two hexadecimal digits to the byte `HH` and
fails on anything else (`Common/hex.h` is not among the sources). -/
def unhex2 (h1 h2 : Nat) : Except String Nat :=
  match hexDigitValue h1, hexDigitValue h2 with
  | some v1, some v2 => .ok (v1 * 16 + v2)
  | _, _ => .error "Cannot parse hexadecimal digits"

/-- Modelled from the spec: the single-character escape table of `parseEscapeSequence`
(`IO/ReadHelper.h` is not among the sources), with the entries the spec names and every other
byte standing for itself. -/
def parseEscapeSequence (c : Nat) : Nat :=
  if c = 110 then 10
  else if c = 116 then 9
  else c

/-- A body made of `\xHH` and `\N` escapes only: `none` is `\N`, and `some (h1, h2)` is `\x`
followed by the bytes `h1`, `h2`. -/
def hexEscapes (es : List (Option (Nat × Nat))) : List Nat :=
  es.flatMap (fun e =>
    match e with
    | none => [92, 78]
    | some (h1, h2) => [92, 120, h1, h2])

/-- The unit of the body that an escape of `hexEscapes` is. -/
def escapeToken (e : Option (Nat × Nat)) : BodyToken :=
  match e with
  | none => BodyToken.escaped 78
  | some (h1, h2) => BodyToken.hex h1 h2

/-- The bytes `HH` of the `\xHH` escapes of a body, in order. -/
def hexBytes (es : List (Option (Nat × Nat))) : List Nat :=
  es.flatMap (fun e =>
    match e with
    | none => []
    | some (h1, h2) =>
      match hexDigitValue h1, hexDigitValue h2 with
      | some v1, some v2 => [v1 * 16 + v2]
      | _, _ => [])

/-- Whether both bytes of every `\x` escape of a body are hexadecimal digits. -/
def hexDigitsOnly (es : List (Option (Nat × Nat))) : Bool :=
  es.all (fun e =>
    match e with
    | none => true
    | some (h1, h2) => (hexDigitValue h1).isSome && (hexDigitValue h2).isSome)

/-! ## Example inputs -/

/-- A buffer whose coming refill leaves a pending offset beyond the region it exposes. -/
def overshootBuffer : ReadBuffer :=
  { mem := fun _ => 0, size := 0, pos := 0, bytes := 0, working_buffer_offset := 0,
    source := [{ res := true, mem := fun _ => 0, size := 1, offset := 2 }] }

/-- A buffer whose coming refill reports success and exposes nothing. -/
def emptyRefillBuffer : ReadBuffer :=
  { mem := fun _ => 0, size := 0, pos := 0, bytes := 0, working_buffer_offset := 0,
    source := [{ res := true, mem := fun _ => 0, size := 0, offset := 0 }] }

/-- A write cursor whose current chunk is full. -/
def fullChunk : WriteBuffer :=
  { flushed := [9], mem := memOf [7, 7, 7, 7], pos := 4, size := 4 }

/-- A cursor in the middle of its first chunk, with two more chunks to come, the second
behind a pending offset; its remaining stream is `2, 3, 4, 5, 6, 7`. -/
def threeChunks : ReadBuffer :=
  { mem := memOf [1, 2, 3], size := 3, pos := 1, bytes := 0, working_buffer_offset := 0,
    source := [{ res := true, mem := memOf [4, 5], size := 2, offset := 0 },
               { res := true, mem := memOf [9, 6, 7], size := 3, offset := 1 }] }

/-- The stream `'it''s'` delivered in two chunks that separate the doubled quote. -/
def doubledQuoteChunks : ReadBuffer :=
  { mem := fun _ => 0, size := 0, pos := 0, bytes := 0, working_buffer_offset := 0,
    source := [{ res := true, mem := memOf [39, 105, 116, 39], size := 4, offset := 0 },
               { res := true, mem := memOf [39, 115, 39], size := 3, offset := 0 }] }

/-- An instance of the helpers: hexadecimal digits given by their values, and an escape
table that maps every byte to itself. -/
def plainHelpers : Helpers :=
  { unhex2 := fun a c => .ok (a * 16 + c), parseEscapeSequence := fun c => c }

/-- The helpers as the spec describes them. -/
def specHelpers : Helpers :=
  { unhex2 := unhex2, parseEscapeSequence := parseEscapeSequence }

/-- A write cursor with 30 bytes of free space in its chunk. -/
def thirtyFree : WriteBuffer :=
  { flushed := [], mem := fun _ => 0, pos := 2, size := 32 }

/-- A write cursor with exactly 20 bytes of free space in its chunk. -/
def twentyFree : WriteBuffer :=
  { flushed := [], mem := fun _ => 0, pos := 4, size := 24 }

/-- A buffer whose coming refill reports success with a pending offset equal to the size of
the region it exposes. -/
def offsetAtEndBuffer : ReadBuffer :=
  { mem := fun _ => 0, size := 0, pos := 0, bytes := 0, working_buffer_offset := 0,
    source := [{ res := true, mem := memOf [5, 6], size := 2, offset := 2 }] }

/-- A cursor before its first refill, which exposes a region of 3 bytes behind a pending
offset of 1. -/
def offsetChunk : ReadBuffer :=
  { mem := fun _ => 0, size := 0, pos := 0, bytes := 0, working_buffer_offset := 0,
    source := [{ res := true, mem := memOf [9, 6, 7], size := 3, offset := 1 }] }

/-- The stream `'a'` followed by `,1`, delivered so that the first chunk ends with the
closing quote. -/
def literalThenRest : ReadBuffer :=
  { mem := fun _ => 0, size := 0, pos := 0, bytes := 0, working_buffer_offset := 0,
    source := [{ res := true, mem := memOf [39, 97, 39], size := 3, offset := 0 },
               { res := true, mem := memOf [44, 49], size := 2, offset := 0 }] }

/-- The stream `'it\'s'` delivered in two chunks that separate the backslash from the quote
it escapes. -/
def escapedQuoteChunks : ReadBuffer :=
  { mem := fun _ => 0, size := 0, pos := 0, bytes := 0, working_buffer_offset := 0,
    source := [{ res := true, mem := memOf [39, 105, 116, 92], size := 4, offset := 0 },
               { res := true, mem := memOf [39, 115, 39], size := 3, offset := 0 }] }

/-! # Properties -/

/-! ## The integer text codec -/

theorem digits10_ladder (x : Nat) (h : x < 1000000000000) :
    (x < 10 → digits10 x = 1) ∧ (10 ≤ x → x < 100 → digits10 x = 2) ∧
    (100 ≤ x → x < 1000 → digits10 x = 3) ∧ (1000 ≤ x → x < 10000 → digits10 x = 4) ∧
    (10000 ≤ x → x < 100000 → digits10 x = 5) ∧
    (100000 ≤ x → x < 1000000 → digits10 x = 6) ∧
    (1000000 ≤ x → x < 10000000 → digits10 x = 7) ∧
    (10000000 ≤ x → x < 100000000 → digits10 x = 8) ∧
    (100000000 ≤ x → x < 1000000000 → digits10 x = 9) ∧
    (1000000000 ≤ x → x < 10000000000 → digits10 x = 10) ∧
    (10000000000 ≤ x → x < 100000000000 → digits10 x = 11) ∧
    (100000000000 ≤ x → x < 1000000000000 → digits10 x = 12) := by
  have e := digits10.eq_1 x
  generalize digits10 x = d at e ⊢
  generalize digits10 (x / 1000000000000) = d2 at e
  split_ifs at e <;> (refine ⟨?_, ?_, ?_, ?_, ?_, ?_, ?_, ?_, ?_, ?_, ?_, ?_⟩ <;> intros <;> omega)

theorem digits10_rec (x : Nat) (h : 1000000000000 ≤ x) :
    digits10 x = (12 + digits10 (x / 1000000000000)) % 4294967296 := by
  rw [digits10]
  simp only [show ¬ x < 10 by omega, show ¬ x < 100 by omega, show ¬ x < 1000 by omega,
    show ¬ x < 1000000000000 by omega, if_false]

/-- The value of `digits10` on each decade of the 64-bit range. -/
theorem digits10_decades (x : Nat) (h : x < 2 ^ 64) :
    ∃ k, digits10 x = k + 1 ∧ k < 20 ∧ x < 10 ^ (k + 1) ∧ (k = 0 ∨ 10 ^ k ≤ x) := by
  norm_num at h
  by_cases hs : x < 1000000000000
  · obtain ⟨h1, h2, h3, h4, h5, h6, h7, h8, h9, h10, h11, h12⟩ := digits10_ladder x hs
    have hc : x < 10 ∨ (10 ≤ x ∧ x < 100) ∨ (100 ≤ x ∧ x < 1000) ∨ (1000 ≤ x ∧ x < 10000) ∨
        (10000 ≤ x ∧ x < 100000) ∨ (100000 ≤ x ∧ x < 1000000) ∨
        (1000000 ≤ x ∧ x < 10000000) ∨ (10000000 ≤ x ∧ x < 100000000) ∨
        (100000000 ≤ x ∧ x < 1000000000) ∨ (1000000000 ≤ x ∧ x < 10000000000) ∨
        (10000000000 ≤ x ∧ x < 100000000000) ∨ 100000000000 ≤ x := by omega
    rcases hc with c | ⟨c, c'⟩ | ⟨c, c'⟩ | ⟨c, c'⟩ | ⟨c, c'⟩ | ⟨c, c'⟩ | ⟨c, c'⟩ | ⟨c, c'⟩ |
      ⟨c, c'⟩ | ⟨c, c'⟩ | ⟨c, c'⟩ | c
    · exact ⟨0, h1 c, by norm_num, by norm_num; omega, Or.inl rfl⟩
    · exact ⟨1, h2 c c', by norm_num, by norm_num; omega, Or.inr (by norm_num; omega)⟩
    · exact ⟨2, h3 c c', by norm_num, by norm_num; omega, Or.inr (by norm_num; omega)⟩
    · exact ⟨3, h4 c c', by norm_num, by norm_num; omega, Or.inr (by norm_num; omega)⟩
    · exact ⟨4, h5 c c', by norm_num, by norm_num; omega, Or.inr (by norm_num; omega)⟩
    · exact ⟨5, h6 c c', by norm_num, by norm_num; omega, Or.inr (by norm_num; omega)⟩
    · exact ⟨6, h7 c c', by norm_num, by norm_num; omega, Or.inr (by norm_num; omega)⟩
    · exact ⟨7, h8 c c', by norm_num, by norm_num; omega, Or.inr (by norm_num; omega)⟩
    · exact ⟨8, h9 c c', by norm_num, by norm_num; omega, Or.inr (by norm_num; omega)⟩
    · exact ⟨9, h10 c c', by norm_num, by norm_num; omega, Or.inr (by norm_num; omega)⟩
    · exact ⟨10, h11 c c', by norm_num, by norm_num; omega, Or.inr (by norm_num; omega)⟩
    · exact ⟨11, h12 c hs, by norm_num, by norm_num; omega, Or.inr (by norm_num; omega)⟩
  · have hq : x / 1000000000000 < 1000000000000 := by omega
    have hrec := digits10_rec x (by omega)
    obtain ⟨h1, h2, h3, h4, h5, h6, h7, h8, -, -, -, -⟩ := digits10_ladder _ hq
    have hc : x / 1000000000000 < 10 ∨ (10 ≤ x / 1000000000000 ∧ x / 1000000000000 < 100) ∨
        (100 ≤ x / 1000000000000 ∧ x / 1000000000000 < 1000) ∨
        (1000 ≤ x / 1000000000000 ∧ x / 1000000000000 < 10000) ∨
        (10000 ≤ x / 1000000000000 ∧ x / 1000000000000 < 100000) ∨
        (100000 ≤ x / 1000000000000 ∧ x / 1000000000000 < 1000000) ∨
        (1000000 ≤ x / 1000000000000 ∧ x / 1000000000000 < 10000000) ∨
        (10000000 ≤ x / 1000000000000 ∧ x / 1000000000000 < 100000000) := by omega
    rcases hc with c | ⟨c, c'⟩ | ⟨c, c'⟩ | ⟨c, c'⟩ | ⟨c, c'⟩ | ⟨c, c'⟩ | ⟨c, c'⟩ | ⟨c, c'⟩
    · rw [h1 c] at hrec
      exact ⟨12, hrec, by norm_num, by norm_num; omega, Or.inr (by norm_num; omega)⟩
    · rw [h2 c c'] at hrec
      exact ⟨13, hrec, by norm_num, by norm_num; omega, Or.inr (by norm_num; omega)⟩
    · rw [h3 c c'] at hrec
      exact ⟨14, hrec, by norm_num, by norm_num; omega, Or.inr (by norm_num; omega)⟩
    · rw [h4 c c'] at hrec
      exact ⟨15, hrec, by norm_num, by norm_num; omega, Or.inr (by norm_num; omega)⟩
    · rw [h5 c c'] at hrec
      exact ⟨16, hrec, by norm_num, by norm_num; omega, Or.inr (by norm_num; omega)⟩
    · rw [h6 c c'] at hrec
      exact ⟨17, hrec, by norm_num, by norm_num; omega, Or.inr (by norm_num; omega)⟩
    · rw [h7 c c'] at hrec
      exact ⟨18, hrec, by norm_num, by norm_num; omega, Or.inr (by norm_num; omega)⟩
    · rw [h8 c c'] at hrec
      exact ⟨19, hrec, by norm_num, by norm_num; omega, Or.inr (by norm_num; omega)⟩

/-- Claim C2: for every `x` with `1 ≤ x < 2^64`, `digits10 x` lies between 1 and 20 and is
the number of decimal digits of `x`, that is `10^(digits10 x - 1) ≤ x < 10^(digits10 x)`, and
it is the only `k` with `10^(k-1) ≤ x < 10^k`; this covers the values from `10^12` on, which
take the recursive branch. -/
theorem digits10_exact (x : Nat) (h1 : 1 ≤ x) (h2 : x < 2 ^ 64) :
    1 ≤ digits10 x ∧ digits10 x ≤ 20 ∧
    10 ^ (digits10 x - 1) ≤ x ∧ x < 10 ^ digits10 x ∧
    ∀ k, 10 ^ (k - 1) ≤ x → x < 10 ^ k → k = digits10 x := by
  obtain ⟨d, hd, hd20, hlt, hge⟩ := digits10_decades x h2
  rw [hd]
  have hge' : 10 ^ d ≤ x := by
    rcases hge with rfl | h
    · simpa using h1
    · exact h
  refine ⟨by omega, by omega, by simpa using hge', hlt, ?_⟩
  intro k hk1 hk2
  by_contra hne
  rcases Nat.lt_or_gt_of_ne hne with hlt' | hgt
  · have : 10 ^ k ≤ 10 ^ d := Nat.pow_le_pow_right (by norm_num) (by omega)
    omega
  · have : 10 ^ (d + 1) ≤ 10 ^ (k - 1) := Nat.pow_le_pow_right (by norm_num) (by omega)
    omega

theorem digits_pair : ∀ i, i < 100 →
    digits (i * 2) = 48 + i / 10 ∧ digits (i * 2 + 1) = 48 + i % 10 := by
  decide

theorem writeUIntText_eq (x : Nat) (dst : Nat → Nat) :
    writeUIntText x dst =
      (digits10 x, writeUIntTextFinish (writeUIntTextLoop x (sub32 (digits10 x) 1) dst)) := by
  by_cases h : (writeUIntTextLoop x (sub32 (digits10 x) 1) dst).1 < 10 <;>
    simp [writeUIntText, writeUIntTextFinish, h]

theorem pow_gt_of_ge_hundred (x next : Nat) (h : 100 ≤ x) (hlt : x < 10 ^ (next + 1)) :
    2 ≤ next := by
  by_contra hc
  have : next = 0 ∨ next = 1 := by omega
  rcases this with rfl | rfl <;> norm_num at hlt <;> omega

theorem writeUIntTextFinish_loop (x : Nat) : ∀ (next : Nat) (dst : Nat → Nat),
    x < 10 ^ (next + 1) → (next = 0 ∨ 10 ^ next ≤ x) → next < 4294967296 →
    ∀ j, writeUIntTextFinish (writeUIntTextLoop x next dst) j =
      if j ≤ next then 48 + x / 10 ^ (next - j) % 10 else dst j := by
  induction x using Nat.strong_induction_on with
  | _ x ih =>
    intro next dst hlt hge h32 j
    rw [writeUIntTextLoop]
    by_cases hx : 100 ≤ x
    · have h2 : 2 ≤ next := pow_gt_of_ge_hundred x next hx hlt
      obtain ⟨m, rfl⟩ : ∃ m, next = m + 2 := ⟨next - 2, by omega⟩
      have e1 : sub32 (m + 2) 1 = m + 1 := by unfold sub32; omega
      have e2 : sub32 (m + 2) 2 = m := by unfold sub32; omega
      have hp : 10 ^ (m + 2 + 1) = 10 ^ (m + 1) * 100 := by ring
      have hp2 : 10 ^ (m + 2) = 10 ^ m * 100 := by ring
      have hlt' : x / 100 < 10 ^ (m + 1) := by
        rw [Nat.div_lt_iff_lt_mul (by norm_num)]
        omega
      have hge' : m = 0 ∨ 10 ^ m ≤ x / 100 := by
        right
        rw [Nat.le_div_iff_mul_le (by norm_num)]
        rcases hge with h | h
        · omega
        · omega
      have hi : (x % 100 * 2) % 4294967296 = x % 100 * 2 := by omega
      obtain ⟨hd0, hd1⟩ := digits_pair (x % 100) (by omega)
      simp only [hx, if_true, e1, e2, hi]
      rw [ih (x / 100) (by omega) m _ hlt' hge' (by omega) j]
      by_cases hj : j ≤ m
      · have hj2 : j ≤ m + 2 := by omega
        simp only [hj, hj2, if_true]
        have : 10 ^ (m + 2 - j) = 100 * 10 ^ (m - j) := by
          rw [show m + 2 - j = (m - j) + 2 by omega]
          ring
        rw [this, Nat.div_div_eq_div_mul]
      · simp only [hj, if_false, store]
        by_cases hj1 : j = m + 1
        · subst hj1
          simp only [if_true, show m + 1 ≤ m + 2 by omega, hd0]
          rw [show m + 2 - (m + 1) = 1 by omega]
          norm_num
          omega
        · by_cases hj2 : j = m + 2
          · subst hj2
            simp only [hj1, if_false, if_true, le_refl, hd1]
            norm_num
          · simp only [hj1, hj2, if_false, show ¬ j ≤ m + 2 by omega]
    · simp only [hx, if_false]
      unfold writeUIntTextFinish
      simp only
      by_cases h10 : x < 10
      · have hn : next = 0 := by
          rcases hge with h | h
          · exact h
          · by_contra hc
            have : 10 ^ 1 ≤ 10 ^ next := Nat.pow_le_pow_right (by norm_num) (by omega)
            omega
        subst hn
        simp only [h10, if_true, store]
        by_cases hj : j = 0
        · subst hj
          simp
          omega
        · simp [hj]
      · have hn : next = 1 := by
          rcases hge with h | h
          · subst h
            norm_num at hlt
            omega
          · by_contra hc
            have hn0 : next ≠ 0 := by
              rintro rfl
              norm_num at hlt
              omega
            have : 10 ^ 2 ≤ 10 ^ next := Nat.pow_le_pow_right (by norm_num) (by omega)
            omega
        subst hn
        have hi : (x * 2) % 4294967296 = x * 2 := by omega
        obtain ⟨hd0, hd1⟩ := digits_pair x (by omega)
        have e1 : sub32 1 1 = 0 := by unfold sub32; omega
        simp only [h10, if_false, store, hi, hd0, hd1, e1]
        by_cases hj : j = 0
        · subst hj
          simp
          omega
        · by_cases hj1 : j = 1
          · subst hj1
            simp
          · simp [hj, hj1, show ¬ j ≤ 1 by omega]

theorem writeUIntText_bytes (x : Nat) (hx : x < 2 ^ 64) (dst : Nat → Nat) :
    (writeUIntText x dst).1 = digits10 x ∧
    ∀ j, (writeUIntText x dst).2 j =
      if j < digits10 x then 48 + x / 10 ^ (digits10 x - 1 - j) % 10 else dst j := by
  obtain ⟨d, hd, hd20, hlt, hge⟩ := digits10_decades x hx
  rw [writeUIntText_eq]
  refine ⟨rfl, fun j => ?_⟩
  have e1 : sub32 (d + 1) 1 = d := by unfold sub32; omega
  simp only [hd, e1]
  rw [writeUIntTextFinish_loop x d dst hlt hge (by omega) j]
  simp only [Nat.lt_succ_iff, Nat.add_sub_cancel]

theorem decodeDecimal_append (bs : List Nat) (b : Nat) :
    decodeDecimal (bs ++ [b]) = decodeDecimal bs * 10 + (b - 48) := by
  simp [decodeDecimal, List.foldl_append]

theorem decodeDecimal_digits (x n : Nat) (hx : x < 10 ^ n) : ∀ m, m ≤ n →
    decodeDecimal ((List.range m).map (fun j => 48 + x / 10 ^ (n - 1 - j) % 10)) =
      x / 10 ^ (n - m) := by
  intro m
  induction m with
  | zero =>
    intro _
    simp [decodeDecimal, Nat.div_eq_of_lt hx]
  | succ m ih =>
    intro hm
    rw [List.range_succ, List.map_append, List.map_singleton, decodeDecimal_append,
      ih (by omega)]
    have e : n - m = (n - (m + 1)) + 1 := by omega
    have e2 : n - 1 - m = n - (m + 1) := by omega
    rw [e, e2, pow_succ, ← Nat.div_div_eq_div_mul, Nat.add_sub_cancel_left]
    omega

/-- Claim C1: for every `x < 2^64`, `writeUIntText(x, dst)` returns `digits10 x`, leaves
every byte from index `digits10 x` on untouched, stores at each index `j < digits10 x` the
ASCII digit of `x` of weight `10^(digits10 x - 1 - j)` (most significant first, a byte
between `'0'` and `'9'`), and decoding `dst[0 .. digits10 x - 1]` as a base-10 numeral gives
`x` back; for `x = 0` the bytes written are the single byte `'0'`. -/
theorem writeUIntText_roundtrip (x : Nat) (hx : x < 2 ^ 64) (dst : Nat → Nat) :
    (writeUIntText x dst).1 = digits10 x ∧
    (∀ j, digits10 x ≤ j → (writeUIntText x dst).2 j = dst j) ∧
    (∀ j, j < digits10 x →
      (writeUIntText x dst).2 j = 48 + x / 10 ^ (digits10 x - 1 - j) % 10 ∧
      48 ≤ (writeUIntText x dst).2 j ∧ (writeUIntText x dst).2 j ≤ 57) ∧
    decodeDecimal (bytesOf (writeUIntText x dst).2 (digits10 x)) = x ∧
    (x = 0 → bytesOf (writeUIntText x dst).2 (writeUIntText x dst).1 = [48]) := by
  obtain ⟨hlen, hb⟩ := writeUIntText_bytes x hx dst
  obtain ⟨d, hd, hd20, hlt, hge⟩ := digits10_decades x hx
  have hbytes : bytesOf (writeUIntText x dst).2 (digits10 x) =
      (List.range (digits10 x)).map (fun j => 48 + x / 10 ^ (digits10 x - 1 - j) % 10) := by
    unfold bytesOf
    apply List.map_congr_left
    intro j hj
    rw [hb j, if_pos (List.mem_range.mp hj)]
  refine ⟨hlen, ?_, ?_, ?_, ?_⟩
  · intro j hj
    rw [hb j, if_neg (by omega)]
  · intro j hj
    rw [hb j, if_pos hj]
    refine ⟨rfl, by omega, ?_⟩
    have : x / 10 ^ (digits10 x - 1 - j) % 10 < 10 := Nat.mod_lt _ (by norm_num)
    omega
  · rw [hbytes, decodeDecimal_digits x (digits10 x) (by rw [hd]; exact hlt) _ le_rfl]
    simp
  · rintro rfl
    rw [hlen, hbytes]
    have : digits10 0 = 1 := by simp [digits10]
    rw [this]
    decide

theorem digits10_exact_witness :
    1 ≤ 99999999999999 ∧ 99999999999999 < 2 ^ 64 ∧ 14 = digits10 99999999999999 :=
  ⟨by norm_num, by norm_num,
    (digits10_exact 99999999999999 (by norm_num) (by norm_num)).2.2.2.2 14
      (by norm_num) (by norm_num)⟩

theorem writeUIntText_roundtrip_witness :
    1234 < 2 ^ 64 ∧ (writeUIntText 1234 (fun _ => 0)).1 = digits10 1234 ∧
    decodeDecimal (bytesOf (writeUIntText 1234 (fun _ => 0)).2 (digits10 1234)) = 1234 :=
  ⟨by norm_num, (writeUIntText_roundtrip 1234 (by norm_num) (fun _ => 0)).1,
    (writeUIntText_roundtrip 1234 (by norm_num) (fun _ => 0)).2.2.2.1⟩

theorem digitWindow_succ (n d : Nat) :
    digitWindow n (d + 1) = digitWindow (n / 10) d ++ [48 + n % 10] := by
  unfold digitWindow
  rw [List.range_succ, List.map_append, List.map_singleton]
  congr 1
  · apply List.map_congr_left
    intro j hj
    have hj' : j < d := List.mem_range.mp hj
    have e : d + 1 - 1 - j = (d - 1 - j) + 1 := by omega
    rw [e, pow_succ, Nat.mul_comm, Nat.div_div_eq_div_mul]
  · simp

theorem digits_reverse_eq_digitWindow (d : Nat) : ∀ n, 1 ≤ n → n < 10 ^ (d + 1) → 10 ^ d ≤ n →
    (Nat.digits 10 n).reverse.map (fun c => 48 + c) = digitWindow n (d + 1) := by
  induction d with
  | zero =>
    intro n h1 hlt _
    have hn : n < 10 := by simpa using hlt
    rw [Nat.digits_of_lt 10 n (by omega) hn]
    simp [digitWindow, Nat.mod_eq_of_lt hn]
  | succ d ih =>
    intro n h1 hlt hge
    have hpos : 0 < n := by omega
    have hp : 10 ^ (d + 1) = 10 ^ d * 10 := by ring
    have hp2 : 10 ^ (d + 1 + 1) = 10 ^ (d + 1) * 10 := by ring
    have hd1 : 1 ≤ 10 ^ d := Nat.one_le_pow _ _ (by norm_num)
    rw [Nat.digits_def' (by norm_num) hpos, List.reverse_cons, List.map_append,
      List.map_singleton, digitWindow_succ,
      ih (n / 10) (by omega) (by omega) (by omega)]

theorem decimalText_eq_digitWindow (n d : Nat) (hlt : n < 10 ^ (d + 1))
    (hge : d = 0 ∨ 10 ^ d ≤ n) : decimalText n = digitWindow n (d + 1) := by
  unfold decimalText
  by_cases hn : n = 0
  · subst hn
    have hd : d = 0 := by
      rcases hge with h | h
      · exact h
      · have : 0 < 10 ^ d := pow_pos (by norm_num) d
        omega
    subst hd
    simp [digitWindow]
  · rw [if_neg hn]
    have hge' : 10 ^ d ≤ n := by
      rcases hge with h | h
      · subst h; simp; omega
      · exact h
    exact digits_reverse_eq_digitWindow d n (by omega) hlt hge'

theorem decimalText_eq (x : Nat) (hx : x < 2 ^ 64) :
    decimalText x = digitWindow x (digits10 x) := by
  obtain ⟨d, hd, _, hlt, hge⟩ := digits10_decades x hx
  rw [hd]
  exact decimalText_eq_digitWindow x d hlt hge

theorem bytesOf_writeUIntText (x : Nat) (hx : x < 2 ^ 64) (dst : Nat → Nat) :
    bytesOf (writeUIntText x dst).2 (writeUIntText x dst).1 = decimalText x := by
  obtain ⟨hlen, hb⟩ := writeUIntText_bytes x hx dst
  rw [hlen, decimalText_eq x hx]
  unfold bytesOf digitWindow
  apply List.map_congr_left
  intro j hj
  rw [hb j, if_pos (List.mem_range.mp hj)]

theorem bytesOf_add (f : Nat → Nat) (a n : Nat) :
    bytesOf f (a + n) = bytesOf f a ++ (List.range n).map (fun j => f (a + j)) := by
  unfold bytesOf
  rw [List.range_add, List.map_append, List.map_map]
  rfl

theorem bytesOf_congr (f g : Nat → Nat) (n : Nat) (h : ∀ j, j < n → f j = g j) :
    bytesOf f n = bytesOf g n := by
  unfold bytesOf
  exact List.map_congr_left (fun j hj => h j (List.mem_range.mp hj))

namespace WriteBuffer

theorem output_nextIfAtEnd (b : WriteBuffer) : b.nextIfAtEnd.output = b.output := by
  unfold nextIfAtEnd
  split
  · rfl
  · simp [next, output, bytesOf]

theorem output_putAtPosition (b : WriteBuffer) (c : Nat) :
    (b.putAtPosition c).output = b.output ++ [c] := by
  simp only [putAtPosition, output]
  rw [bytesOf_add, List.append_assoc]
  congr 1
  congr 1
  · apply bytesOf_congr
    intro j hj
    simp [store, Nat.ne_of_lt hj]
  · simp [store, List.range_succ]

theorem output_write (bytes : List Nat) : ∀ b : WriteBuffer,
    (b.write bytes).output = b.output ++ bytes := by
  induction bytes with
  | nil => intro b; simp [write]
  | cons c cs ih =>
    intro b
    have h := ih (b.nextIfAtEnd.putAtPosition c)
    simp only [write, List.foldl_cons] at h ⊢
    rw [h, output_putAtPosition, output_nextIfAtEnd]
    simp

end WriteBuffer

theorem writeUIntTextFallbackLoop_spec (L : Nat) : ∀ (x : Nat) (pos : Int) (tmp : Int → Nat),
    x < 10 ^ L → (L = 0 ∨ 10 ^ (L - 1) ≤ x) →
    (writeUIntTextFallbackLoop x pos tmp).1 = pos - L ∧
    (∀ k, pos < k → (writeUIntTextFallbackLoop x pos tmp).2 k = tmp k) ∧
    (∀ i : Nat, i < L →
      (writeUIntTextFallbackLoop x pos tmp).2 (pos - i) = 48 + x / 10 ^ i % 10) := by
  induction L with
  | zero =>
    intro x pos tmp hlt _
    have hx : x = 0 := by simpa using hlt
    subst hx
    rw [writeUIntTextFallbackLoop]
    simp
  | succ L ih =>
    intro x pos tmp hlt hge
    have hx : x ≠ 0 := by
      rcases hge with h | h
      · omega
      · have : 0 < 10 ^ (L + 1 - 1) := pow_pos (by norm_num) _
        omega
    have hp : 10 ^ (L + 1) = 10 ^ L * 10 := by ring
    have hlt' : x / 10 < 10 ^ L := by
      rw [Nat.div_lt_iff_lt_mul (by norm_num)]
      omega
    have hge' : L = 0 ∨ 10 ^ (L - 1) ≤ x / 10 := by
      by_cases hL : L = 0
      · exact Or.inl hL
      · right
        rw [Nat.le_div_iff_mul_le (by norm_num)]
        obtain ⟨m, rfl⟩ : ∃ m, L = m + 1 := ⟨L - 1, by omega⟩
        rcases hge with h | h
        · omega
        · simp only [Nat.add_sub_cancel] at h ⊢
          rw [pow_succ] at h
          exact h
    obtain ⟨h1, h2, h3⟩ := ih (x / 10) (pos - 1) (storeTmp tmp pos ((48 + x % 10) % 256)) hlt' hge'
    rw [writeUIntTextFallbackLoop]
    simp only [hx, ne_eq, not_false_eq_true, if_true]
    refine ⟨?_, ?_, ?_⟩
    · rw [h1]
      push_cast
      ring
    · intro k hk
      rw [h2 k (by omega)]
      simp [storeTmp, ne_of_gt hk]
    · intro i hi
      cases i with
      | zero =>
        simp only [Nat.cast_zero, sub_zero, pow_zero, Nat.div_one]
        rw [h2 pos (by omega)]
        simp only [storeTmp, if_true]
        omega
      | succ i =>
        have e : pos - ((i + 1 : Nat) : Int) = pos - 1 - (i : Int) := by
          push_cast
          ring
        rw [e, h3 i (by omega), Nat.div_div_eq_div_mul, pow_succ, Nat.mul_comm]

theorem rangeTmp_writeUIntTextFallbackLoop (tmp : Int → Nat) (x : Nat) (hx : x < 2 ^ 64)
    (h0 : x ≠ 0) :
    rangeTmp (writeUIntTextFallbackLoop x ((WRITE_HELPERS_MAX_INT_WIDTH : Int) - 1) tmp).2
      ((writeUIntTextFallbackLoop x ((WRITE_HELPERS_MAX_INT_WIDTH : Int) - 1) tmp).1 + 1)
      ((WRITE_HELPERS_MAX_INT_WIDTH : Int) -
        ((writeUIntTextFallbackLoop x ((WRITE_HELPERS_MAX_INT_WIDTH : Int) - 1) tmp).1 + 1)).toNat
      = decimalText x := by
  obtain ⟨d, hd, hd20, hlt, hge⟩ := digits10_decades x hx
  have hge' : d + 1 = 0 ∨ 10 ^ (d + 1 - 1) ≤ x := by
    right
    rcases hge with h | h
    · subst h; simp; omega
    · simpa using h
  obtain ⟨h1, -, h3⟩ := writeUIntTextFallbackLoop_spec (d + 1) x
    ((WRITE_HELPERS_MAX_INT_WIDTH : Int) - 1) tmp hlt hge'
  rw [decimalText_eq_digitWindow x d hlt hge, h1]
  have e : ((WRITE_HELPERS_MAX_INT_WIDTH : Int) -
      ((WRITE_HELPERS_MAX_INT_WIDTH : Int) - 1 - ((d + 1 : Nat) : Int) + 1)).toNat = d + 1 := by
    simp only [WRITE_HELPERS_MAX_INT_WIDTH]
    omega
  rw [e]
  unfold rangeTmp digitWindow
  apply List.map_congr_left
  intro j hj
  have hj' : j < d + 1 := List.mem_range.mp hj
  have e2 : (WRITE_HELPERS_MAX_INT_WIDTH : Int) - 1 - ((d + 1 : Nat) : Int) + 1 + (j : Int) =
      (WRITE_HELPERS_MAX_INT_WIDTH : Int) - 1 - ((d + 1 - 1 - j : Nat) : Int) := by
    omega
  rw [e2, h3 (d + 1 - 1 - j) (by omega)]

theorem output_writeUIntTextFallback (tmp : Int → Nat) (x : Nat) (hx : x < 2 ^ 64)
    (buf : WriteBuffer) :
    (writeUIntTextFallback tmp x buf).output = buf.output ++ decimalText x := by
  unfold writeUIntTextFallback
  by_cases h0 : x = 0
  · subst h0
    simp [WriteBuffer.output_putAtPosition, WriteBuffer.output_nextIfAtEnd, decimalText]
  · simp only [h0, if_false]
    rw [WriteBuffer.output_write, rangeTmp_writeUIntTextFallbackLoop tmp x hx h0]

theorem output_writeUIntText_direct (x : Nat) (hx : x < 2 ^ 64) (buf : WriteBuffer) :
    WriteBuffer.output { buf with
      mem := fun k => if k < buf.pos then buf.mem k
        else (writeUIntText x (fun j => buf.mem (buf.pos + j))).2 (k - buf.pos),
      pos := buf.pos + (writeUIntText x (fun j => buf.mem (buf.pos + j))).1 } =
      buf.output ++ decimalText x := by
  simp only [WriteBuffer.output]
  rw [bytesOf_add, List.append_assoc, ← bytesOf_writeUIntText x hx (fun j => buf.mem (buf.pos + j))]
  congr 1
  congr 1
  · apply bytesOf_congr
    intro j hj
    simp [hj]
  · unfold bytesOf
    apply List.map_congr_left
    intro j _
    simp

theorem output_writeUIntTextBuf (tmp : Int → Nat) (x : Nat) (hx : x < 2 ^ 64)
    (buf : WriteBuffer) :
    (writeUIntTextBuf tmp x buf).output = buf.output ++ decimalText x := by
  unfold writeUIntTextBuf
  split
  · exact output_writeUIntText_direct x hx buf
  · exact output_writeUIntTextFallback tmp x hx buf


/-- Claim C4: for every `x < 2^64` and every state of the write cursor, the bytes that
`writeUIntTextFallback(x, buf)` appends to the output are the bytes `dst[0 .. n-1]` that
`writeUIntText(x, dst)` produces, `n` being its return value; `writeUIntText(x, buf)` appends
these same bytes whatever the free space of the current chunk; for `x = 0` both paths give
the single byte `'0'`. -/
theorem writeUIntTextFallback_same_bytes (tmp : Int → Nat) (x : Nat) (hx : x < 2 ^ 64)
    (buf : WriteBuffer) (dst : Nat → Nat) :
    (writeUIntTextFallback tmp x buf).output =
      buf.output ++ bytesOf (writeUIntText x dst).2 (writeUIntText x dst).1 ∧
    (writeUIntTextBuf tmp x buf).output =
      buf.output ++ bytesOf (writeUIntText x dst).2 (writeUIntText x dst).1 ∧
    (x = 0 → (writeUIntTextFallback tmp x buf).output = buf.output ++ [48] ∧
      bytesOf (writeUIntText x dst).2 (writeUIntText x dst).1 = [48]) := by
  rw [bytesOf_writeUIntText x hx dst]
  refine ⟨output_writeUIntTextFallback tmp x hx buf, output_writeUIntTextBuf tmp x hx buf, ?_⟩
  intro h0
  rw [output_writeUIntTextFallback tmp x hx buf, h0]
  simp [decimalText]

theorem writeUIntTextFallback_same_bytes_witness :
    12345 < 2 ^ 64 ∧
    (writeUIntTextFallback (fun _ => 0) 12345 fullChunk).output =
      fullChunk.output ++
        bytesOf (writeUIntText 12345 (fun _ => 0)).2 (writeUIntText 12345 (fun _ => 0)).1 :=
  ⟨by norm_num,
    (writeUIntTextFallback_same_bytes (fun _ => 0) 12345 (by norm_num) fullChunk
      (fun _ => 0)).1⟩

theorem decodeDecimal_decimalText (n : Nat) (hn : n < 2 ^ 64) :
    decodeDecimal (decimalText n) = n := by
  obtain ⟨d, hd, _, hlt, hge⟩ := digits10_decades n hn
  rw [decimalText_eq_digitWindow n d hlt hge]
  unfold digitWindow
  rw [decodeDecimal_digits n (d + 1) hlt (d + 1) le_rfl]
  simp

theorem decodeSigned_decimalText (n : Nat) (hn : n < 2 ^ 64) :
    decodeSigned (decimalText n) = (n : Int) := by
  obtain ⟨d, hd, _, hlt, hge⟩ := digits10_decades n hn
  have h := decodeDecimal_decimalText n hn
  rw [decimalText_eq_digitWindow n d hlt hge] at h ⊢
  unfold digitWindow at h ⊢
  rw [List.range_succ_eq_map, List.map_cons] at h ⊢
  unfold decodeSigned
  split
  · next ds heq =>
    have := (List.cons.inj heq).1
    omega
  · rw [h]

theorem decodeSigned_signedText (x : Int) (h : x.natAbs < 2 ^ 64) :
    decodeSigned (signedText x) = x := by
  unfold signedText
  by_cases hx : x < 0
  · rw [if_pos hx]
    show -(decodeDecimal (decimalText x.natAbs) : Int) = x
    rw [decodeDecimal_decimalText _ h]
    omega
  · rw [if_neg hx, decodeSigned_decimalText _ h]
    omega

theorem signedText_neg (n d : Nat) (hn : n < 2 ^ 64) (h0 : 0 < n) (hd : digits10 n = d) :
    signedText (-(n : Int)) = 45 :: digitWindow n d := by
  have h : decimalText n = digitWindow n (digits10 n) := decimalText_eq n hn
  rw [hd] at h
  have hneg : -(n : Int) < 0 := by omega
  simp only [signedText, hneg, if_true, Int.natAbs_neg, Int.natAbs_ofNat, h]

theorem signedText_min :
    signedText (-128) = (cstr "-128").take 4 ∧
    signedText (-32768) = (cstr "-32768").take 6 ∧
    signedText (-2147483648) = (cstr "-2147483648").take 11 ∧
    signedText (-9223372036854775808) = (cstr "-9223372036854775808").take 20 := by
  refine ⟨?_, ?_, ?_, ?_⟩
  · rw [show (-128 : Int) = -((128 : Nat) : Int) by norm_num,
      signedText_neg 128 3 (by norm_num) (by norm_num) (by simp [digits10])]
    decide
  · rw [show (-32768 : Int) = -((32768 : Nat) : Int) by norm_num,
      signedText_neg 32768 5 (by norm_num) (by norm_num) (by simp [digits10])]
    decide
  · rw [show (-2147483648 : Int) = -((2147483648 : Nat) : Int) by norm_num,
      signedText_neg 2147483648 10 (by norm_num) (by norm_num) (by simp [digits10])]
    decide
  · rw [show (-9223372036854775808 : Int) = -((9223372036854775808 : Nat) : Int) by norm_num,
      signedText_neg 9223372036854775808 19 (by norm_num) (by norm_num) (by simp [digits10])]
    decide

theorem output_writeSIntText (w : Nat) (hw : w = 8 ∨ w = 16 ∨ w = 32 ∨ w = 64)
    (tmp : Int → Nat) (x : Int) (hlo : -(2 : Int) ^ (w - 1) ≤ x) (hhi : x < (2 : Int) ^ (w - 1))
    (buf : WriteBuffer) :
    (writeSIntText w tmp x buf).output = buf.output ++ signedText x := by
  obtain ⟨m8, m16, m32, m64⟩ := signedText_min
  unfold writeSIntText
  by_cases hmin : x = -(2 : Int) ^ (w - 1)
  · rw [if_pos hmin]
    rcases hw with rfl | rfl | rfl | rfl <;> norm_num at hmin <;> subst hmin <;>
      simp only [Nat.reduceDiv, OfNat.ofNat_ne_one, if_true, if_false, Nat.reduceEqDiff,
        WriteBuffer.output_write] <;>
      simp only [m8, m16, m32, m64]
  · rw [if_neg hmin]
    have hb : (2 : Int) ^ (w - 1) ≤ 2 ^ 63 ∧ (2 : Int) ^ w = 2 * 2 ^ (w - 1) := by
      rcases hw with rfl | rfl | rfl | rfl <;> norm_num
    generalize (2 : Int) ^ (w - 1) = p at hlo hhi hmin hb
    obtain ⟨hp, hpw⟩ := hb
    rw [hpw]
    have habs : x.natAbs < 2 ^ 64 := by
      norm_num at hp ⊢
      omega
    by_cases hx : x < 0
    · have e : ((-x) % (2 * p)).toNat = x.natAbs := by
        rw [Int.emod_eq_of_lt (by omega) (by omega)]
        omega
      simp only [hx, if_true, e]
      rw [output_writeUIntTextBuf tmp _ habs, WriteBuffer.output_putAtPosition,
        WriteBuffer.output_nextIfAtEnd]
      simp [signedText, hx]
    · have e : (x % (2 * p)).toNat = x.natAbs := by
        rw [Int.emod_eq_of_lt (by omega) (by omega)]
        omega
      simp only [hx, if_false, e]
      rw [output_writeUIntTextBuf tmp _ habs]
      simp [signedText, hx]

/-- Claim C3: for every width `w` among 8, 16, 32 and 64 and every `x` with
`-2^(w-1) ≤ x < 2^(w-1)`, `writeSIntText(x, buf)` appends exactly the canonical decimal text
of `x` (a `'-'` exactly when `x < 0`, then the digits of `|x|` without leading zeros), and
decoding that text gives `x`; for the minimum of each width the bytes appended are the
literals `-128`, `-32768`, `-2147483648` and `-9223372036854775808`. -/
theorem writeSIntText_canonical (w : Nat) (hw : w = 8 ∨ w = 16 ∨ w = 32 ∨ w = 64)
    (tmp : Int → Nat) (x : Int) (hlo : -(2 : Int) ^ (w - 1) ≤ x) (hhi : x < (2 : Int) ^ (w - 1))
    (buf : WriteBuffer) :
    (writeSIntText w tmp x buf).output = buf.output ++ signedText x ∧
    decodeSigned (signedText x) = x ∧
    (writeSIntText 8 tmp (-128) buf).output = buf.output ++ cstr "-128" ∧
    (writeSIntText 16 tmp (-32768) buf).output = buf.output ++ cstr "-32768" ∧
    (writeSIntText 32 tmp (-2147483648) buf).output = buf.output ++ cstr "-2147483648" ∧
    (writeSIntText 64 tmp (-9223372036854775808) buf).output =
      buf.output ++ cstr "-9223372036854775808" := by
  obtain ⟨m8, m16, m32, m64⟩ := signedText_min
  have habs : x.natAbs < 2 ^ 64 := by
    have hb : (2 : Int) ^ (w - 1) ≤ 2 ^ 63 := by
      rcases hw with rfl | rfl | rfl | rfl <;> norm_num
    generalize (2 : Int) ^ (w - 1) = p at hlo hhi hb
    norm_num at hb ⊢
    omega
  refine ⟨output_writeSIntText w hw tmp x hlo hhi buf, decodeSigned_signedText x habs, ?_, ?_, ?_, ?_⟩
  · rw [output_writeSIntText 8 (by simp) tmp _ (by norm_num) (by norm_num) buf, m8]
    rfl
  · rw [output_writeSIntText 16 (by simp) tmp _ (by norm_num) (by norm_num) buf, m16]
    rfl
  · rw [output_writeSIntText 32 (by simp) tmp _ (by norm_num) (by norm_num) buf, m32]
    rfl
  · rw [output_writeSIntText 64 (by simp) tmp _ (by norm_num) (by norm_num) buf, m64]
    rfl

theorem writeSIntText_canonical_witness :
    (-(2 : Int) ^ (8 - 1) ≤ -42 ∧ (-42 : Int) < (2 : Int) ^ (8 - 1)) ∧
    (writeSIntText 8 (fun _ => 0) (-42) fullChunk).output =
      fullChunk.output ++ signedText (-42) ∧
    decodeSigned (signedText (-42)) = -42 :=
  ⟨by norm_num,
    (writeSIntText_canonical 8 (Or.inl rfl) (fun _ => 0) (-42) (by norm_num) (by norm_num)
      fullChunk).1,
    (writeSIntText_canonical 8 (Or.inl rfl) (fun _ => 0) (-42) (by norm_num) (by norm_num)
      fullChunk).2.1⟩

/-! ## The read cursor -/

namespace ReadBuffer

/-! ### Unfolding of the loops -/

theorem ignoreLoop_eq (b : ReadBuffer) (n : Nat) :
    b.ignoreLoop n =
      if n ≠ 0 then
        if b.eof.1 = false then
          ignoreLoop { b.eof.2 with pos := b.eof.2.pos + min b.eof.2.available n }
            (n - min b.eof.2.available n)
        else (n, b.eof.2)
      else (n, b) := by
  rw [ignoreLoop]
  split
  · split
    · next b1 he => simp [he]
    · next b1 he => simp [he]
  · rfl

theorem tryIgnoreLoop_eq (b : ReadBuffer) (n bytes_ignored : Nat) :
    b.tryIgnoreLoop n bytes_ignored =
      if bytes_ignored < n then
        if b.eof.1 = false then
          tryIgnoreLoop
            { b.eof.2 with pos := b.eof.2.pos + min b.eof.2.available (n - bytes_ignored) } n
            (bytes_ignored + min b.eof.2.available (n - bytes_ignored))
        else (bytes_ignored, b.eof.2)
      else (bytes_ignored, b) := by
  rw [tryIgnoreLoop]
  split
  · split
    · next b1 he => simp [he]
    · next b1 he => simp [he]
  · rfl

theorem readLoop_eq (b : ReadBuffer) (to_ : Nat → Nat) (n bytes_copied : Nat) :
    b.readLoop to_ n bytes_copied =
      if bytes_copied < n then
        if b.eof.1 = false then
          readLoop
            { b.eof.2 with pos := b.eof.2.pos + min b.eof.2.available (n - bytes_copied) }
            (memcpy to_ bytes_copied b.eof.2.mem b.eof.2.pos
              (min b.eof.2.available (n - bytes_copied))) n
            (bytes_copied + min b.eof.2.available (n - bytes_copied))
        else (bytes_copied, b.eof.2, to_)
      else (bytes_copied, b, to_) := by
  rw [readLoop]
  split
  · split
    · next b1 he => simp [he]
    · next b1 he => simp [he]
  · rfl

theorem loopMeasure_step' (b : ReadBuffer) (n : Nat) (hn : n ≠ 0) (he : b.eof.1 = false) :
    ({ b.eof.2 with pos := b.eof.2.pos + min b.eof.2.available n } : ReadBuffer).loopMeasure
      < b.loopMeasure :=
  loopMeasure_step b b.eof.2 n hn (by rw [← he])

/-! ### The cursor invariant -/

theorem valid_next (b : ReadBuffer) (h : b.Valid) : b.next.2.Valid := by
  obtain ⟨h1, h2, h3⟩ := h
  unfold next nextImpl Valid
  cases hs : b.source with
  | nil => simp [h2]
  | cons r rs =>
    rw [hs] at h3
    obtain ⟨hr1, hr2⟩ := h3 r (List.mem_cons_self _ _)
    have hrs : ∀ r' ∈ rs, r'.offset ≤ r'.size ∧ (r'.res = false → r'.offset = 0) :=
      fun r' hr' => h3 r' (List.mem_cons_of_mem _ hr')
    cases hr : r.res
    · simp [hr, hr2 hr]
      exact hrs
    · simp [hr, hr1]
      exact hrs

theorem valid_eof (b : ReadBuffer) (h : b.Valid) : b.eof.2.Valid := by
  unfold eof
  split
  · exact h
  · exact valid_next b h

theorem available_eq (b : ReadBuffer) (h : b.pos ≤ b.size) : b.available = b.size - b.pos := by
  simp [available, h]

theorem valid_advance (b : ReadBuffer) (h : b.Valid) (n : Nat) :
    ({ b with pos := b.pos + min b.available n } : ReadBuffer).Valid := by
  obtain ⟨h1, h2, h3⟩ := h
  refine ⟨?_, h2, h3⟩
  simp only
  rw [available_eq b h1]
  have := Nat.min_le_left (b.size - b.pos) n
  omega

theorem loopMeasure_induction {P : ReadBuffer → Prop}
    (step : ∀ b, (∀ b' : ReadBuffer, b'.loopMeasure < b.loopMeasure → P b') → P b) (b : ReadBuffer) : P b := by
  generalize hf : b.loopMeasure = f
  induction f using Nat.strong_induction_on generalizing b with
  | _ f ih => exact step b (fun b' hlt => ih b'.loopMeasure (by omega) b' rfl)

theorem valid_ignoreLoop (b : ReadBuffer) (n : Nat) (h : b.Valid) :
    (b.ignoreLoop n).2.Valid := by
  induction b using loopMeasure_induction generalizing n with
  | step b ih =>
    rw [ignoreLoop_eq]
    split
    · next hn =>
      split
      · next he =>
        exact ih _ (loopMeasure_step' b n hn he) _ (valid_advance _ (valid_eof b h) _)
      · exact valid_eof b h
    · exact h

theorem valid_tryIgnoreLoop (b : ReadBuffer) (n i : Nat) (h : b.Valid) :
    (b.tryIgnoreLoop n i).2.Valid := by
  induction b using loopMeasure_induction generalizing i with
  | step b ih =>
    rw [tryIgnoreLoop_eq]
    split
    · next hn =>
      split
      · next he =>
        exact ih _ (loopMeasure_step' b (n - i) (by omega) he) _ (valid_advance _ (valid_eof b h) _)
      · exact valid_eof b h
    · exact h

theorem valid_readLoop (b : ReadBuffer) (to_ : Nat → Nat) (n i : Nat) (h : b.Valid) :
    (b.readLoop to_ n i).2.1.Valid := by
  induction b using loopMeasure_induction generalizing to_ i with
  | step b ih =>
    rw [readLoop_eq]
    split
    · next hn =>
      split
      · next he =>
        exact ih _ (loopMeasure_step' b (n - i) (by omega) he) _ _ (valid_advance _ (valid_eof b h) _)
      · exact valid_eof b h
    · exact h

theorem valid_ignore (b : ReadBuffer) (h : b.Valid)
    (hne : ∀ r ∈ b.source, r.res = true → r.offset < r.size) : b.ignore.2.Valid := by
  have hv := valid_eof b h
  unfold ignore
  split
  · next b1 he =>
    rw [he] at hv
    obtain ⟨h1, h2, h3⟩ := hv
    refine ⟨?_, h2, h3⟩
    simp only at h1 ⊢
    have hlt : b1.pos < b1.size := by
      unfold eof at he
      by_cases hp : b.pos < b.size
      · simp [hasPendingData, hp] at he
        rw [← he]
        exact hp
      · simp only [hasPendingData, hp, decide_False, Bool.false_eq_true, if_false] at he
        unfold next nextImpl at he
        cases hs : b.source with
        | nil => simp [hs] at he
        | cons r rs =>
          rw [hs] at hne
          have hr := hne r (List.mem_cons_self _ _)
          simp only [hs] at he
          cases hres : r.res
          · simp [hres] at he
          · simp [hres] at he
            rw [← he]
            exact hr hres
    omega
  · next b1 he =>
    rw [he] at hv
    exact hv

/-- Claim C5, as amended: when every coming refill leaves a pending offset within the region
it exposes (and none when it reports exhaustion) and no pending offset is left over,
`position ≤ end` holding before `next()`, `eof()`, `ignore(n)`, `tryIgnore(n)`, `read(to, n)`
or `readStrict(to, n)` holds after it, and so does the condition on the source; for
`ignore()` the same holds when, in addition, every refill that reports success exposes at
least one byte after its pending offset. -/
theorem cursor_invariant_preserved (b : ReadBuffer) (h : b.Valid) :
    b.next.2.pos ≤ b.next.2.size ∧ b.next.2.Valid ∧
    b.eof.2.pos ≤ b.eof.2.size ∧ b.eof.2.Valid ∧
    (∀ n, (b.ignoreN n).2.pos ≤ (b.ignoreN n).2.size ∧ (b.ignoreN n).2.Valid) ∧
    (∀ n, (b.tryIgnore n).2.pos ≤ (b.tryIgnore n).2.size ∧ (b.tryIgnore n).2.Valid) ∧
    (∀ to_ n, (b.read to_ n).2.1.pos ≤ (b.read to_ n).2.1.size ∧ (b.read to_ n).2.1.Valid) ∧
    (∀ to_ n, (b.readStrict to_ n).2.1.pos ≤ (b.readStrict to_ n).2.1.size ∧
      (b.readStrict to_ n).2.1.Valid) ∧
    ((∀ r ∈ b.source, r.res = true → r.offset < r.size) →
      b.ignore.2.pos ≤ b.ignore.2.size ∧ b.ignore.2.Valid) := by
  have hi : ∀ n, (b.ignoreN n).2.Valid := by
    intro n
    unfold ignoreN
    simp only
    split <;> exact valid_ignoreLoop b n h
  have hs : ∀ to_ n, (b.readStrict to_ n).2.1.Valid := by
    intro to_ n
    unfold readStrict read
    simp only
    split <;> exact valid_readLoop b to_ n 0 h
  exact ⟨(valid_next b h).1, valid_next b h, (valid_eof b h).1, valid_eof b h,
    fun n => ⟨(hi n).1, hi n⟩,
    fun n => ⟨(valid_tryIgnoreLoop b n 0 h).1, valid_tryIgnoreLoop b n 0 h⟩,
    fun to_ n => ⟨(valid_readLoop b to_ n 0 h).1, valid_readLoop b to_ n 0 h⟩,
    fun to_ n => ⟨(hs to_ n).1, hs to_ n⟩,
    fun hne => ⟨(valid_ignore b h hne).1, valid_ignore b h hne⟩⟩

theorem cursor_invariant_preserved_witness :
    threeChunks.Valid ∧ threeChunks.next.2.pos ≤ threeChunks.next.2.size ∧
    (∀ n, (threeChunks.ignoreN n).2.pos ≤ (threeChunks.ignoreN n).2.size ∧
      (threeChunks.ignoreN n).2.Valid) :=
  ⟨by decide, (cursor_invariant_preserved threeChunks (by decide)).1,
    (cursor_invariant_preserved threeChunks (by decide)).2.2.2.2.1⟩

/-- Claim C5 as stated fails: `position ≤ end` holds before and not after `next()` when the
refill leaves a pending offset of 2 in a region of size 1, and it holds before and not after
`ignore()` when the refill reports success with an empty region. -/
theorem cursor_invariant_counterexample :
    (overshootBuffer.pos ≤ overshootBuffer.size ∧
      ¬ overshootBuffer.next.2.pos ≤ overshootBuffer.next.2.size) ∧
    (emptyRefillBuffer.pos ≤ emptyRefillBuffer.size ∧
      ¬ emptyRefillBuffer.ignore.2.pos ≤ emptyRefillBuffer.ignore.2.size) := by
  decide

end ReadBuffer

theorem bytesBetween_length (mem : Nat → Nat) (p q : Nat) :
    (bytesBetween mem p q).length = q - p := by
  simp [bytesBetween]

theorem bytesBetween_split (mem : Nat → Nat) (p k q : Nat) (h : p + k ≤ q) :
    bytesBetween mem p q = bytesBetween mem p (p + k) ++ bytesBetween mem (p + k) q := by
  unfold bytesBetween
  have e : q - p = (p + k - p) + (q - (p + k)) := by omega
  rw [e, List.range_add, List.map_append, List.map_map]
  congr 1
  apply List.map_congr_left
  intro j _
  simp only [Function.comp]
  congr 1
  omega

theorem bytesBetween_self (mem : Nat → Nat) (p q : Nat) (h : q ≤ p) :
    bytesBetween mem p q = [] := by
  unfold bytesBetween
  rw [Nat.sub_eq_zero_of_le h]
  rfl

theorem bytesBetween_cons (mem : Nat → Nat) (p q : Nat) (h : p < q) :
    bytesBetween mem p q = mem p :: bytesBetween mem (p + 1) q := by
  rw [bytesBetween_split mem p 1 q (by omega)]
  simp [bytesBetween, List.range_succ]

namespace ReadBuffer

theorem chunked_valid (b : ReadBuffer) (h : b.Chunked) : b.Valid := by
  obtain ⟨h1, h2, h3⟩ := h
  refine ⟨h1, h2, fun r hr => ⟨(h3 r hr).2, fun hf => ?_⟩⟩
  rw [(h3 r hr).1] at hf
  exact absurd hf (by simp)

theorem pending_length (b : ReadBuffer) : b.pending.length = b.size - b.pos :=
  bytesBetween_length _ _ _

theorem remaining_advance (b : ReadBuffer) (k : Nat) (h : b.pos + k ≤ b.size) :
    ({ b with pos := b.pos + k } : ReadBuffer).remaining = b.remaining.drop k ∧
    b.remaining.take k = bytesBetween b.mem b.pos (b.pos + k) := by
  unfold remaining pending
  simp only
  rw [bytesBetween_split b.mem b.pos k b.size h]
  have hl : (bytesBetween b.mem b.pos (b.pos + k)).length = k := by
    rw [bytesBetween_length]
    omega
  constructor
  · rw [List.append_assoc, List.drop_append_eq_append_drop, List.drop_of_length_le (by omega)]
    simp [hl]
  · rw [List.append_assoc, List.take_append_eq_append_take, List.take_of_length_le (by omega)]
    simp [hl]

theorem chunked_advance (b : ReadBuffer) (h : b.Chunked) (k : Nat) (hk : b.pos + k ≤ b.size) :
    ({ b with pos := b.pos + k } : ReadBuffer).Chunked :=
  ⟨hk, h.2.1, h.2.2⟩

theorem eof_chunked (b : ReadBuffer) (h : b.Chunked) :
    b.eof.2.Chunked ∧ b.eof.2.remaining = b.remaining ∧
    (b.eof.1 = true → b.remaining = [] ∧ b.eof.2.source = [] ∧ b.eof.2.pos = b.eof.2.size) := by
  obtain ⟨h1, h2, h3⟩ := h
  unfold eof
  by_cases hp : b.pos < b.size
  · simp only [hasPendingData, hp, decide_True, if_true]
    exact ⟨⟨h1, h2, h3⟩, trivial, fun hc => absurd hc (by simp)⟩
  · simp only [hasPendingData, hp, decide_False, Bool.false_eq_true, if_false]
    have hpend : bytesBetween b.mem b.pos b.size = [] := bytesBetween_self _ _ _ (by omega)
    unfold next nextImpl
    cases hs : b.source with
    | nil =>
      refine ⟨?_, ?_, ?_⟩
      · simp [Chunked, h2]
      · simp [remaining, pending, hs, h2, hpend, streamOf, bytesBetween_self]
      · intro _
        simp [remaining, pending, hs, h2, hpend, streamOf]
    | cons r rs =>
      rw [hs] at h3
      obtain ⟨hr1, hr2⟩ := h3 r (List.mem_cons_self _ _)
      refine ⟨?_, ?_, ?_⟩
      · simp only [Chunked, hr1, Bool.not_true, Bool.false_eq_true, if_false]
        exact ⟨hr2, trivial, fun r' hr' => h3 r' (List.mem_cons_of_mem _ hr')⟩
      · simp [remaining, pending, hs, hpend, streamOf, Refill.visible, hr1]
      · simp [hr1]

theorem min_available (b : ReadBuffer) (h : b.Chunked) (m : Nat) :
    b.pos + min b.available m ≤ b.size ∧
    (b.pos < b.size → 0 < m → 0 < min b.available m) ∧
    min b.available m ≤ b.remaining.length := by
  rw [available_eq b h.1]
  have h1 := Nat.min_le_left (b.size - b.pos) m
  have h2 : b.remaining.length = (b.size - b.pos) + (streamOf b.source).length := by
    simp [remaining, pending_length]
  refine ⟨by have := h.1; omega, fun hp hm => ?_, by omega⟩
  rw [Nat.lt_min]
  omega

end ReadBuffer

namespace ReadBuffer

theorem tryIgnoreLoop_spec (b : ReadBuffer) (n i : Nat) (h : b.Chunked) (hi : i ≤ n) :
    (b.tryIgnoreLoop n i).1 = i + min (n - i) b.remaining.length ∧
    (b.tryIgnoreLoop n i).2.remaining = b.remaining.drop (min (n - i) b.remaining.length) ∧
    (b.tryIgnoreLoop n i).2.Chunked ∧
    (b.remaining.length < n - i →
      (b.tryIgnoreLoop n i).2.source = [] ∧
      (b.tryIgnoreLoop n i).2.pos = (b.tryIgnoreLoop n i).2.size) := by
  induction b using loopMeasure_induction generalizing i with
  | step b ih =>
    obtain ⟨hc1, hr1, he1⟩ := eof_chunked b h
    rw [tryIgnoreLoop_eq]
    by_cases hn : i < n
    · by_cases he : b.eof.1 = false
      · simp only [hn, he, if_true]
        obtain ⟨ha1, -, ha3⟩ := min_available b.eof.2 hc1 (n - i)
        obtain ⟨hd1, -⟩ := remaining_advance b.eof.2 _ ha1
        have hstep := loopMeasure_step' b (n - i) (by omega) he
        obtain ⟨r1, r2, r3, r4⟩ := ih _ hstep (i + min b.eof.2.available (n - i))
          (chunked_advance _ hc1 _ ha1) (by have := Nat.min_le_right b.eof.2.available (n - i); omega)
        rw [hd1, hr1] at r1 r2 r4
        rw [hr1] at ha3
        have hk := Nat.min_le_right b.eof.2.available (n - i)
        generalize min b.eof.2.available (n - i) = k at *
        rw [List.length_drop] at r1 r2 r4
        refine ⟨by rw [r1]; omega, ?_, r3, fun hlt => r4 (by omega)⟩
        rw [r2, List.drop_drop]
        congr 1
        omega
      · have het : b.eof.1 = true := by simpa using he
        obtain ⟨e1, e2, e3⟩ := he1 het
        simp only [hn, het, if_true, Bool.true_eq_false, if_false]
        rw [hr1, e1]
        simp [e2, e3]
        exact hc1
    · simp only [hn, if_false]
      have : n - i = 0 := by omega
      rw [this]
      simp
      exact h

theorem ignoreLoop_spec (b : ReadBuffer) (n : Nat) (h : b.Chunked) :
    (b.ignoreLoop n).1 = n - min n b.remaining.length ∧
    (b.ignoreLoop n).2.remaining = b.remaining.drop (min n b.remaining.length) ∧
    (b.ignoreLoop n).2.Chunked := by
  induction b using loopMeasure_induction generalizing n with
  | step b ih =>
    obtain ⟨hc1, hr1, he1⟩ := eof_chunked b h
    rw [ignoreLoop_eq]
    by_cases hn : n ≠ 0
    · by_cases he : b.eof.1 = false
      · simp only [hn, he, if_true, ne_eq, not_false_eq_true]
        obtain ⟨ha1, -, ha3⟩ := min_available b.eof.2 hc1 n
        obtain ⟨hd1, -⟩ := remaining_advance b.eof.2 _ ha1
        have hstep := loopMeasure_step' b n hn he
        obtain ⟨r1, r2, r3⟩ := ih _ hstep (n - min b.eof.2.available n)
          (chunked_advance _ hc1 _ ha1)
        rw [hd1, hr1] at r1 r2
        rw [hr1] at ha3
        have hk := Nat.min_le_right b.eof.2.available n
        generalize min b.eof.2.available n = k at *
        rw [List.length_drop] at r1 r2
        refine ⟨by rw [r1]; omega, ?_, r3⟩
        rw [r2, List.drop_drop]
        congr 1
        omega
      · have het : b.eof.1 = true := by simpa using he
        obtain ⟨e1, e2, e3⟩ := he1 het
        simp only [hn, het, if_true, Bool.true_eq_false, if_false, ne_eq, not_false_eq_true]
        rw [hr1, e1]
        simp
        exact hc1
    · have hn0 : n = 0 := by simpa using hn
      subst hn0
      simp
      exact h

theorem readLoop_spec (b : ReadBuffer) (to_ : Nat → Nat) (n i : Nat) (h : b.Chunked)
    (hi : i ≤ n) :
    (b.readLoop to_ n i).1 = i + min (n - i) b.remaining.length ∧
    (b.readLoop to_ n i).2.1.remaining = b.remaining.drop (min (n - i) b.remaining.length) ∧
    (b.readLoop to_ n i).2.1.Chunked ∧
    (∀ j, (b.readLoop to_ n i).2.2 j =
      if i ≤ j ∧ j < i + min (n - i) b.remaining.length then b.remaining.getD (j - i) 0
      else to_ j) := by
  induction b using loopMeasure_induction generalizing i to_ with
  | step b ih =>
    obtain ⟨hc1, hr1, he1⟩ := eof_chunked b h
    rw [readLoop_eq]
    by_cases hn : i < n
    · by_cases he : b.eof.1 = false
      · simp only [hn, he, if_true]
        obtain ⟨ha1, -, ha3⟩ := min_available b.eof.2 hc1 (n - i)
        obtain ⟨hd1, ht1⟩ := remaining_advance b.eof.2 _ ha1
        have hstep := loopMeasure_step' b (n - i) (by omega) he
        obtain ⟨r1, r2, r3, r4⟩ := ih _ hstep
          (memcpy to_ i b.eof.2.mem b.eof.2.pos (min b.eof.2.available (n - i)))
          (i + min b.eof.2.available (n - i))
          (chunked_advance _ hc1 _ ha1) (by have := Nat.min_le_right b.eof.2.available (n - i); omega)
        rw [hd1, hr1] at r1 r2 r4
        rw [hr1] at ha3 ht1
        have hk := Nat.min_le_right b.eof.2.available (n - i)
        generalize min b.eof.2.available (n - i) = k at *
        rw [List.length_drop] at r1 r2 r4
        refine ⟨by rw [r1]; omega, ?_, r3, fun j => ?_⟩
        · rw [r2, List.drop_drop]
          congr 1
          omega
        · rw [r4 j]
          by_cases hj1 : i + k ≤ j ∧ j < i + k + min (n - (i + k)) (b.remaining.length - k)
          · rw [if_pos hj1, if_pos (by omega)]
            simp only [List.getD_eq_getElem?_getD, List.getElem?_drop]
            congr 2
            omega
          · rw [if_neg hj1]
            unfold memcpy
            by_cases hj2 : i ≤ j ∧ j < i + k
            · rw [if_pos hj2, if_pos (by omega)]
              have hb : (bytesBetween b.eof.2.mem b.eof.2.pos (b.eof.2.pos + k)).getD (j - i) 0
                  = b.eof.2.mem (b.eof.2.pos + (j - i)) := by
                unfold bytesBetween
                simp only [List.getD_eq_getElem?_getD, List.getElem?_map]
                rw [List.getElem?_range (by omega)]
                rfl
              rw [← hb, ← ht1]
              simp only [List.getD_eq_getElem?_getD]
              rw [List.getElem?_take_of_lt (by omega)]
            · rw [if_neg hj2, if_neg (by omega)]
      · have het : b.eof.1 = true := by simpa using he
        obtain ⟨e1, e2, e3⟩ := he1 het
        simp only [hn, het, if_true, Bool.true_eq_false, if_false]
        rw [hr1, e1]
        simp
        exact ⟨hc1, fun j => by rw [if_neg (by omega)]⟩
    · simp only [hn, if_false]
      have : n - i = 0 := by omega
      rw [this]
      simp
      exact ⟨h, fun j => by rw [if_neg (by omega)]⟩

end ReadBuffer

/-! ## The quoted-string parser -/

/-! ### Unfolding of the stream-level parser -/

theorem loopOnStream_nil (hlp : Helpers) (quote : Nat) (sql : Bool) (s : List Nat) :
    loopOnStream hlp quote sql s [] =
      (some "Cannot parse quoted string: expected closing quote", s, []) := by
  rw [loopOnStream.eq_def]

theorem loopOnStream_other (hlp : Helpers) (quote : Nat) (sql : Bool) (s : List Nat)
    (c : Nat) (rest : List Nat) (hq : c ≠ quote) (hb : c ≠ 92) :
    loopOnStream hlp quote sql s (c :: rest) = loopOnStream hlp quote sql (s ++ [c]) rest := by
  rw [loopOnStream.eq_def]
  simp [hq, hb]

theorem loopOnStream_quote_plain (hlp : Helpers) (quote : Nat) (s : List Nat)
    (rest : List Nat) :
    loopOnStream hlp quote false s (quote :: rest) = (none, s, rest) := by
  rw [loopOnStream.eq_def]
  simp

theorem loopOnStream_quote_end (hlp : Helpers) (quote : Nat) (s : List Nat) :
    loopOnStream hlp quote true s [quote] = (none, s, []) := by
  rw [loopOnStream.eq_def]
  simp

theorem loopOnStream_quote_double (hlp : Helpers) (quote : Nat) (s : List Nat)
    (rest : List Nat) :
    loopOnStream hlp quote true s (quote :: quote :: rest) =
      loopOnStream hlp quote true (s ++ [quote]) rest := by
  rw [loopOnStream.eq_def]
  simp

theorem loopOnStream_quote_close (hlp : Helpers) (quote : Nat) (s : List Nat) (c : Nat)
    (rest : List Nat) (hc : c ≠ quote) :
    loopOnStream hlp quote true s (quote :: c :: rest) = (none, s, c :: rest) := by
  rw [loopOnStream.eq_def]
  simp [hc]

theorem loopOnStream_escape (hlp : Helpers) (quote : Nat) (sql : Bool) (s : List Nat)
    (rest : List Nat) (hq : 92 ≠ quote) :
    loopOnStream hlp quote sql s (92 :: rest) =
      if (escapeOnStream hlp s rest).1 = none then
        loopOnStream hlp quote sql (escapeOnStream hlp s rest).2.1 (escapeOnStream hlp s rest).2.2
      else escapeOnStream hlp s rest := by
  rw [loopOnStream.eq_def]
  simp only [hq, if_false, if_true]
  split
  · next e s2 r2 hesc => simp [hesc]
  · next s2 r2 hesc => simp [hesc]

theorem loopOnStream_run (hlp : Helpers) (quote : Nat) (sql : Bool) (run : List Nat) :
    ∀ (s rest : List Nat), (∀ c ∈ run, c ≠ quote ∧ c ≠ 92) →
    loopOnStream hlp quote sql s (run ++ rest) = loopOnStream hlp quote sql (s ++ run) rest := by
  induction run with
  | nil => intro s rest _; simp
  | cons c cs ih =>
    intro s rest h
    obtain ⟨hq, hb⟩ := h c (List.mem_cons_self _ _)
    rw [List.cons_append, loopOnStream_other hlp quote sql s c _ hq hb,
      ih (s ++ [c]) rest (fun c' hc' => h c' (List.mem_cons_of_mem _ hc'))]
    simp

/-! ### The scan -/

theorem findFrom_skipped (c1 c2 : Nat) (mem : Nat → Nat) (count : Nat) : ∀ pos i,
    pos ≤ i → i < findFrom c1 c2 mem count pos → mem i ≠ c1 ∧ mem i ≠ c2 := by
  induction count with
  | zero =>
    intro pos i h1 h2
    simp [findFrom] at h2
    omega
  | succ count ih =>
    intro pos i h1 h2
    unfold findFrom at h2
    split at h2
    · omega
    · next hne =>
      by_cases hi : i = pos
      · subst hi
        exact ⟨fun h => hne (Or.inl h), fun h => hne (Or.inr h)⟩
      · exact ih (pos + 1) i (by omega) h2

theorem find_first_symbols_skipped (c1 c2 : Nat) (mem : Nat → Nat) (pos size i : Nat)
    (h1 : pos ≤ i) (h2 : i < find_first_symbols c1 c2 mem pos size) :
    mem i ≠ c1 ∧ mem i ≠ c2 := by
  unfold find_first_symbols at h2
  split at h2
  · exact findFrom_skipped c1 c2 mem _ pos i h1 h2
  · omega

theorem bytesBetween_mem (mem : Nat → Nat) (p q c : Nat) (h : c ∈ bytesBetween mem p q) :
    ∃ i, p ≤ i ∧ i < q ∧ mem i = c := by
  unfold bytesBetween at h
  rw [List.mem_map] at h
  obtain ⟨j, hj, hc⟩ := h
  exact ⟨p + j, by omega, by have := List.mem_range.mp hj; omega, hc⟩

namespace ReadBuffer

theorem remaining_cons (b : ReadBuffer) (h : b.pos < b.size) :
    b.remaining = b.mem b.pos :: ({ b with pos := b.pos + 1 } : ReadBuffer).remaining := by
  unfold remaining pending
  simp only
  rw [bytesBetween_cons b.mem b.pos b.size h]
  rfl

theorem remaining_scan (quote : Nat) (b : ReadBuffer) (h : b.pos ≤ b.size) :
    b.remaining = bytesBetween b.mem b.pos (find_first_symbols 92 quote b.mem b.pos b.size) ++
      ({ b with pos := find_first_symbols 92 quote b.mem b.pos b.size } : ReadBuffer).remaining ∧
    (∀ c ∈ bytesBetween b.mem b.pos (find_first_symbols 92 quote b.mem b.pos b.size),
      c ≠ quote ∧ c ≠ 92) := by
  obtain ⟨f1, f2, -⟩ := find_first_symbols_bounds 92 quote b.mem b.pos b.size
  have f2 := f2 h
  constructor
  · unfold remaining pending
    simp only
    rw [← List.append_assoc]
    congr 1
    obtain ⟨k, hk⟩ : ∃ k, find_first_symbols 92 quote b.mem b.pos b.size = b.pos + k :=
      ⟨_, (Nat.add_sub_cancel' f2).symm⟩
    rw [hk] at f1 ⊢
    exact bytesBetween_split b.mem b.pos k b.size f1
  · intro c hc
    obtain ⟨i, hi1, hi2, hi3⟩ := bytesBetween_mem _ _ _ _ hc
    have := find_first_symbols_skipped 92 quote b.mem b.pos b.size i hi1 hi2
    rw [hi3] at this
    exact ⟨this.2, this.1⟩

end ReadBuffer

theorem readAnyQuotedStringLoop_eq (hlp : Helpers) (quote : Nat) (sql : Bool)
    (s : List Nat) (buf : ReadBuffer) :
    readAnyQuotedStringLoop hlp quote sql s buf =
      if buf.eof.1 = true then
        (some "Cannot parse quoted string: expected closing quote", s, buf.eof.2)
      else
        let b1 := buf.eof.2
        let next_pos := find_first_symbols 92 quote b1.mem b1.pos b1.size
        let s1 := s ++ bytesBetween b1.mem b1.pos next_pos
        let b2 : ReadBuffer := { b1 with pos := next_pos }
        if b2.hasPendingData = false then readAnyQuotedStringLoop hlp quote sql s1 b2
        else if b2.mem b2.pos = quote then
          let b3 : ReadBuffer := { b2 with pos := b2.pos + 1 }
          if sql = true then
            if b3.eof.1 = false then
              if b3.eof.2.mem b3.eof.2.pos = quote then
                readAnyQuotedStringLoop hlp quote sql (s1 ++ [quote])
                  { b3.eof.2 with pos := b3.eof.2.pos + 1 }
              else (none, s1, b3.eof.2)
            else (none, s1, b3.eof.2)
          else (none, s1, b3)
        else if b2.mem b2.pos = 92 then
          if (parseComplexEscapeSequence hlp s1 b2).1 = none then
            readAnyQuotedStringLoop hlp quote sql (parseComplexEscapeSequence hlp s1 b2).2.1
              (parseComplexEscapeSequence hlp s1 b2).2.2
          else parseComplexEscapeSequence hlp s1 b2
        else readAnyQuotedStringLoop hlp quote sql s1 b2 := by
  rw [readAnyQuotedStringLoop]
  split
  · next b1 he => simp [he]
  · next b1 he =>
    simp only [he, Bool.false_eq_true, if_false]
    split
    · rfl
    · split
      · split
        · split
          · next b4 he2 => simp [he2]
          · next b4 he2 => simp [he2]
        · rfl
      · split
        · split
          · next e s2 b5 hesc => simp [hesc]
          · next s2 b5 hesc => simp [hesc]
        · rfl

namespace ReadBuffer

theorem source_eof (b : ReadBuffer) : ∀ r ∈ b.eof.2.source, r ∈ b.source := by
  unfold eof
  split
  · exact fun r hr => hr
  · unfold next nextImpl
    cases hs : b.source with
    | nil => simp [hs]
    | cons r rs =>
      intro r' hr'
      have : r' ∈ rs := by
        cases hres : r.res <;> simpa [hres] using hr'
      exact List.mem_cons_of_mem _ this

theorem source_readLoop (b : ReadBuffer) (to_ : Nat → Nat) (n i : Nat) :
    ∀ r ∈ (b.readLoop to_ n i).2.1.source, r ∈ b.source := by
  induction b using loopMeasure_induction generalizing i to_ with
  | step b ih =>
    rw [readLoop_eq]
    split
    · next hn =>
      split
      · next he =>
        intro r hr
        exact source_eof b r (ih _ (loopMeasure_step' b (n - i) (by omega) he) _ _ r hr)
      · exact source_eof b
    · exact fun r hr => hr

theorem chunkedNonEmpty_iff (b : ReadBuffer) :
    b.ChunkedNonEmpty ↔ b.Chunked ∧ ∀ r ∈ b.source, r.offset < r.size := by
  unfold ChunkedNonEmpty Chunked
  constructor
  · rintro ⟨h1, h2, h3⟩
    exact ⟨⟨h1, h2, fun r hr => ⟨(h3 r hr).1, le_of_lt (h3 r hr).2⟩⟩, fun r hr => (h3 r hr).2⟩
  · rintro ⟨⟨h1, h2, h3⟩, h4⟩
    exact ⟨h1, h2, fun r hr => ⟨(h3 r hr).1, h4 r hr⟩⟩

theorem eof_nonEmpty (b : ReadBuffer) (h : b.ChunkedNonEmpty) :
    b.eof.2.ChunkedNonEmpty ∧ b.eof.2.remaining = b.remaining ∧
    (b.eof.1 = true → b.remaining = []) ∧
    (b.eof.1 = false → b.eof.2.pos < b.eof.2.size) := by
  obtain ⟨hc, hne⟩ := (chunkedNonEmpty_iff b).mp h
  obtain ⟨e1, e2, e3⟩ := eof_chunked b hc
  refine ⟨(chunkedNonEmpty_iff _).mpr ⟨e1, fun r hr => hne r (source_eof b r hr)⟩, e2,
    fun ht => (e3 ht).1, ?_⟩
  unfold eof
  by_cases hp : b.pos < b.size
  · simp [hasPendingData, hp]
  · simp only [hasPendingData, hp, decide_False, Bool.false_eq_true, if_false]
    unfold next nextImpl
    cases hs : b.source with
    | nil => simp
    | cons r rs =>
      have hr := h.2.2 r (by rw [hs]; exact List.mem_cons_self _ _)
      simp [hr.1, hr.2]

theorem nonEmpty_advance (b : ReadBuffer) (h : b.ChunkedNonEmpty) (k : Nat)
    (hk : b.pos + k ≤ b.size) : ({ b with pos := b.pos + k } : ReadBuffer).ChunkedNonEmpty :=
  ⟨hk, h.2.1, h.2.2⟩

theorem nonEmpty_setPos (b : ReadBuffer) (h : b.ChunkedNonEmpty) (p : Nat)
    (hp : p ≤ b.size) : ({ b with pos := p } : ReadBuffer).ChunkedNonEmpty :=
  ⟨hp, h.2.1, h.2.2⟩

theorem readStrict_two (b : ReadBuffer) (h : b.ChunkedNonEmpty) (to_ : Nat → Nat) :
    (b.readStrict to_ 2).2.1.ChunkedNonEmpty ∧
    ((b.readStrict to_ 2).1 = none →
      ∃ h1 h2 rest, b.remaining = h1 :: h2 :: rest ∧ (b.readStrict to_ 2).2.1.remaining = rest ∧
        (b.readStrict to_ 2).2.2 0 = h1 ∧ (b.readStrict to_ 2).2.2 1 = h2) ∧
    ((b.readStrict to_ 2).1 ≠ none →
      (b.readStrict to_ 2).1 = some "Cannot read all data" ∧ b.remaining.length < 2 ∧
      (b.readStrict to_ 2).2.1.remaining = []) := by
  obtain ⟨hc, hne⟩ := (chunkedNonEmpty_iff b).mp h
  obtain ⟨r1, r2, r3, r4⟩ := readLoop_spec b to_ 2 0 hc (by omega)
  have hsrc := source_readLoop b to_ 2 0
  have hres : (b.readStrict to_ 2).2 = (b.readLoop to_ 2 0).2 := by
    unfold readStrict read
    simp only
    split <;> rfl
  have herr : (b.readStrict to_ 2).1 =
      if 2 ≠ (b.readLoop to_ 2 0).1 then some "Cannot read all data" else none := by
    unfold readStrict read
    simp only
    split <;> rfl
  rw [hres, herr]
  simp only [Nat.sub_zero, Nat.zero_add] at r1 r2 r4
  refine ⟨(chunkedNonEmpty_iff _).mpr ⟨r3, fun r hr => hne r (hsrc r hr)⟩, ?_, ?_⟩
  · intro hnone
    have h2 : (b.readLoop to_ 2 0).1 = 2 := by
      by_contra hc2
      rw [if_pos (fun h => hc2 h.symm)] at hnone
      simp at hnone
    rw [r1] at h2
    have hlen : 2 ≤ b.remaining.length := by
      by_contra hlt
      rw [Nat.min_eq_right (by omega)] at h2
      omega
    match hrem : b.remaining, hlen with
    | h1 :: h2' :: rest, _ =>
      refine ⟨h1, h2', rest, rfl, ?_, ?_, ?_⟩
      · rw [r2, hrem]
        simp
      · rw [r4 0, hrem]
        simp
      · rw [r4 1, hrem]
        simp
  · intro hsome
    have h2 : (b.readLoop to_ 2 0).1 ≠ 2 := by
      intro hc2
      rw [if_neg (by simp [hc2])] at hsome
      exact hsome rfl
    rw [r1] at h2
    have hlen : b.remaining.length < 2 := by
      by_contra hge
      rw [Nat.min_eq_left (by omega)] at h2
      exact h2 rfl
    refine ⟨by rw [if_pos (fun h => h2 (by rw [r1] at h; exact h.symm))], hlen, ?_⟩
    rw [r2, Nat.min_eq_right (by omega)]
    simp

end ReadBuffer

theorem escape_refines (hlp : Helpers) (s : List Nat) (b : ReadBuffer)
    (h : b.ChunkedNonEmpty) (hp : b.pos < b.size) :
    escapeOnStream hlp s ({ b with pos := b.pos + 1 } : ReadBuffer).remaining =
      ((parseComplexEscapeSequence hlp s b).1, (parseComplexEscapeSequence hlp s b).2.1,
        (parseComplexEscapeSequence hlp s b).2.2.remaining) ∧
    (parseComplexEscapeSequence hlp s b).2.2.ChunkedNonEmpty := by
  have hb1 := ReadBuffer.nonEmpty_advance b h 1 (by omega)
  obtain ⟨e1, e2, e3, e4⟩ := ReadBuffer.eof_nonEmpty _ hb1
  unfold parseComplexEscapeSequence readPODBinary
  simp only
  split
  · next b2 he =>
    rw [he] at e1 e2 e3
    simp only at e1 e2
    rw [e3 rfl] at e2 ⊢
    simp [escapeOnStream, e2, e1]
  · next b2 he =>
    rw [he] at e1 e2 e4
    simp only at e1 e2
    have hp2 : b2.pos < b2.size := e4 rfl
    have hb3 := ReadBuffer.nonEmpty_advance b2 e1 1 (by omega)
    rw [← e2, ReadBuffer.remaining_cons b2 hp2]
    split
    · next hx =>
      obtain ⟨s1, s2, s3⟩ := ReadBuffer.readStrict_two _ hb3 (fun _ => 0)
      split
      · next e b4 x hr =>
        rw [hr] at s1 s3
        simp only at s1 s3
        obtain ⟨-, hlen, hrem⟩ := s3 (by simp)
        refine ⟨?_, s1⟩
        have hmsg := (s3 (by simp)).1
        simp only [escapeOnStream, hx, if_true]
        rw [hrem]
        split
        · next h1 h2 rest2 heq =>
          rw [heq] at hlen
          simp only [List.length_cons] at hlen
          omega
        · rw [hmsg]
      · next b4 hex_code hr =>
        rw [hr] at s1 s2
        simp only at s1
        obtain ⟨h1, h2, rest, hrem, hrest, hh1, hh2⟩ := s2 rfl
        simp only at hrest hh1 hh2
        simp only [escapeOnStream, hx, if_true]
        rw [hrem, hh1, hh2]
        simp only
        split <;> simp_all
    · next hx =>
      split
      · next hN => simp [escapeOnStream, hx, hN, hb3]
      · next hN => simp [escapeOnStream, hx, hN, hb3]

theorem loop_refines (hlp : Helpers) (quote : Nat) (sql : Bool) (b : ReadBuffer)
    (s : List Nat) (h : b.ChunkedNonEmpty) :
    loopOnStream hlp quote sql s b.remaining =
      ((readAnyQuotedStringLoop hlp quote sql s b).1,
        (readAnyQuotedStringLoop hlp quote sql s b).2.1,
        (readAnyQuotedStringLoop hlp quote sql s b).2.2.remaining) ∧
    (readAnyQuotedStringLoop hlp quote sql s b).2.2.ChunkedNonEmpty := by
  induction b using ReadBuffer.loopMeasure_induction generalizing s with
  | step b ih =>
    obtain ⟨e1, e2, e3, e4⟩ := ReadBuffer.eof_nonEmpty b h
    rw [readAnyQuotedStringLoop_eq]
    by_cases he : b.eof.1 = true
    · rw [if_pos he, e3 he, loopOnStream_nil]
      rw [e3 he] at e2
      simp [e2, e1]
    · rw [if_neg he]
      have hef : b.eof.1 = false := by simpa using he
      have hep : b.eof = (false, b.eof.2) := by rw [← hef]
      have hp1 : b.eof.2.pos < b.eof.2.size := e4 hef
      obtain ⟨f1, f2, f3⟩ := find_first_symbols_bounds 92 quote b.eof.2.mem b.eof.2.pos b.eof.2.size
      obtain ⟨sc1, sc2⟩ := ReadBuffer.remaining_scan quote b.eof.2 (le_of_lt hp1)
      obtain ⟨fu1, fu2⟩ := loopMeasure_scan quote b b.eof.2 hep
      have hb2 := ReadBuffer.nonEmpty_setPos b.eof.2 e1 _ f1
      rw [← e2, sc1, loopOnStream_run hlp quote sql _ _ _ sc2]
      simp only []
      generalize hp : find_first_symbols 92 quote b.eof.2.mem b.eof.2.pos b.eof.2.size = p at *
      generalize hs1 : s ++ bytesBetween b.eof.2.mem b.eof.2.pos p = s1
      by_cases hpend : p < b.eof.2.size
      · have hpd : (ReadBuffer.hasPendingData { b.eof.2 with pos := p }) = true := by
          simp [ReadBuffer.hasPendingData, hpend]
        rw [if_neg (by simp [hpd])]
        rw [ReadBuffer.remaining_cons { b.eof.2 with pos := p } hpend]
        have hb3 := ReadBuffer.nonEmpty_advance { b.eof.2 with pos := p } hb2 1
          (by simp only; omega)
        have hfu3 : ({ b.eof.2 with pos := p + 1 } : ReadBuffer).loopMeasure < b.loopMeasure := by
          have : ({ b.eof.2 with pos := p + 1 } : ReadBuffer).loopMeasure <
              ({ b.eof.2 with pos := p } : ReadBuffer).loopMeasure := by
            simp only [ReadBuffer.loopMeasure]
            omega
          simp only [] at this ⊢
          omega
        simp only [] at hb3 hfu3 ⊢
        by_cases hq : b.eof.2.mem p = quote
        · rw [if_pos hq, hq]
          cases sql with
          | false =>
            rw [loopOnStream_quote_plain]
            simp [hb3]
          | true =>
            simp only [if_true]
            obtain ⟨g1, g2, g3, g4⟩ := ReadBuffer.eof_nonEmpty _ hb3
            have gfu := (ReadBuffer.loopMeasure_eof { b.eof.2 with pos := p + 1 }).1
            simp only [] at g1 g2 g3 g4 gfu
            by_cases he2 : ({ b.eof.2 with pos := p + 1 } : ReadBuffer).eof.1 = false
            · rw [if_pos he2]
              simp only [] at he2
              have hp4 := g4 he2
              rw [← g2, ReadBuffer.remaining_cons _ hp4]
              by_cases hq2 : ({ b.eof.2 with pos := p + 1 } : ReadBuffer).eof.2.mem
                  ({ b.eof.2 with pos := p + 1 } : ReadBuffer).eof.2.pos = quote
              · simp only [] at hq2
                rw [if_pos hq2, hq2, loopOnStream_quote_double]
                have hb5 := ReadBuffer.nonEmpty_advance _ g1 1 (by omega)
                have hfu5 := ReadBuffer.loopMeasure_advance
                  ({ b.eof.2 with pos := p + 1 } : ReadBuffer).eof.2 1
                simp only [] at hb5 hfu5
                exact ih _ (by omega) _ hb5
              · simp only [] at hq2
                rw [if_neg hq2, loopOnStream_quote_close hlp quote s1 _ _ hq2]
                rw [← ReadBuffer.remaining_cons _ hp4]
                exact ⟨rfl, g1⟩
            · rw [if_neg he2]
              have het : ({ b.eof.2 with pos := p + 1 } : ReadBuffer).eof.1 = true := by
                simpa using he2
              simp only [] at het
              rw [g3 het] at g2 ⊢
              rw [loopOnStream_quote_end]
              simp [g2, g1]
        · rw [if_neg hq]
          have hb92 : b.eof.2.mem p = 92 := by
            rcases f3 hpend with h92 | hqq
            · exact h92
            · exact absurd hqq hq
          rw [if_pos hb92, hb92]
          have hne : (92 : Nat) ≠ quote := by
            rw [← hb92]
            exact hq
          rw [loopOnStream_escape hlp quote sql s1 _ hne]
          obtain ⟨x1, x2⟩ := escape_refines hlp s1 { b.eof.2 with pos := p } hb2 hpend
          have xfu := loopMeasure_parseComplexEscapeSequence hlp s1 { b.eof.2 with pos := p } hpend
          simp only [] at x1 x2 xfu
          rw [x1]
          simp only
          by_cases hnone : (parseComplexEscapeSequence hlp s1 { b.eof.2 with pos := p }).1 = none
          all_goals simp only [] at hnone
          · rw [if_pos hnone, if_pos hnone]
            exact ih _ (by omega) _ x2
          · rw [if_neg hnone, if_neg hnone]
            exact ⟨rfl, x2⟩
      · have hpd : (ReadBuffer.hasPendingData { b.eof.2 with pos := p }) = false := by
          simp [ReadBuffer.hasPendingData, hpend]
        rw [if_pos hpd]
        exact ih _ (fu2 hpend) _ hb2

theorem parse_refines (hlp : Helpers) (quote : Nat) (sql : Bool) (b : ReadBuffer)
    (s : List Nat) (h : b.ChunkedNonEmpty) :
    parseOnStream hlp quote sql s b.remaining =
      ((readAnyQuotedStringInto hlp quote sql s b).1,
        (readAnyQuotedStringInto hlp quote sql s b).2.1,
        (readAnyQuotedStringInto hlp quote sql s b).2.2.remaining) ∧
    (readAnyQuotedStringInto hlp quote sql s b).2.2.ChunkedNonEmpty := by
  obtain ⟨e1, e2, e3, e4⟩ := ReadBuffer.eof_nonEmpty b h
  unfold readAnyQuotedStringInto
  split
  · next b1 he =>
    rw [he] at e1 e2 e3
    simp only at e1 e2
    rw [e3 rfl] at e2 ⊢
    simp [parseOnStream, e2, e1]
  · next b1 he =>
    rw [he] at e1 e2 e4
    simp only at e1 e2
    have hp : b1.pos < b1.size := e4 rfl
    rw [← e2, ReadBuffer.remaining_cons b1 hp]
    by_cases hq : b1.mem b1.pos = quote
    · have hb2 := ReadBuffer.nonEmpty_advance b1 e1 1 (by omega)
      obtain ⟨l1, l2⟩ := loop_refines hlp quote sql _ s hb2
      simp only [parseOnStream, hq, ne_eq, not_true_eq_false, if_false]
      exact ⟨l1, l2⟩
    · simp only [parseOnStream, hq, ne_eq, not_false_eq_true, if_true]
      rw [← ReadBuffer.remaining_cons b1 hp]
      exact ⟨rfl, e1⟩

theorem memOf_bytesBetween (l : List Nat) : bytesBetween (memOf l) 0 l.length = l := by
  apply List.ext_getElem
  · simp [bytesBetween]
  · intro i h1 h2
    simp [bytesBetween, memOf, List.getD_eq_getElem?_getD, List.getElem?_eq_getElem h2]

theorem singleChunk_remaining (l : List Nat) : (singleChunk l).remaining = l := by
  simp [ReadBuffer.remaining, ReadBuffer.pending, singleChunk, streamOf, memOf_bytesBetween]

theorem singleChunk_chunkedNonEmpty (l : List Nat) : (singleChunk l).ChunkedNonEmpty := by
  simp [ReadBuffer.ChunkedNonEmpty, singleChunk]

theorem loopOnStream_sqlDoubled (hlp : Helpers) (quote : Nat) (v : List Nat) :
    ∀ (s rest : List Nat), (∀ c ∈ v, c ≠ 92) → rest.head? ≠ some quote →
    loopOnStream hlp quote true s (sqlDoubled quote v ++ quote :: rest) = (none, s ++ v, rest) := by
  induction v with
  | nil =>
    intro s rest _ hrest
    cases rest with
    | nil => simp [sqlDoubled, loopOnStream_quote_end]
    | cons c rest =>
      have hc : c ≠ quote := by simpa using hrest
      simp [sqlDoubled, loopOnStream_quote_close hlp quote s c rest hc]
  | cons c cs ih =>
    intro s rest hv hrest
    have hcs := ih (s ++ [c]) rest (fun c' hc' => hv c' (List.mem_cons_of_mem _ hc')) hrest
    have hc92 : c ≠ 92 := hv c (List.mem_cons_self _ _)
    by_cases hq : c = quote
    · subst hq
      simp only [sqlDoubled, List.flatMap_cons, if_true, List.cons_append, List.nil_append]
      rw [loopOnStream_quote_double]
      simp only [sqlDoubled] at hcs
      rw [hcs]
      simp
    · simp only [sqlDoubled, List.flatMap_cons, hq, if_false, List.cons_append, List.nil_append]
      rw [loopOnStream_other hlp quote true s c _ hq hc92]
      simp only [sqlDoubled] at hcs
      rw [hcs]
      simp

theorem singleChunk_chunked (l : List Nat) : (singleChunk l).Chunked := by
  simp [ReadBuffer.Chunked, singleChunk]

theorem bytesOf_eq_take (f : Nat → Nat) (l : List Nat) (m : Nat) (hm : m ≤ l.length)
    (h : ∀ j, j < m → f j = l.getD j 0) : bytesOf f m = l.take m := by
  apply List.ext_getElem
  · simp [bytesOf, hm]
  · intro i h1 h2
    have hi : i < m := by simpa [bytesOf] using h1
    simp only [bytesOf, List.getElem_map, List.getElem_range, List.getElem_take]
    rw [h i hi, List.getD_eq_getElem?_getD, List.getElem?_eq_getElem (by omega)]
    rfl

/-- Claim C6: for a cursor over a source that delivers the stream `B = b.remaining` in any
sequence of chunks, `read(to, n)` returns `min n |B|`, leaves the first `min n |B|` bytes of
`B` in `to[0 ..]` in stream order and the rest of `to` untouched, leaves the cursor with
remaining stream `B` without that prefix, and count, destination memory and remaining stream
are those obtained from the single-chunk source holding `B`. The model of `read` has no
failure outcome. -/
theorem read_chunk_transparent (b : ReadBuffer) (h : b.Chunked) (to_ : Nat → Nat) (n : Nat) :
    (b.read to_ n).1 = min n b.remaining.length ∧
    bytesOf (b.read to_ n).2.2 (min n b.remaining.length) =
      b.remaining.take (min n b.remaining.length) ∧
    (∀ j, min n b.remaining.length ≤ j → (b.read to_ n).2.2 j = to_ j) ∧
    (b.read to_ n).2.1.remaining = b.remaining.drop (min n b.remaining.length) ∧
    (b.read to_ n).1 = ((singleChunk b.remaining).read to_ n).1 ∧
    (b.read to_ n).2.2 = ((singleChunk b.remaining).read to_ n).2.2 ∧
    (b.read to_ n).2.1.remaining = ((singleChunk b.remaining).read to_ n).2.1.remaining := by
  obtain ⟨r1, r2, -, r4⟩ := ReadBuffer.readLoop_spec b to_ n 0 h (by omega)
  obtain ⟨q1, q2, -, q4⟩ := ReadBuffer.readLoop_spec (singleChunk b.remaining) to_ n 0
    (singleChunk_chunked _) (by omega)
  rw [singleChunk_remaining] at q1 q2 q4
  simp only [Nat.sub_zero, Nat.zero_add, Nat.zero_le, true_and] at r1 r2 r4 q1 q2 q4
  unfold ReadBuffer.read
  refine ⟨r1, ?_, ?_, r2, by rw [r1, q1], ?_, by rw [r2, q2]⟩
  · apply bytesOf_eq_take _ _ _ (Nat.min_le_right _ _)
    intro j hj
    rw [r4 j, if_pos hj]
  · intro j hj
    rw [r4 j, if_neg (by omega)]
  · funext j
    rw [r4 j, q4 j]

theorem read_chunk_transparent_witness :
    threeChunks.Chunked ∧ threeChunks.remaining = [2, 3, 4, 5, 6, 7] ∧
    (threeChunks.read (fun _ => 0) 4).1 = min 4 threeChunks.remaining.length ∧
    bytesOf (threeChunks.read (fun _ => 0) 4).2.2 (min 4 threeChunks.remaining.length) =
      threeChunks.remaining.take (min 4 threeChunks.remaining.length) :=
  ⟨by decide, by decide,
    (read_chunk_transparent threeChunks (by decide) (fun _ => 0) 4).1,
    (read_chunk_transparent threeChunks (by decide) (fun _ => 0) 4).2.1⟩

/-- Claim C8: for a stream with `k = |b.remaining|` bytes left and every `n`, `tryIgnore(n)`
returns `min n k` and leaves the stream without its first `min n k` bytes; when `k < n` it
returns `k` and leaves the cursor at end of stream, with no pending data and the source
exhausted. The model of `tryIgnore` has no failure outcome. -/
theorem tryIgnore_min (b : ReadBuffer) (h : b.Chunked) (n : Nat) :
    (b.tryIgnore n).1 = min n b.remaining.length ∧
    (b.tryIgnore n).2.remaining = b.remaining.drop (min n b.remaining.length) ∧
    (b.remaining.length < n →
      (b.tryIgnore n).1 = b.remaining.length ∧ (b.tryIgnore n).2.remaining = [] ∧
      (b.tryIgnore n).2.hasPendingData = false ∧ (b.tryIgnore n).2.source = []) := by
  obtain ⟨r1, r2, -, r4⟩ := ReadBuffer.tryIgnoreLoop_spec b n 0 h (by omega)
  simp only [Nat.sub_zero, Nat.zero_add] at r1 r2 r4
  unfold ReadBuffer.tryIgnore
  refine ⟨r1, r2, fun hlt => ?_⟩
  obtain ⟨s1, s2⟩ := r4 hlt
  refine ⟨by rw [r1]; omega, ?_, ?_, s1⟩
  · rw [r2, Nat.min_eq_right (by omega)]
    simp
  · simp [ReadBuffer.hasPendingData, s2]

theorem tryIgnore_min_witness :
    threeChunks.Chunked ∧ threeChunks.remaining.length = 6 ∧
    (threeChunks.tryIgnore 9).1 = min 9 threeChunks.remaining.length ∧
    (threeChunks.remaining.length < 9 →
      (threeChunks.tryIgnore 9).1 = threeChunks.remaining.length ∧
      (threeChunks.tryIgnore 9).2.remaining = [] ∧
      (threeChunks.tryIgnore 9).2.hasPendingData = false ∧
      (threeChunks.tryIgnore 9).2.source = []) :=
  ⟨by decide, by decide, (tryIgnore_min threeChunks (by decide) 9).1,
    (tryIgnore_min threeChunks (by decide) 9).2.2⟩

/-- Claim C9: for a stream with `k = |b.remaining|` bytes left and every `n`, `ignore(n)`
throws the exception "Attempt to read after EOF" exactly when `k < n`, and succeeds exactly
when `n ≤ k` (so also for `n = k` and for `n = 0`), leaving the stream without its first `n`
bytes, across any number of chunks. -/
theorem ignoreN_fails_iff (b : ReadBuffer) (h : b.Chunked) (n : Nat) :
    ((b.ignoreN n).1 = some "Attempt to read after EOF" ↔ b.remaining.length < n) ∧
    ((b.ignoreN n).1 = none ↔ n ≤ b.remaining.length) ∧
    (n ≤ b.remaining.length → (b.ignoreN n).2.remaining = b.remaining.drop n) := by
  obtain ⟨r1, r2, -⟩ := ReadBuffer.ignoreLoop_spec b n h
  have herr : (b.ignoreN n).1 =
      if (b.ignoreLoop n).1 ≠ 0 then some "Attempt to read after EOF" else none := by
    unfold ReadBuffer.ignoreN
    simp only
    split <;> rfl
  have hbuf : (b.ignoreN n).2 = (b.ignoreLoop n).2 := by
    unfold ReadBuffer.ignoreN
    simp only
    split <;> rfl
  rw [herr, hbuf, r1]
  by_cases hlt : b.remaining.length < n
  · have hne : n - min n b.remaining.length ≠ 0 := by
      rw [Nat.min_eq_right (by omega)]
      omega
    rw [if_pos hne]
    simp only [true_iff, hlt]
    exact ⟨trivial, ⟨fun hc => by simp at hc, fun hc => by omega⟩, fun hc => by omega⟩
  · have heq : n - min n b.remaining.length = 0 := by
      rw [Nat.min_eq_left (by omega)]
      omega
    rw [if_neg (by simp [heq])]
    refine ⟨⟨fun hc => by simp at hc, fun hc => absurd hc hlt⟩, ⟨fun _ => by omega, fun _ => rfl⟩,
      fun _ => ?_⟩
    rw [r2, Nat.min_eq_left (by omega)]

theorem ignoreN_fails_iff_witness :
    threeChunks.Chunked ∧ threeChunks.remaining = [2, 3, 4, 5, 6, 7] ∧
    ((threeChunks.ignoreN 6).1 = none ↔ 6 ≤ threeChunks.remaining.length) ∧
    ((threeChunks.ignoreN 7).1 = some "Attempt to read after EOF" ↔
      threeChunks.remaining.length < 7) :=
  ⟨by decide, by decide, (ignoreN_fails_iff threeChunks (by decide) 6).2.1,
    (ignoreN_fails_iff threeChunks (by decide) 7).1⟩

/-- Claim C7: for two cursors whose sources cut the same byte stream into (non-empty) chunks
in two different ways, `readAnyQuotedStringInto`, for any quote character and either dialect,
gives the same outcome: the same exception or none, the same bytes in the output, the same
remaining stream and hence the same number of bytes consumed. -/
theorem readAnyQuotedStringInto_chunking (hlp : Helpers) (quote : Nat) (sql : Bool)
    (s : List Nat) (b1 b2 : ReadBuffer) (h1 : b1.ChunkedNonEmpty) (h2 : b2.ChunkedNonEmpty)
    (hB : b1.remaining = b2.remaining) :
    (readAnyQuotedStringInto hlp quote sql s b1).1 =
      (readAnyQuotedStringInto hlp quote sql s b2).1 ∧
    (readAnyQuotedStringInto hlp quote sql s b1).2.1 =
      (readAnyQuotedStringInto hlp quote sql s b2).2.1 ∧
    (readAnyQuotedStringInto hlp quote sql s b1).2.2.remaining =
      (readAnyQuotedStringInto hlp quote sql s b2).2.2.remaining ∧
    b1.remaining.length - (readAnyQuotedStringInto hlp quote sql s b1).2.2.remaining.length =
      b2.remaining.length - (readAnyQuotedStringInto hlp quote sql s b2).2.2.remaining.length := by
  obtain ⟨p1, -⟩ := parse_refines hlp quote sql b1 s h1
  obtain ⟨p2, -⟩ := parse_refines hlp quote sql b2 s h2
  rw [hB, p2] at p1
  have e1 := congrArg Prod.fst p1
  have e2 := congrArg (fun x => x.2.1) p1
  have e3 := congrArg (fun x => x.2.2) p1
  simp only at e1 e2 e3
  exact ⟨e1.symm, e2.symm, e3.symm, by rw [hB, e3]⟩

theorem readAnyQuotedStringInto_chunking_witness :
    doubledQuoteChunks.ChunkedNonEmpty ∧
    doubledQuoteChunks.remaining = [39, 105, 116, 39, 39, 115, 39] ∧
    (readAnyQuotedStringInto plainHelpers 39 true [] doubledQuoteChunks).2.1 =
      (readAnyQuotedStringInto plainHelpers 39 true []
        (singleChunk [39, 105, 116, 39, 39, 115, 39])).2.1 :=
  ⟨by decide, by decide,
    (readAnyQuotedStringInto_chunking plainHelpers 39 true [] doubledQuoteChunks
      (singleChunk [39, 105, 116, 39, 39, 115, 39]) (by decide)
      (singleChunk_chunkedNonEmpty _) (by decide)).2.1⟩

/-- Claim C10: with SQL-style doubling enabled, for every quote character `q` and every byte
string `v` without a backslash, parsing the stream `q`, `v` with each `q` written twice, `q`
(followed by nothing, or by bytes that do not start with `q`), however it is cut into
chunks, succeeds, appends exactly `v` to the output and consumes exactly the literal. -/
theorem readAnyQuotedStringInto_sql_doubling (hlp : Helpers) (quote : Nat)
    (v rest s : List Nat) (b : ReadBuffer) (hb : b.ChunkedNonEmpty)
    (hv : ∀ c ∈ v, c ≠ 92) (hrest : rest.head? ≠ some quote)
    (hrem : b.remaining = quote :: (sqlDoubled quote v ++ quote :: rest)) :
    (readAnyQuotedStringInto hlp quote true s b).1 = none ∧
    (readAnyQuotedStringInto hlp quote true s b).2.1 = s ++ v ∧
    (readAnyQuotedStringInto hlp quote true s b).2.2.remaining = rest := by
  obtain ⟨p1, -⟩ := parse_refines hlp quote true b s hb
  rw [hrem] at p1
  simp only [parseOnStream, ne_eq, not_true_eq_false, if_false] at p1
  rw [loopOnStream_sqlDoubled hlp quote v s rest hv hrest] at p1
  have e1 := congrArg Prod.fst p1
  have e2 := congrArg (fun x => x.2.1) p1
  have e3 := congrArg (fun x => x.2.2) p1
  simp only at e1 e2 e3
  exact ⟨e1.symm, e2.symm, e3.symm⟩

theorem readAnyQuotedStringInto_sql_doubling_witness :
    doubledQuoteChunks.ChunkedNonEmpty ∧
    doubledQuoteChunks.remaining = 39 :: (sqlDoubled 39 [105, 116, 39, 115] ++ 39 :: []) ∧
    (readAnyQuotedStringInto plainHelpers 39 true [] doubledQuoteChunks).1 = none ∧
    (readAnyQuotedStringInto plainHelpers 39 true [] doubledQuoteChunks).2.1 =
      [] ++ [105, 116, 39, 115] :=
  ⟨by decide, by decide,
    (readAnyQuotedStringInto_sql_doubling plainHelpers 39 [105, 116, 39, 115] [] []
      doubledQuoteChunks (by decide) (by decide) (by decide) (by decide)).1,
    (readAnyQuotedStringInto_sql_doubling plainHelpers 39 [105, 116, 39, 115] [] []
      doubledQuoteChunks (by decide) (by decide) (by decide) (by decide)).2.1⟩

/-! ## The direct path of the encoder -/

theorem writeUIntTextLoopTraced_state (x : Nat) : ∀ (next : Nat) (dst : Nat → Nat)
    (w : List Nat),
    ((writeUIntTextLoopTraced x next dst w).1, (writeUIntTextLoopTraced x next dst w).2.1,
      (writeUIntTextLoopTraced x next dst w).2.2.1) = writeUIntTextLoop x next dst := by
  induction x using Nat.strong_induction_on with
  | _ x ih =>
    intro next dst w
    rw [writeUIntTextLoopTraced, writeUIntTextLoop]
    by_cases hx : 100 ≤ x
    · simp only [hx, if_true]
      exact ih (x / 100) (by omega) _ _ _
    · simp only [hx, if_false]

theorem writeUIntTextTraced_eq (x : Nat) (dst : Nat → Nat) :
    ((writeUIntTextTraced x dst).1, (writeUIntTextTraced x dst).2.1) = writeUIntText x dst := by
  have h := writeUIntTextLoopTraced_state x (sub32 (digits10 x) 1) dst []
  have h1 := congrArg Prod.fst h
  have h2 := congrArg (fun p => p.2.1) h
  have h3 := congrArg (fun p => p.2.2) h
  simp only at h1 h2 h3
  unfold writeUIntTextTraced writeUIntText
  simp only [h1, h2, h3]
  split <;> rfl

theorem writeUIntTextTraced_written (x : Nat) (dst : Nat → Nat) :
    (writeUIntTextTraced x dst).2.2 =
      writtenAfter (writeUIntTextLoopTraced x (sub32 (digits10 x) 1) dst []) := by
  unfold writeUIntTextTraced writtenAfter
  simp only
  split <;> rfl

theorem reverse_range_succ (n : Nat) :
    (List.range (n + 1)).reverse = n :: (List.range n).reverse := by
  rw [List.range_succ, List.reverse_append]
  rfl

theorem writtenAfter_loop (x : Nat) : ∀ (next : Nat) (dst : Nat → Nat) (w : List Nat),
    x < 10 ^ (next + 1) → (next = 0 ∨ 10 ^ next ≤ x) → next < 4294967296 →
    writtenAfter (writeUIntTextLoopTraced x next dst w) = w ++ (List.range (next + 1)).reverse := by
  induction x using Nat.strong_induction_on with
  | _ x ih =>
    intro next dst w hlt hge h32
    rw [writeUIntTextLoopTraced]
    by_cases hx : 100 ≤ x
    · have h2 : 2 ≤ next := pow_gt_of_ge_hundred x next hx hlt
      obtain ⟨m, rfl⟩ : ∃ m, next = m + 2 := ⟨next - 2, by omega⟩
      have e1 : sub32 (m + 2) 1 = m + 1 := by unfold sub32; omega
      have e2 : sub32 (m + 2) 2 = m := by unfold sub32; omega
      have hp : 10 ^ (m + 2 + 1) = 10 ^ (m + 1) * 100 := by ring
      have hp2 : 10 ^ (m + 2) = 10 ^ m * 100 := by ring
      have hlt' : x / 100 < 10 ^ (m + 1) := by
        rw [Nat.div_lt_iff_lt_mul (by norm_num)]
        omega
      have hge' : m = 0 ∨ 10 ^ m ≤ x / 100 := by
        right
        rw [Nat.le_div_iff_mul_le (by norm_num)]
        rcases hge with h | h
        · omega
        · omega
      simp only [hx, if_true, e1, e2]
      rw [ih (x / 100) (by omega) m _ _ hlt' hge' (by omega)]
      rw [reverse_range_succ (m + 2), reverse_range_succ (m + 1)]
      simp
    · simp only [hx, if_false]
      unfold writtenAfter
      simp only
      by_cases h10 : x < 10
      · have hn : next = 0 := by
          rcases hge with h | h
          · exact h
          · by_contra hc
            have : 10 ^ 1 ≤ 10 ^ next := Nat.pow_le_pow_right (by norm_num) (by omega)
            omega
        subst hn
        simp only [h10, if_true]
        rfl
      · have hn : next = 1 := by
          rcases hge with h | h
          · subst h
            norm_num at hlt
            omega
          · by_contra hc
            have hn0 : next ≠ 0 := by
              rintro rfl
              norm_num at hlt
              omega
            have : 10 ^ 2 ≤ 10 ^ next := Nat.pow_le_pow_right (by norm_num) (by omega)
            omega
        subst hn
        have e1 : sub32 1 1 = 0 := by unfold sub32; omega
        simp only [h10, if_false, e1]
        rfl

/-- Claim C19: the direct path of `writeUIntText(x, buf)` never writes outside the current
chunk. For every `x < 2^64` the traced encoder computes what `writeUIntText(x, dst)` computes,
its stores go to the indexes `digits10 x - 1, …, 1, 0` in that order (the 32-bit index `next`
never wraps below 0), all of them in `[0, digits10 x)`, `digits10 x ≤ 20`, and for every
buffer passing the guard `position + 20 < end` every address written lies in
`[position, end)` and the position after the call is `position + digits10 x ≤ end`. -/
theorem writeUIntText_direct_in_bounds (x : Nat) (hx : x < 2 ^ 64) (dst : Nat → Nat) :
    ((writeUIntTextTraced x dst).1, (writeUIntTextTraced x dst).2.1) = writeUIntText x dst ∧
    (writeUIntTextTraced x dst).2.2 = (List.range (digits10 x)).reverse ∧
    (∀ k ∈ (writeUIntTextTraced x dst).2.2, k < digits10 x) ∧
    digits10 x ≤ 20 ∧
    (∀ (tmp : Int → Nat) (buf : WriteBuffer),
      buf.pos + WRITE_HELPERS_MAX_INT_WIDTH < buf.size →
      (∀ k ∈ (writeUIntTextTraced x (fun j => buf.mem (buf.pos + j))).2.2,
        buf.pos ≤ buf.pos + k ∧ buf.pos + k < buf.size) ∧
      (writeUIntTextBuf tmp x buf).pos = buf.pos + digits10 x ∧
      (writeUIntTextBuf tmp x buf).pos ≤ (writeUIntTextBuf tmp x buf).size) := by
  obtain ⟨d, hd, hd20, hlt, hge⟩ := digits10_decades x hx
  have hw : ∀ dst', (writeUIntTextTraced x dst').2.2 = (List.range (digits10 x)).reverse := by
    intro dst'
    have e1 : sub32 (d + 1) 1 = d := by unfold sub32; omega
    rw [writeUIntTextTraced_written, hd, e1, writtenAfter_loop x d dst' [] hlt hge (by omega)]
    simp
  have hmem : ∀ dst', ∀ k ∈ (writeUIntTextTraced x dst').2.2, k < digits10 x := by
    intro dst' k hk
    rw [hw dst'] at hk
    simpa using hk
  refine ⟨writeUIntTextTraced_eq x dst, hw dst, hmem dst, by omega, ?_⟩
  intro tmp buf hg
  have hlen := (writeUIntText_bytes x hx (fun j => buf.mem (buf.pos + j))).1
  have hpos : (writeUIntTextBuf tmp x buf).pos = buf.pos + digits10 x := by
    unfold writeUIntTextBuf
    rw [if_pos hg]
    simp only [hlen]
  have hsize : (writeUIntTextBuf tmp x buf).size = buf.size := by
    unfold writeUIntTextBuf
    rw [if_pos hg]
  refine ⟨fun k hk => ?_, hpos, ?_⟩
  · have := hmem _ k hk
    simp only [WRITE_HELPERS_MAX_INT_WIDTH] at hg
    omega
  · rw [hpos, hsize]
    simp only [WRITE_HELPERS_MAX_INT_WIDTH] at hg
    omega

theorem writeUIntText_direct_in_bounds_witness :
    (1234 : Nat) < 2 ^ 64 ∧
    (writeUIntTextTraced 1234 (fun _ => 0)).2.2 = (List.range (digits10 1234)).reverse ∧
    digits10 1234 ≤ 20 :=
  ⟨by norm_num, (writeUIntText_direct_in_bounds 1234 (by norm_num) (fun _ => 0)).2.1,
    (writeUIntText_direct_in_bounds 1234 (by norm_num) (fun _ => 0)).2.2.2.1⟩

/-- Claim C17, as amended: `writeUIntText(x, buf)` takes the direct path (encode at the
current position with `writeUIntText(x, dst)` and advance the position by the returned count)
exactly when the current chunk has more than 20 bytes of remaining capacity
(`end - position > 20`), and the fallback path exactly when it has 20 or fewer. -/
theorem writeUIntTextBuf_path (tmp : Int → Nat) (x : Nat) (buf : WriteBuffer) :
    (writeUIntTextDirect buf = true ↔ 20 < buf.size - buf.pos) ∧
    (writeUIntTextDirect buf = false ↔ buf.size - buf.pos ≤ 20) ∧
    (writeUIntTextDirect buf = true →
      writeUIntTextBuf tmp x buf =
        { buf with
          mem := fun k => if k < buf.pos then buf.mem k
            else (writeUIntText x (fun j => buf.mem (buf.pos + j))).2 (k - buf.pos),
          pos := buf.pos + (writeUIntText x (fun j => buf.mem (buf.pos + j))).1 }) ∧
    (writeUIntTextDirect buf = false →
      writeUIntTextBuf tmp x buf = writeUIntTextFallback tmp x buf) := by
  unfold writeUIntTextDirect writeUIntTextBuf
  simp only [WRITE_HELPERS_MAX_INT_WIDTH, decide_eq_true_eq, decide_eq_false_iff_not]
  refine ⟨by omega, by omega, fun h => ?_, fun h => ?_⟩
  · rw [if_pos h]
  · rw [if_neg h]

theorem writeUIntTextBuf_path_witness :
    (writeUIntTextDirect thirtyFree = true ↔ 20 < thirtyFree.size - thirtyFree.pos) ∧
    (writeUIntTextDirect twentyFree = false ↔ twentyFree.size - twentyFree.pos ≤ 20) :=
  ⟨(writeUIntTextBuf_path (fun _ => 0) 1234 thirtyFree).1,
    (writeUIntTextBuf_path (fun _ => 0) 1234 twentyFree).2.1⟩

/-- Claim C17 as stated fails: a chunk with exactly 20 bytes of remaining capacity
(`end - position = 20 ≥ 20`) does not pass the guard `position + 20 < end`, and the fallback
path is taken for every `x`. -/
theorem writeUIntTextBuf_path_counterexample :
    twentyFree.pos ≤ twentyFree.size ∧ twentyFree.size - twentyFree.pos ≥ 20 ∧
    writeUIntTextDirect twentyFree = false ∧
    ∀ (tmp : Int → Nat) (x : Nat),
      writeUIntTextBuf tmp x twentyFree = writeUIntTextFallback tmp x twentyFree := by
  refine ⟨by decide, by decide, by decide, fun tmp x => ?_⟩
  unfold writeUIntTextBuf
  rw [if_neg (by decide)]

namespace ReadBuffer

/-- Claim C15: after `next()`, whatever the refill returns, the position is the beginning of
the visible region plus the pending offset `working_buffer_offset` that the refill left, and
the pending offset is 0; `next()` returns what the refill returned, and when that is false the
visible region is empty. -/
theorem next_position (b : ReadBuffer) :
    b.next.1 = ({ b with bytes := b.bytes + b.pos } : ReadBuffer).nextImpl.1 ∧
    b.next.2.pos =
      ({ b with bytes := b.bytes + b.pos } : ReadBuffer).nextImpl.2.working_buffer_offset ∧
    b.next.2.working_buffer_offset = 0 ∧
    (b.next.1 = false → b.next.2.size = 0 ∧ b.next.2.hasPendingData = false) ∧
    (∀ r rs, b.source = r :: rs →
      b.next.1 = r.res ∧ b.next.2.pos = r.offset ∧ b.next.2.mem = r.mem ∧
      b.next.2.size = (if r.res = true then r.size else 0) ∧ b.next.2.source = rs) ∧
    (b.source = [] → b.next.1 = false ∧ b.next.2.pos = b.working_buffer_offset ∧
      b.next.2.size = 0) := by
  unfold next nextImpl
  cases hs : b.source with
  | nil => simp [hasPendingData]
  | cons r rs =>
    cases hr : r.res <;> simp [hr, hasPendingData]

theorem next_position_witness :
    threeChunks.next.2.pos = 0 ∧ threeChunks.next.2.working_buffer_offset = 0 :=
  ⟨((next_position threeChunks).2.2.2.2.1 _ _ rfl).2.1, (next_position threeChunks).2.2.1⟩

/-- Claim C18, as amended: when every refill of the source that reports success leaves a
pending offset smaller than the size of the region it exposes, a false `eof()` leaves a
readable byte pending (`position < end`). -/
theorem eof_false_pending (b : ReadBuffer)
    (h : ∀ r ∈ b.source, r.res = true → r.offset < r.size) (he : b.eof.1 = false) :
    b.eof.2.pos < b.eof.2.size ∧ b.eof.2.hasPendingData = true := by
  have key : b.eof.2.pos < b.eof.2.size := by
    unfold eof at he ⊢
    by_cases hp : b.pos < b.size
    · simp only [hasPendingData, hp, decide_True, if_true]
    · simp only [hasPendingData, hp, decide_False, Bool.false_eq_true, if_false] at he ⊢
      unfold next nextImpl at he ⊢
      cases hs : b.source with
      | nil => simp [hs] at he
      | cons r rs =>
        have hr := h r (by rw [hs]; exact List.mem_cons_self _ _)
        simp only [hs] at he ⊢
        cases hres : r.res
        · simp [hres] at he
        · simp [hres]
          exact hr hres
  exact ⟨key, by simp [hasPendingData, key]⟩

theorem eof_false_pending_witness :
    (∀ r ∈ threeChunks.source, r.res = true → r.offset < r.size) ∧
    threeChunks.eof.1 = false ∧ threeChunks.eof.2.pos < threeChunks.eof.2.size :=
  ⟨by decide, by decide, (eof_false_pending threeChunks (by decide) (by decide)).1⟩

/-- Claim C18 as stated fails: after a refill that reports success with an empty region, and
after one that reports success with a pending offset equal to the size of its region, `eof()`
returns false and no byte is pending (`position = end`). -/
theorem eof_false_counterexample :
    (emptyRefillBuffer.eof.1 = false ∧
      ¬ emptyRefillBuffer.eof.2.pos < emptyRefillBuffer.eof.2.size) ∧
    (offsetAtEndBuffer.eof.1 = false ∧
      ¬ offsetAtEndBuffer.eof.2.pos < offsetAtEndBuffer.eof.2.size) := by
  decide

end ReadBuffer

/-! ## The running total of a read cursor -/

namespace ReadBuffer

theorem extent_eof (b : ReadBuffer) (h : b.Chunked) : b.eof.2.extent = b.extent := by
  obtain ⟨h1, h2, h3⟩ := h
  unfold eof
  by_cases hp : b.pos < b.size
  · simp [hasPendingData, hp]
  · simp only [hasPendingData, hp, decide_False, Bool.false_eq_true, if_false]
    unfold next nextImpl extent
    cases hs : b.source with
    | nil =>
      simp [regionSizes]
      omega
    | cons r rs =>
      have hr := (h3 r (by rw [hs]; exact List.mem_cons_self _ _)).1
      simp [hr, regionSizes]
      omega

theorem extent_advance (b : ReadBuffer) (k : Nat) :
    ({ b with pos := b.pos + k } : ReadBuffer).extent = b.extent := rfl

theorem extent_tryIgnoreLoop (b : ReadBuffer) (n i : Nat) (h : b.Chunked) :
    (b.tryIgnoreLoop n i).2.extent = b.extent := by
  induction b using loopMeasure_induction generalizing i with
  | step b ih =>
    obtain ⟨hc1, -, -⟩ := eof_chunked b h
    rw [tryIgnoreLoop_eq]
    split
    · next hn =>
      split
      · next he =>
        obtain ⟨ha1, -, -⟩ := min_available b.eof.2 hc1 (n - i)
        rw [ih _ (loopMeasure_step' b (n - i) (by omega) he) _ (chunked_advance _ hc1 _ ha1)]
        exact extent_eof b h
      · exact extent_eof b h
    · rfl

theorem extent_ignoreLoop (b : ReadBuffer) (n : Nat) (h : b.Chunked) :
    (b.ignoreLoop n).2.extent = b.extent := by
  induction b using loopMeasure_induction generalizing n with
  | step b ih =>
    obtain ⟨hc1, -, -⟩ := eof_chunked b h
    rw [ignoreLoop_eq]
    split
    · next hn =>
      split
      · next he =>
        obtain ⟨ha1, -, -⟩ := min_available b.eof.2 hc1 n
        rw [ih _ (loopMeasure_step' b n hn he) _ (chunked_advance _ hc1 _ ha1)]
        exact extent_eof b h
      · exact extent_eof b h
    · rfl

theorem extent_readLoop (b : ReadBuffer) (to_ : Nat → Nat) (n i : Nat) (h : b.Chunked) :
    (b.readLoop to_ n i).2.1.extent = b.extent := by
  induction b using loopMeasure_induction generalizing i to_ with
  | step b ih =>
    obtain ⟨hc1, -, -⟩ := eof_chunked b h
    rw [readLoop_eq]
    split
    · next hn =>
      split
      · next he =>
        obtain ⟨ha1, -, -⟩ := min_available b.eof.2 hc1 (n - i)
        rw [ih _ (loopMeasure_step' b (n - i) (by omega) he) _ _ (chunked_advance _ hc1 _ ha1)]
        exact extent_eof b h
      · exact extent_eof b h
    · rfl

theorem streamOf_length (l : List Refill) (h : ∀ r ∈ l, r.offset ≤ r.size) :
    (streamOf l).length + pendingOffsets l = regionSizes l := by
  induction l with
  | nil => rfl
  | cons r rs ih =>
    have hr := h r (List.mem_cons_self _ _)
    have := ih (fun r' hr' => h r' (List.mem_cons_of_mem _ hr'))
    simp only [streamOf, pendingOffsets, regionSizes, List.length_append, List.map_cons,
      List.sum_cons, Refill.visible, bytesBetween_length] at this ⊢
    omega

/-- The accounting identity behind `extent`: for a chunked source it is the count, plus the
bytes still to be consumed, plus the pending offsets still to be skipped. -/
theorem extent_eq (b : ReadBuffer) (h : b.Chunked) :
    b.count + b.remaining.length + pendingOffsets b.source = b.extent := by
  have hl := streamOf_length b.source (fun r hr => (h.2.2 r hr).2)
  have hp := h.1
  simp only [count, extent, remaining, List.length_append, pending_length]
  omega

end ReadBuffer

namespace ReadBuffer

theorem pendingOffsets_eof (b : ReadBuffer) :
    pendingOffsets b.eof.2.source ≤ pendingOffsets b.source := by
  unfold eof
  split
  · exact le_refl _
  · unfold next nextImpl
    cases hs : b.source with
    | nil => simp [hs]
    | cons r rs =>
      cases hres : r.res <;> simp [hres, pendingOffsets]

theorem pendingOffsets_tryIgnoreLoop (b : ReadBuffer) (n i : Nat) :
    pendingOffsets (b.tryIgnoreLoop n i).2.source ≤ pendingOffsets b.source := by
  induction b using loopMeasure_induction generalizing i with
  | step b ih =>
    rw [tryIgnoreLoop_eq]
    split
    · next hn =>
      split
      · next he =>
        exact le_trans (ih _ (loopMeasure_step' b (n - i) (by omega) he) _)
          (pendingOffsets_eof b)
      · exact pendingOffsets_eof b
    · exact le_refl _

theorem pendingOffsets_ignoreLoop (b : ReadBuffer) (n : Nat) :
    pendingOffsets (b.ignoreLoop n).2.source ≤ pendingOffsets b.source := by
  induction b using loopMeasure_induction generalizing n with
  | step b ih =>
    rw [ignoreLoop_eq]
    split
    · next hn =>
      split
      · next he =>
        exact le_trans (ih _ (loopMeasure_step' b n hn he) _) (pendingOffsets_eof b)
      · exact pendingOffsets_eof b
    · exact le_refl _

theorem pendingOffsets_readLoop (b : ReadBuffer) (to_ : Nat → Nat) (n i : Nat) :
    pendingOffsets (b.readLoop to_ n i).2.1.source ≤ pendingOffsets b.source := by
  induction b using loopMeasure_induction generalizing i to_ with
  | step b ih =>
    rw [readLoop_eq]
    split
    · next hn =>
      split
      · next he =>
        exact le_trans (ih _ (loopMeasure_step' b (n - i) (by omega) he) _ _)
          (pendingOffsets_eof b)
      · exact pendingOffsets_eof b
    · exact le_refl _

theorem ignoreN_buffer (b : ReadBuffer) (n : Nat) : (b.ignoreN n).2 = (b.ignoreLoop n).2 := by
  unfold ignoreN
  simp only
  split <;> rfl

theorem readStrict_buffer (b : ReadBuffer) (to_ : Nat → Nat) (n : Nat) :
    (b.readStrict to_ n).2 = (b.readLoop to_ n 0).2 := by
  unfold readStrict read
  simp only
  split <;> rfl

/-- Within the current region: a request that the pending bytes satisfy takes no refill. -/
theorem within_region (b : ReadBuffer) (n : Nat) (hn : n ≤ b.size - b.pos) :
    (b.tryIgnore n).2 = { b with pos := b.pos + n } ∧
    (b.ignoreN n).2 = { b with pos := b.pos + n } ∧
    ∀ to_, (b.read to_ n).2.1 = { b with pos := b.pos + n } := by
  by_cases h0 : n = 0
  · subst h0
    refine ⟨?_, ?_, fun to_ => ?_⟩
    · unfold tryIgnore
      rw [tryIgnoreLoop_eq]
      simp
    · rw [ignoreN_buffer, ignoreLoop_eq]
      simp
    · unfold read
      rw [readLoop_eq]
      simp
  · have hp : b.pos < b.size := by omega
    have he : b.eof = (false, b) := by
      unfold eof
      simp [hasPendingData, hp]
    have ha : min b.available n = n := by
      rw [available_eq b (le_of_lt hp)]
      exact Nat.min_eq_right hn
    refine ⟨?_, ?_, fun to_ => ?_⟩
    · unfold tryIgnore
      rw [tryIgnoreLoop_eq]
      simp only [he, Nat.sub_zero, Nat.zero_add, ha, show 0 < n by omega, if_true]
      rw [tryIgnoreLoop_eq]
      simp
    · rw [ignoreN_buffer, ignoreLoop_eq]
      simp only [he, ha, h0, ne_eq, not_false_eq_true, if_true, Nat.sub_self]
      rw [ignoreLoop_eq]
      simp
    · unfold read
      rw [readLoop_eq]
      simp only [he, Nat.sub_zero, Nat.zero_add, ha, show 0 < n by omega, if_true]
      rw [readLoop_eq]
      simp

/-- Claim C16, as amended: `next()` adds `position - begin` to `bytes`, which counts the
pending offset that the previous refill skipped together with the bytes the caller consumed.
For a source that delivers chunks, each of `eof`, `tryIgnore`, `ignore(n)`, `read` and
`readStrict` keeps the sum of `bytes + (position - begin)`, the length of the remaining stream
and the pending offsets of the refills to come; when no refill to come leaves a pending offset,
`bytes + (position - begin)` grows by exactly the number of bytes consumed; and an operation
that the pending bytes satisfy, like an `eof()` with bytes pending, leaves `bytes` unchanged. -/
theorem bytes_accounting (b : ReadBuffer) (h : b.Chunked) :
    b.next.2.bytes = b.bytes + b.pos ∧
    (b.eof.2.count + b.eof.2.remaining.length + pendingOffsets b.eof.2.source =
      b.count + b.remaining.length + pendingOffsets b.source) ∧
    (∀ n, (b.tryIgnore n).2.count + (b.tryIgnore n).2.remaining.length +
        pendingOffsets (b.tryIgnore n).2.source =
      b.count + b.remaining.length + pendingOffsets b.source) ∧
    (∀ n, (b.ignoreN n).2.count + (b.ignoreN n).2.remaining.length +
        pendingOffsets (b.ignoreN n).2.source =
      b.count + b.remaining.length + pendingOffsets b.source) ∧
    (∀ to_ n, (b.read to_ n).2.1.count + (b.read to_ n).2.1.remaining.length +
        pendingOffsets (b.read to_ n).2.1.source =
      b.count + b.remaining.length + pendingOffsets b.source) ∧
    (∀ to_ n, (b.readStrict to_ n).2.1.count + (b.readStrict to_ n).2.1.remaining.length +
        pendingOffsets (b.readStrict to_ n).2.1.source =
      b.count + b.remaining.length + pendingOffsets b.source) ∧
    (pendingOffsets b.source = 0 →
      (∀ n, (b.tryIgnore n).2.count = b.count + (b.tryIgnore n).1) ∧
      (∀ to_ n, (b.read to_ n).2.1.count = b.count + (b.read to_ n).1) ∧
      (∀ n, n ≤ b.remaining.length → (b.ignoreN n).2.count = b.count + n)) ∧
    (∀ n, n ≤ b.size - b.pos →
      (b.tryIgnore n).2.bytes = b.bytes ∧ (b.ignoreN n).2.bytes = b.bytes ∧
      ∀ to_, (b.read to_ n).2.1.bytes = b.bytes) ∧
    (b.hasPendingData = true → b.eof.2.bytes = b.bytes) := by
  have hE := extent_eq b h
  obtain ⟨ec, -, -⟩ := eof_chunked b h
  have kEof := (extent_eq _ ec).trans (extent_eof b h)
  have kTry : ∀ n, (b.tryIgnore n).2.count + (b.tryIgnore n).2.remaining.length +
      pendingOffsets (b.tryIgnore n).2.source = b.extent := fun n =>
    (extent_eq _ (tryIgnoreLoop_spec b n 0 h (by omega)).2.2.1).trans
      (extent_tryIgnoreLoop b n 0 h)
  have kIgn : ∀ n, (b.ignoreN n).2.count + (b.ignoreN n).2.remaining.length +
      pendingOffsets (b.ignoreN n).2.source = b.extent := fun n => by
    rw [ignoreN_buffer]
    exact (extent_eq _ (ignoreLoop_spec b n h).2.2).trans (extent_ignoreLoop b n h)
  have kRead : ∀ to_ n, (b.read to_ n).2.1.count + (b.read to_ n).2.1.remaining.length +
      pendingOffsets (b.read to_ n).2.1.source = b.extent := fun to_ n =>
    (extent_eq _ (readLoop_spec b to_ n 0 h (by omega)).2.2.1).trans
      (extent_readLoop b to_ n 0 h)
  have kStrict : ∀ to_ n, (b.readStrict to_ n).2.1.count +
      (b.readStrict to_ n).2.1.remaining.length +
      pendingOffsets (b.readStrict to_ n).2.1.source = b.extent := fun to_ n => by
    rw [readStrict_buffer]
    exact kRead to_ n
  have kNext : b.next.2.bytes = b.bytes + b.pos := by
    unfold next nextImpl
    cases hs : b.source with
    | nil => simp [hs]
    | cons r rs => cases hres : r.res <;> simp [hres]
  refine ⟨kNext, by rw [kEof, hE], fun n => by rw [kTry, hE], fun n => by rw [kIgn, hE],
    fun to_ n => by rw [kRead, hE], fun to_ n => by rw [kStrict, hE], fun h0 => ⟨?_, ?_, ?_⟩,
    fun n hn => ?_, fun hp => ?_⟩
  · intro n
    obtain ⟨r1, r2, -, -⟩ := tryIgnoreLoop_spec b n 0 h (by omega)
    have k := kTry n
    have p := pendingOffsets_tryIgnoreLoop b n 0
    unfold tryIgnore at k ⊢
    rw [r2, List.length_drop] at k
    rw [r1]
    omega
  · intro to_ n
    obtain ⟨r1, r2, -, -⟩ := readLoop_spec b to_ n 0 h (by omega)
    have k := kRead to_ n
    have p := pendingOffsets_readLoop b to_ n 0
    unfold read at k ⊢
    rw [r2, List.length_drop] at k
    rw [r1]
    omega
  · intro n hn
    obtain ⟨-, r2, -⟩ := ignoreLoop_spec b n h
    have k := kIgn n
    have p := pendingOffsets_ignoreLoop b n
    rw [ignoreN_buffer] at k ⊢
    rw [r2, List.length_drop, Nat.min_eq_left hn] at k
    omega
  · obtain ⟨w1, w2, w3⟩ := within_region b n hn
    refine ⟨by rw [w1], by rw [w2], fun to_ => by rw [w3 to_]⟩
  · unfold eof
    rw [if_pos hp]

theorem bytes_accounting_witness :
    threeChunks.Chunked ∧
    (threeChunks.tryIgnore 5).2.count + (threeChunks.tryIgnore 5).2.remaining.length +
        pendingOffsets (threeChunks.tryIgnore 5).2.source =
      threeChunks.count + threeChunks.remaining.length + pendingOffsets threeChunks.source :=
  ⟨by decide, (bytes_accounting threeChunks (by decide)).2.2.1 5⟩

/-- Claim C16 as stated fails: on a cursor whose first refill leaves a pending offset of 1,
`eof()` consumes no byte of the stream and `bytes + (position - begin)` goes from 0 to 1. -/
theorem bytes_accounting_counterexample :
    offsetChunk.Chunked ∧ offsetChunk.bytes + offsetChunk.pos = 0 ∧
    offsetChunk.eof.2.remaining = offsetChunk.remaining ∧
    offsetChunk.eof.2.bytes + offsetChunk.eof.2.pos = 1 := by
  decide

end ReadBuffer

/-! ## Quoted literals -/

theorem loopOnStream_close (hlp : Helpers) (quote : Nat) (sql : Bool) (s rest : List Nat)
    (hrest : sql = true → rest.head? ≠ some quote) :
    loopOnStream hlp quote sql s (quote :: rest) = (none, s, rest) := by
  cases sql with
  | false => exact loopOnStream_quote_plain hlp quote s rest
  | true =>
    cases rest with
    | nil => exact loopOnStream_quote_end hlp quote s
    | cons c rest =>
      have hc : c ≠ quote := by simpa using hrest rfl
      exact loopOnStream_quote_close hlp quote s c rest hc

/-- One unit of the body that the helper accepts is decoded to its value. -/
theorem loopOnStream_token (hlp : Helpers) (quote : Nat) (sql : Bool) (t : BodyToken)
    (s rest : List Nat) (hw : t.wellFormed quote sql = true) (hd : t.decodes hlp = true) :
    loopOnStream hlp quote sql s (t.bytes quote ++ rest) =
      loopOnStream hlp quote sql (s ++ t.value hlp quote) rest := by
  cases t with
  | plain c =>
    simp only [BodyToken.wellFormed, decide_eq_true_eq] at hw
    simp only [BodyToken.bytes, BodyToken.value, List.singleton_append]
    exact loopOnStream_other hlp quote sql s c rest hw.1 hw.2
  | doubled =>
    simp only [BodyToken.wellFormed] at hw
    subst hw
    simp only [BodyToken.bytes, BodyToken.value, List.cons_append, List.nil_append]
    exact loopOnStream_quote_double hlp quote s rest
  | escaped e =>
    simp only [BodyToken.wellFormed, decide_eq_true_eq] at hw
    simp only [BodyToken.bytes, BodyToken.value, List.cons_append, List.nil_append]
    rw [loopOnStream_escape hlp quote sql s _ (fun h => hw.1 h.symm)]
    by_cases h78 : e = 78
    · simp [escapeOnStream, h78]
    · simp [escapeOnStream, hw.2, h78]
  | hex h1 h2 =>
    simp only [BodyToken.wellFormed, decide_eq_true_eq] at hw
    simp only [BodyToken.bytes, BodyToken.value, List.cons_append, List.nil_append]
    rw [loopOnStream_escape hlp quote sql s _ (fun h => hw h.symm)]
    simp only [BodyToken.decodes] at hd
    cases hu : hlp.unhex2 h1 h2 with
    | ok v => simp [escapeOnStream, hu]
    | error e => simp [hu] at hd

/-- One unit of the body that the helper rejects makes the parse fail. -/
theorem loopOnStream_token_rejected (hlp : Helpers) (quote : Nat) (sql : Bool) (t : BodyToken)
    (s rest : List Nat) (hw : t.wellFormed quote sql = true) (hd : t.decodes hlp = false) :
    (loopOnStream hlp quote sql s (t.bytes quote ++ rest)).1 ≠ none := by
  cases t with
  | plain c => simp [BodyToken.decodes] at hd
  | doubled => simp [BodyToken.decodes] at hd
  | escaped e => simp [BodyToken.decodes] at hd
  | hex h1 h2 =>
    simp only [BodyToken.wellFormed, decide_eq_true_eq] at hw
    simp only [BodyToken.bytes, List.cons_append, List.nil_append]
    rw [loopOnStream_escape hlp quote sql s _ (fun h => hw h.symm)]
    simp only [BodyToken.decodes] at hd
    cases hu : hlp.unhex2 h1 h2 with
    | ok v => simp [hu] at hd
    | error e => simp [escapeOnStream, hu]

/-- A body of units that the helper accepts is decoded to its values. -/
theorem loopOnStream_tokens (hlp : Helpers) (quote : Nat) (sql : Bool) (ts : List BodyToken) :
    ∀ (s rest : List Nat),
    (∀ t ∈ ts, t.wellFormed quote sql = true ∧ t.decodes hlp = true) →
    loopOnStream hlp quote sql s (bodyBytes quote ts ++ rest) =
      loopOnStream hlp quote sql (s ++ bodyValues hlp quote ts) rest := by
  induction ts with
  | nil => intro s rest _; simp [bodyBytes, bodyValues]
  | cons t ts ih =>
    intro s rest h
    obtain ⟨hw, hd⟩ := h t (List.mem_cons_self _ _)
    have e : bodyBytes quote (t :: ts) ++ rest = t.bytes quote ++ (bodyBytes quote ts ++ rest) := by
      simp [bodyBytes]
    rw [e, loopOnStream_token hlp quote sql t s _ hw hd,
      ih _ rest (fun t' ht' => h t' (List.mem_cons_of_mem _ ht'))]
    simp [bodyValues]

/-- A body that ends within an escape sequence, or ends without a closing quote, makes the
parse fail. -/
theorem loopOnStream_dangling (hlp : Helpers) (quote : Nat) (sql : Bool) (s tail : List Nat)
    (ht : danglingEscape tail = true) (hq : tail ≠ [] → quote ≠ 92) :
    (loopOnStream hlp quote sql s tail).1 ≠ none := by
  match tail, ht, hq with
  | [], _, _ => simp [loopOnStream_nil]
  | [a], ht, hq =>
    have ha : a = 92 := by
      by_contra hne
      simp [danglingEscape, hne] at ht
    subst ha
    rw [loopOnStream_escape hlp quote sql s _ (fun h => hq (by simp) h.symm)]
    simp [escapeOnStream]
  | [a, c], ht, hq =>
    have ha : a = 92 ∧ c = 120 := by
      by_contra hne
      rw [not_and_or] at hne
      rcases hne with hne | hne
      · unfold danglingEscape at ht
        split at ht <;> simp_all
      · unfold danglingEscape at ht
        split at ht <;> simp_all
    obtain ⟨rfl, rfl⟩ := ha
    rw [loopOnStream_escape hlp quote sql s _ (fun h => hq (by simp) h.symm)]
    simp [escapeOnStream]
  | [a, c, d], ht, hq =>
    have ha : a = 92 ∧ c = 120 := by
      by_contra hne
      rw [not_and_or] at hne
      rcases hne with hne | hne
      · unfold danglingEscape at ht
        split at ht <;> simp_all
      · unfold danglingEscape at ht
        split at ht <;> simp_all
    obtain ⟨rfl, rfl⟩ := ha
    rw [loopOnStream_escape hlp quote sql s _ (fun h => hq (by simp) h.symm)]
    simp [escapeOnStream]
  | _ :: _ :: _ :: _ :: _, ht, _ => simp [danglingEscape] at ht

/-- A body without a closing quote makes the parse fail. -/
theorem loopOnStream_unterminated (hlp : Helpers) (quote : Nat) (sql : Bool)
    (ts : List BodyToken) (tail : List Nat)
    (ht : danglingEscape tail = true) (hq : tail ≠ [] → quote ≠ 92) :
    ∀ (s : List Nat), (∀ t ∈ ts, t.wellFormed quote sql = true) →
    (loopOnStream hlp quote sql s (bodyBytes quote ts ++ tail)).1 ≠ none := by
  induction ts with
  | nil =>
    intro s _
    simpa [bodyBytes] using loopOnStream_dangling hlp quote sql s tail ht hq
  | cons t ts ih =>
    intro s h
    have hw := h t (List.mem_cons_self _ _)
    have e : bodyBytes quote (t :: ts) ++ tail = t.bytes quote ++ (bodyBytes quote ts ++ tail) := by
      simp [bodyBytes]
    rw [e]
    cases hd : t.decodes hlp with
    | true =>
      rw [loopOnStream_token hlp quote sql t s _ hw hd]
      exact ih _ (fun t' ht' => h t' (List.mem_cons_of_mem _ ht'))
    | false => exact loopOnStream_token_rejected hlp quote sql t s _ hw hd

/-- A literal whose body is made of units: the parse succeeds exactly when the helper accepts
every unit, and a successful parse stops right after the closing quote. -/
theorem loopOnStream_literal (hlp : Helpers) (quote : Nat) (sql : Bool)
    (ts : List BodyToken) (rest : List Nat) (hrest : sql = true → rest.head? ≠ some quote) :
    ∀ (s : List Nat), (∀ t ∈ ts, t.wellFormed quote sql = true) →
    ((loopOnStream hlp quote sql s (bodyBytes quote ts ++ quote :: rest)).1 = none ↔
      ∀ t ∈ ts, t.decodes hlp = true) ∧
    ((loopOnStream hlp quote sql s (bodyBytes quote ts ++ quote :: rest)).1 = none →
      loopOnStream hlp quote sql s (bodyBytes quote ts ++ quote :: rest) =
        (none, s ++ bodyValues hlp quote ts, rest)) := by
  induction ts with
  | nil =>
    intro s _
    simp [bodyBytes, bodyValues, loopOnStream_close hlp quote sql s rest hrest]
  | cons t ts ih =>
    intro s h
    have hw := h t (List.mem_cons_self _ _)
    have e : bodyBytes quote (t :: ts) ++ quote :: rest =
        t.bytes quote ++ (bodyBytes quote ts ++ quote :: rest) := by
      simp [bodyBytes]
    rw [e]
    cases hd : t.decodes hlp with
    | true =>
      rw [loopOnStream_token hlp quote sql t s _ hw hd]
      obtain ⟨i1, i2⟩ := ih (s ++ t.value hlp quote)
        (fun t' ht' => h t' (List.mem_cons_of_mem _ ht'))
      refine ⟨?_, ?_⟩
      · rw [i1]
        simp [hd]
      · intro hn
        rw [i2 hn]
        simp [bodyValues]
    | false =>
      have hr := loopOnStream_token_rejected hlp quote sql t s
        (bodyBytes quote ts ++ quote :: rest) hw hd
      refine ⟨?_, fun hn => absurd hn hr⟩
      constructor
      · intro hn
        exact absurd hn hr
      · intro hall
        have := hall t (List.mem_cons_self _ _)
        rw [hd] at this
        exact absurd this (by simp)

theorem backslashEscaped_eq (quote : Nat) (v : List Nat) :
    backslashEscaped quote v =
      bodyBytes quote (v.map (fun c => if c = quote ∨ c = 92 then BodyToken.escaped c
        else BodyToken.plain c)) := by
  induction v with
  | nil => rfl
  | cons c cs ih =>
    simp only [backslashEscaped, bodyBytes, List.flatMap_cons, List.map_cons] at ih ⊢
    rw [ih]
    by_cases h : c = quote ∨ c = 92 <;> simp [h, BodyToken.bytes]

theorem hexEscapes_eq (quote : Nat) (es : List (Option (Nat × Nat))) :
    hexEscapes es =
      bodyBytes quote (es.map escapeToken) := by
  induction es with
  | nil => rfl
  | cons e es ih =>
    simp only [hexEscapes, bodyBytes, List.flatMap_cons, List.map_cons] at ih ⊢
    rw [ih]
    cases e with
    | none => simp [BodyToken.bytes, escapeToken]
    | some p => simp [BodyToken.bytes, escapeToken]

/-- Every body is of one of two shapes: units followed by a terminating quote, or units
followed by an escape sequence that the end of the stream cuts short (or by nothing). -/
theorem body_shapes (quote : Nat) (sql : Bool) : ∀ (n : Nat) (l : List Nat), l.length ≤ n →
    (∃ ts tail, (∀ t ∈ ts, BodyToken.wellFormed quote sql t = true) ∧
      danglingEscape tail = true ∧ (tail ≠ [] → quote ≠ 92) ∧ l = bodyBytes quote ts ++ tail) ∨
    (∃ ts rest, (∀ t ∈ ts, BodyToken.wellFormed quote sql t = true) ∧
      (sql = true → rest.head? ≠ some quote) ∧ l = bodyBytes quote ts ++ quote :: rest) := by
  have prepend : ∀ (t : BodyToken) (l : List Nat), t.wellFormed quote sql = true →
      ((∃ ts tail, (∀ t ∈ ts, BodyToken.wellFormed quote sql t = true) ∧
        danglingEscape tail = true ∧ (tail ≠ [] → quote ≠ 92) ∧
        l = bodyBytes quote ts ++ tail) ∨
      (∃ ts rest, (∀ t ∈ ts, BodyToken.wellFormed quote sql t = true) ∧
        (sql = true → rest.head? ≠ some quote) ∧ l = bodyBytes quote ts ++ quote :: rest)) →
      ((∃ ts tail, (∀ t ∈ ts, BodyToken.wellFormed quote sql t = true) ∧
        danglingEscape tail = true ∧ (tail ≠ [] → quote ≠ 92) ∧
        t.bytes quote ++ l = bodyBytes quote ts ++ tail) ∨
      (∃ ts rest, (∀ t ∈ ts, BodyToken.wellFormed quote sql t = true) ∧
        (sql = true → rest.head? ≠ some quote) ∧
        t.bytes quote ++ l = bodyBytes quote ts ++ quote :: rest)) := by
    intro t l hw h
    rcases h with ⟨ts, tail, h1, h2, h3, h4⟩ | ⟨ts, rest, h1, h2, h4⟩
    · refine Or.inl ⟨t :: ts, tail, ?_, h2, h3, ?_⟩
      · intro t' ht'
        rcases List.mem_cons.mp ht' with rfl | hm
        · exact hw
        · exact h1 t' hm
      · rw [h4]
        simp [bodyBytes]
    · refine Or.inr ⟨t :: ts, rest, ?_, h2, ?_⟩
      · intro t' ht'
        rcases List.mem_cons.mp ht' with rfl | hm
        · exact hw
        · exact h1 t' hm
      · rw [h4]
        simp [bodyBytes]
  intro n
  induction n with
  | zero =>
    intro l hl
    have : l = [] := List.length_eq_zero.mp (by omega)
    subst this
    exact Or.inl ⟨[], [], by simp, rfl, by simp, rfl⟩
  | succ n ih =>
    intro l hl
    match l, hl with
    | [], _ => exact Or.inl ⟨[], [], by simp, rfl, by simp, rfl⟩
    | c :: r, hl =>
      simp only [List.length_cons] at hl
      by_cases hc : c = quote
      · subst hc
        by_cases hd : sql = true ∧ r.head? = some c
        · obtain ⟨hs, hr⟩ := hd
          match r, hr with
          | c2 :: r2, hr =>
            have : c2 = c := by simpa using hr
            subst this
            simp only [List.length_cons] at hl
            exact prepend BodyToken.doubled r2 (by simp [BodyToken.wellFormed, hs])
              (ih r2 (by omega))
        · refine Or.inr ⟨[], r, by simp, ?_, by simp [bodyBytes]⟩
          intro hs
          exact fun hr => hd ⟨hs, hr⟩
      · by_cases hb : c = 92
        · subst hb
          have hq : quote ≠ 92 := fun h => hc h.symm
          match r, hl with
          | [], _ => exact Or.inl ⟨[], [92], by simp, rfl, fun _ => hq, rfl⟩
          | e :: r2, hl =>
            simp only [List.length_cons] at hl
            by_cases he : e = 120
            · subst he
              match r2, hl with
              | [], _ => exact Or.inl ⟨[], [92, 120], by simp, rfl, fun _ => hq, rfl⟩
              | [h], _ => exact Or.inl ⟨[], [92, 120, h], by simp, rfl, fun _ => hq, rfl⟩
              | h1 :: h2 :: r3, hl =>
                simp only [List.length_cons] at hl
                exact prepend (BodyToken.hex h1 h2) r3 (by simp [BodyToken.wellFormed, hq])
                  (ih r3 (by omega))
            · exact prepend (BodyToken.escaped e) r2 (by simp [BodyToken.wellFormed, hq, he])
                (ih r2 (by omega))
        · exact prepend (BodyToken.plain c) r (by simp [BodyToken.wellFormed, hc, hb])
            (ih r (by omega))

theorem bodyValues_backslashEscaped (hlp : Helpers) (quote : Nat) (v : List Nat)
    (h78 : quote ≠ 78) (hpq : hlp.parseEscapeSequence quote = quote)
    (hpb : hlp.parseEscapeSequence 92 = 92) :
    bodyValues hlp quote (v.map (fun c => if c = quote ∨ c = 92 then BodyToken.escaped c
      else BodyToken.plain c)) = v := by
  induction v with
  | nil => rfl
  | cons c cs ih =>
    simp only [bodyValues, List.flatMap_cons, List.map_cons] at ih ⊢
    rw [ih]
    by_cases h1 : c = quote
    · subst h1
      simp [BodyToken.value, h78, hpq]
    · by_cases h2 : c = 92
      · subst h2
        simp [BodyToken.value, hpb]
      · simp [h1, h2, BodyToken.value]

theorem bodyValues_hexEscapes (hlp : Helpers) (quote : Nat) (es : List (Option (Nat × Nat)))
    (hhex : ∀ h1 h2 v1 v2, hexDigitValue h1 = some v1 → hexDigitValue h2 = some v2 →
      hlp.unhex2 h1 h2 = .ok (v1 * 16 + v2))
    (hes : hexDigitsOnly es = true) :
    bodyValues hlp quote (es.map escapeToken) = hexBytes es ∧
    ∀ t ∈ es.map escapeToken, t.decodes hlp = true := by
  induction es with
  | nil => exact ⟨rfl, by simp⟩
  | cons e es ih =>
    simp only [hexDigitsOnly, List.all_cons, Bool.and_eq_true] at hes
    obtain ⟨i1, i2⟩ := ih (by simpa [hexDigitsOnly] using hes.2)
    simp only [bodyValues, hexBytes, List.flatMap_cons, List.map_cons] at i1 ⊢
    rw [i1]
    cases e with
    | none =>
      refine ⟨by simp [BodyToken.value, escapeToken], ?_⟩
      intro t ht
      rcases List.mem_cons.mp ht with rfl | hm
      · rfl
      · exact i2 t hm
    | some p =>
      obtain ⟨h1, h2⟩ := p
      have hd := hes.1
      simp only [Bool.and_eq_true, Option.isSome_iff_exists] at hd
      obtain ⟨⟨v1, e1⟩, ⟨v2, e2⟩⟩ := hd
      have hu := hhex h1 h2 v1 v2 e1 e2
      refine ⟨by simp [BodyToken.value, escapeToken, hu, e1, e2], ?_⟩
      intro t ht
      rcases List.mem_cons.mp ht with rfl | hm
      · simp [BodyToken.decodes, escapeToken, hu]
      · exact i2 t hm

theorem quoteCharacters_ne (quote : Nat) (hq : quote ∈ quoteCharacters) :
    quote ≠ 92 ∧ quote ≠ 120 ∧ quote ≠ 78 := by
  simp only [quoteCharacters, List.mem_cons, List.mem_singleton, List.not_mem_nil,
    or_false] at hq
  rcases hq with rfl | rfl | rfl <;> decide

/-- Claim C11: with SQL-style doubling disabled, for each quote character `q` of the entry
points (single quote, back quote, double quote) and every byte string `v`, parsing the stream
`q`, `v` with every `q` and every backslash preceded by a backslash, `q`, however it is cut
into chunks and whatever follows it, succeeds, appends exactly `v` to the output and consumes
exactly the literal; the escape table is taken to map the quote and the backslash to
themselves, as the spec says. -/
theorem readAnyQuotedStringInto_backslash_escaped (hlp : Helpers) (quote : Nat)
    (v rest s : List Nat) (b : ReadBuffer) (hb : b.ChunkedNonEmpty)
    (hq : quote ∈ quoteCharacters)
    (hpq : hlp.parseEscapeSequence quote = quote) (hpb : hlp.parseEscapeSequence 92 = 92)
    (hrem : b.remaining = quote :: (backslashEscaped quote v ++ quote :: rest)) :
    (readAnyQuotedStringInto hlp quote false s b).1 = none ∧
    (readAnyQuotedStringInto hlp quote false s b).2.1 = s ++ v ∧
    (readAnyQuotedStringInto hlp quote false s b).2.2.remaining = rest := by
  obtain ⟨h92, h120, h78⟩ := quoteCharacters_ne quote hq
  obtain ⟨p1, -⟩ := parse_refines hlp quote false b s hb
  rw [hrem] at p1
  simp only [parseOnStream, ne_eq, not_true_eq_false, if_false] at p1
  rw [backslashEscaped_eq, loopOnStream_tokens hlp quote false _ s _ ?_,
    bodyValues_backslashEscaped hlp quote v h78 hpq hpb,
    loopOnStream_quote_plain] at p1
  · have e1 := congrArg Prod.fst p1
    have e2 := congrArg (fun x => x.2.1) p1
    have e3 := congrArg (fun x => x.2.2) p1
    simp only at e1 e2 e3
    exact ⟨e1.symm, e2.symm, e3.symm⟩
  · intro t ht
    obtain ⟨c, -, rfl⟩ := List.mem_map.mp ht
    by_cases h1 : c = quote
    · subst h1
      simp [BodyToken.wellFormed, BodyToken.decodes, h92, h120]
    · by_cases h2 : c = 92
      · subst h2
        simp [BodyToken.wellFormed, BodyToken.decodes, h92]
      · simp [h1, h2, BodyToken.wellFormed, BodyToken.decodes]

theorem readAnyQuotedStringInto_backslash_escaped_witness :
    escapedQuoteChunks.ChunkedNonEmpty ∧
    escapedQuoteChunks.remaining =
      39 :: (backslashEscaped 39 [105, 116, 39, 115] ++ 39 :: []) ∧
    (readAnyQuotedStringInto specHelpers 39 false [] escapedQuoteChunks).1 = none ∧
    (readAnyQuotedStringInto specHelpers 39 false [] escapedQuoteChunks).2.1 =
      [] ++ [105, 116, 39, 115] :=
  ⟨by decide, by decide,
    (readAnyQuotedStringInto_backslash_escaped specHelpers 39 [105, 116, 39, 115] [] []
      escapedQuoteChunks (by decide) (by decide) (by decide) (by decide) (by decide)).1,
    (readAnyQuotedStringInto_backslash_escaped specHelpers 39 [105, 116, 39, 115] [] []
      escapedQuoteChunks (by decide) (by decide) (by decide) (by decide) (by decide)).2.1⟩

/-- Claim C12: for every stream that starts with the quote character and whose body has no
terminating quote before the source is exhausted (a sequence of plain bytes, doubled quotes in
the SQL dialect, and escapes, followed by nothing or by an escape that the end of the stream
cuts short), `readAnyQuotedStringInto` fails instead of returning; when the stream ends
outside an escape and the helper accepts every `\x` escape, the failure is the parse error
`expected closing quote`, raised after the whole stream is consumed and the body is
appended. -/
theorem readAnyQuotedStringInto_unterminated (hlp : Helpers) (quote : Nat) (sql : Bool)
    (ts : List BodyToken) (tail s : List Nat) (b : ReadBuffer) (hb : b.ChunkedNonEmpty)
    (hts : ∀ t ∈ ts, t.wellFormed quote sql = true)
    (ht : danglingEscape tail = true) (hq : tail ≠ [] → quote ≠ 92)
    (hrem : b.remaining = quote :: (bodyBytes quote ts ++ tail)) :
    (readAnyQuotedStringInto hlp quote sql s b).1 ≠ none ∧
    ((∀ t ∈ ts, t.decodes hlp = true) → tail = [] →
      (readAnyQuotedStringInto hlp quote sql s b).1 =
        some "Cannot parse quoted string: expected closing quote" ∧
      (readAnyQuotedStringInto hlp quote sql s b).2.1 = s ++ bodyValues hlp quote ts ∧
      (readAnyQuotedStringInto hlp quote sql s b).2.2.remaining = []) := by
  obtain ⟨p1, -⟩ := parse_refines hlp quote sql b s hb
  rw [hrem] at p1
  simp only [parseOnStream, ne_eq, not_true_eq_false, if_false] at p1
  refine ⟨?_, ?_⟩
  · have e1 := congrArg Prod.fst p1
    simp only at e1
    rw [← e1]
    exact loopOnStream_unterminated hlp quote sql ts tail ht hq s hts
  · intro hd htail
    subst htail
    rw [loopOnStream_tokens hlp quote sql ts s [] (fun t h => ⟨hts t h, hd t h⟩),
      loopOnStream_nil] at p1
    have e1 := congrArg Prod.fst p1
    have e2 := congrArg (fun x => x.2.1) p1
    have e3 := congrArg (fun x => x.2.2) p1
    simp only at e1 e2 e3
    exact ⟨e1.symm, e2.symm, e3.symm⟩

theorem readAnyQuotedStringInto_unterminated_witness :
    (singleChunk [39, 97, 98, 99]).ChunkedNonEmpty ∧
    (singleChunk [39, 97, 98, 99]).remaining =
      39 :: (bodyBytes 39 [BodyToken.plain 97, BodyToken.plain 98, BodyToken.plain 99] ++ []) ∧
    (readAnyQuotedStringInto specHelpers 39 false [] (singleChunk [39, 97, 98, 99])).1 ≠ none :=
  ⟨by decide, by decide,
    (readAnyQuotedStringInto_unterminated specHelpers 39 false
      [BodyToken.plain 97, BodyToken.plain 98, BodyToken.plain 99] [] []
      (singleChunk [39, 97, 98, 99]) (by decide) (by decide) (by decide) (by decide)
      (by decide)).1⟩

/-- Claim C13: if the stream is at end or its next byte is not the quote character,
`readAnyQuotedStringInto` fails with the parse error `expected opening quote`, appends nothing
to the output and leaves the remaining stream as it was. -/
theorem readAnyQuotedStringInto_no_opening_quote (hlp : Helpers) (quote : Nat) (sql : Bool)
    (s : List Nat) (b : ReadBuffer) (hb : b.ChunkedNonEmpty)
    (h : b.remaining.head? ≠ some quote) :
    (readAnyQuotedStringInto hlp quote sql s b).1 =
      some "Cannot parse quoted string: expected opening quote" ∧
    (readAnyQuotedStringInto hlp quote sql s b).2.1 = s ∧
    (readAnyQuotedStringInto hlp quote sql s b).2.2.remaining = b.remaining := by
  obtain ⟨p1, -⟩ := parse_refines hlp quote sql b s hb
  have key : parseOnStream hlp quote sql s b.remaining =
      (some "Cannot parse quoted string: expected opening quote", s, b.remaining) := by
    cases hr : b.remaining with
    | nil => simp [parseOnStream]
    | cons c rest =>
      have hc : c ≠ quote := by
        rw [hr] at h
        simpa using h
      simp [parseOnStream, hc]
  rw [key] at p1
  have e1 := congrArg Prod.fst p1
  have e2 := congrArg (fun x => x.2.1) p1
  have e3 := congrArg (fun x => x.2.2) p1
  simp only at e1 e2 e3
  exact ⟨e1.symm, e2.symm, e3.symm⟩

theorem readAnyQuotedStringInto_no_opening_quote_witness :
    threeChunks.ChunkedNonEmpty ∧ threeChunks.remaining.head? ≠ some 39 ∧
    (readAnyQuotedStringInto specHelpers 39 true [7] threeChunks).2.1 = [7] ∧
    (readAnyQuotedStringInto specHelpers 39 true [7] threeChunks).2.2.remaining =
      threeChunks.remaining :=
  ⟨by decide, by decide,
    (readAnyQuotedStringInto_no_opening_quote specHelpers 39 true [7] threeChunks
      (by decide) (by decide)).2.1,
    (readAnyQuotedStringInto_no_opening_quote specHelpers 39 true [7] threeChunks
      (by decide) (by decide)).2.2⟩

/-- Claim C14: inside a quoted literal whose quote is not the backslash (the back quote in
particular), every escape `\xHH` with two hexadecimal digits appends exactly the byte whose
value is `HH`, and every escape `\N` appends nothing: for a literal whose body is a sequence
of such escapes the output is the sequence of the `HH` bytes in order, and the literal is
consumed exactly; `unhex2` is taken to decode two hexadecimal digits as the spec says. -/
theorem readAnyQuotedStringInto_hex_escapes (hlp : Helpers) (quote : Nat) (sql : Bool)
    (es : List (Option (Nat × Nat))) (rest s : List Nat) (b : ReadBuffer)
    (hb : b.ChunkedNonEmpty) (hq : quote ≠ 92)
    (hhex : ∀ h1 h2 v1 v2, hexDigitValue h1 = some v1 → hexDigitValue h2 = some v2 →
      hlp.unhex2 h1 h2 = .ok (v1 * 16 + v2))
    (hes : hexDigitsOnly es = true) (hrest : sql = true → rest.head? ≠ some quote)
    (hrem : b.remaining = quote :: (hexEscapes es ++ quote :: rest)) :
    (readAnyQuotedStringInto hlp quote sql s b).1 = none ∧
    (readAnyQuotedStringInto hlp quote sql s b).2.1 = s ++ hexBytes es ∧
    (readAnyQuotedStringInto hlp quote sql s b).2.2.remaining = rest := by
  obtain ⟨v1, v2⟩ := bodyValues_hexEscapes hlp quote es hhex hes
  obtain ⟨p1, -⟩ := parse_refines hlp quote sql b s hb
  rw [hrem] at p1
  simp only [parseOnStream, ne_eq, not_true_eq_false, if_false] at p1
  rw [hexEscapes_eq quote, loopOnStream_tokens hlp quote sql _ s _ ?_, v1,
    loopOnStream_close hlp quote sql _ rest hrest] at p1
  · have e1 := congrArg Prod.fst p1
    have e2 := congrArg (fun x => x.2.1) p1
    have e3 := congrArg (fun x => x.2.2) p1
    simp only at e1 e2 e3
    exact ⟨e1.symm, e2.symm, e3.symm⟩
  · intro t ht
    refine ⟨?_, v2 t ht⟩
    obtain ⟨e, -, rfl⟩ := List.mem_map.mp ht
    cases e with
    | none => simp [BodyToken.wellFormed, escapeToken, hq]
    | some p => simp [BodyToken.wellFormed, escapeToken, hq]

theorem specHelpers_unhex2 (h1 h2 v1 v2 : Nat) (e1 : hexDigitValue h1 = some v1)
    (e2 : hexDigitValue h2 = some v2) : specHelpers.unhex2 h1 h2 = .ok (v1 * 16 + v2) := by
  simp [specHelpers, unhex2, e1, e2]

theorem readAnyQuotedStringInto_hex_escapes_witness :
    (singleChunk [96, 92, 120, 52, 49, 92, 78, 92, 120, 52, 50, 96]).ChunkedNonEmpty ∧
    (singleChunk [96, 92, 120, 52, 49, 92, 78, 92, 120, 52, 50, 96]).remaining =
      96 :: (hexEscapes [some (52, 49), none, some (52, 50)] ++ 96 :: []) ∧
    hexBytes [some (52, 49), none, some (52, 50)] = [65, 66] ∧
    (readAnyQuotedStringInto specHelpers 96 false []
      (singleChunk [96, 92, 120, 52, 49, 92, 78, 92, 120, 52, 50, 96])).2.1 =
      [] ++ hexBytes [some (52, 49), none, some (52, 50)] :=
  ⟨by decide, by decide, by decide,
    (readAnyQuotedStringInto_hex_escapes specHelpers 96 false
      [some (52, 49), none, some (52, 50)] [] []
      (singleChunk [96, 92, 120, 52, 49, 92, 78, 92, 120, 52, 50, 96]) (by decide) (by decide)
      specHelpers_unhex2 (by decide) (by decide) (by decide)).2.1⟩

/-- Claim C20: when `readAnyQuotedStringInto` succeeds on a stream `L ++ R`, where `L` is the
quoted literal up to and including its terminating quote, it consumes exactly the bytes of
`L`: the remaining stream afterwards is `R`, in both dialects and however the stream is cut
into chunks; it succeeds exactly when the helper accepts every `\x` escape of the body. -/
theorem readAnyQuotedStringInto_consumes_literal (hlp : Helpers) (quote : Nat) (sql : Bool)
    (ts : List BodyToken) (rest s : List Nat) (b : ReadBuffer) (hb : b.ChunkedNonEmpty)
    (hts : ∀ t ∈ ts, t.wellFormed quote sql = true)
    (hrest : sql = true → rest.head? ≠ some quote)
    (hrem : b.remaining = quote :: (bodyBytes quote ts ++ quote :: rest)) :
    ((readAnyQuotedStringInto hlp quote sql s b).1 = none ↔ ∀ t ∈ ts, t.decodes hlp = true) ∧
    ((readAnyQuotedStringInto hlp quote sql s b).1 = none →
      (readAnyQuotedStringInto hlp quote sql s b).2.2.remaining = rest ∧
      (readAnyQuotedStringInto hlp quote sql s b).2.1 = s ++ bodyValues hlp quote ts ∧
      b.remaining.length - (readAnyQuotedStringInto hlp quote sql s b).2.2.remaining.length =
        (bodyBytes quote ts).length + 2) := by
  obtain ⟨p1, -⟩ := parse_refines hlp quote sql b s hb
  rw [hrem] at p1
  simp only [parseOnStream, ne_eq, not_true_eq_false, if_false] at p1
  obtain ⟨l1, l2⟩ := loopOnStream_literal hlp quote sql ts rest hrest s hts
  have e1 := congrArg Prod.fst p1
  simp only at e1
  rw [e1] at l1 l2
  refine ⟨l1, fun hn => ?_⟩
  rw [l2 hn] at p1
  have e2 := congrArg (fun x => x.2.1) p1
  have e3 := congrArg (fun x => x.2.2) p1
  simp only at e2 e3
  refine ⟨e3.symm, e2.symm, ?_⟩
  rw [← e3, hrem]
  simp only [List.length_cons, List.length_append]
  omega

theorem readAnyQuotedStringInto_consumes_literal_witness :
    literalThenRest.ChunkedNonEmpty ∧
    literalThenRest.remaining = 39 :: (bodyBytes 39 [BodyToken.plain 97] ++ 39 :: [44, 49]) ∧
    (readAnyQuotedStringInto specHelpers 39 true [] literalThenRest).1 = none ∧
    (readAnyQuotedStringInto specHelpers 39 true [] literalThenRest).2.2.remaining = [44, 49] :=
  ⟨by decide, by decide,
    (readAnyQuotedStringInto_consumes_literal specHelpers 39 true [BodyToken.plain 97]
      [44, 49] [] literalThenRest (by decide) (by decide) (by decide) (by decide)).1.mpr
      (by decide),
    ((readAnyQuotedStringInto_consumes_literal specHelpers 39 true [BodyToken.plain 97]
      [44, 49] [] literalThenRest (by decide) (by decide) (by decide) (by decide)).2
      ((readAnyQuotedStringInto_consumes_literal specHelpers 39 true [BodyToken.plain 97]
        [44, 49] [] literalThenRest (by decide) (by decide) (by decide) (by decide)).1.mpr
        (by decide))).1⟩

end DB
